import Mathlib

/-!
# Sink: storage keys, the LMDB-backed named database and the query facade

A shallow embedding of

* `common/storage/key.cpp` (Identifier, Revision, Key and their byte forms),
* `common/storage_lmdb.cpp` (`DataStore::NamedDatabase`, `DataStore::Transaction`,
  `DataStore::createTransaction` and `removeFromDisk`),
* `common/facade.h` (`fullScan`, `filterSet`, `getFilter`, `replaySet`, `load`, the two query entry points),
* `akonadi2_cli/module.cpp` (`Module::match` and `Module::tokenize`),

followed by the properties proved about them.

Byte arrays are lists of byte values; the order on them is the bytewise
lexicographic order `memcmp` followed by the length comparison gives, which is
the order of `QByteArray::operator<` and of LMDB keys.
-/

namespace Sink

/-! ## QByteArray -/

/-- A byte array: the list of its byte values. -/
abbrev QByteArray := List Nat

namespace QByteArray

/-- Bytewise lexicographic order, a proper prefix first. -/
def lt (a b : QByteArray) : Prop := List.Lex (fun x y : Nat => x < y) a b

instance decLt (a b : QByteArray) : Decidable (lt a b) := by
  unfold lt
  infer_instance

/-- The Qt call `a.startsWith(p)`. -/
def startsWith (a p : QByteArray) : Bool := p.isPrefixOf a

/-- The Qt call `a.mid(pos)`: everything from `pos` on. -/
def mid (a : QByteArray) (pos : Nat) : QByteArray := a.drop pos

/-- The Qt call `a.mid(pos, len)`. -/
def midLen (a : QByteArray) (pos len : Nat) : QByteArray := (a.drop pos).take len

/-- The Qt call `a.rightJustified(width, fill)` (no truncation). -/
def rightJustified (a : QByteArray) (width fill : Nat) : QByteArray :=
  if a.length < width then List.replicate (width - a.length) fill ++ a else a

/-- Decimal digits of `n`, most significant first, pushed in front of `acc`
(the loop of `qulltoa`, which fills its buffer from the back). -/
def numberAux : Nat → Nat → QByteArray → QByteArray
  | 0, _, acc => acc
  | fuel + 1, n, acc =>
    if n < 10 then (48 + n) :: acc
    else numberAux fuel (n / 10) ((48 + n % 10) :: acc)

/-- The Qt call `QByteArray::number(n)` in base 10. -/
def number (n : Int) : QByteArray :=
  if n < 0 then 45 :: numberAux (n.natAbs + 1) n.natAbs []
  else numberAux (n.natAbs + 1) n.natAbs []

/-- The C `isspace` class used by the number parser. -/
def isSpace (c : Nat) : Bool := c == 32 || (9 ≤ c && c ≤ 13)

/-- Value of a run of decimal digits read left to right; `none` when a byte is
not a digit. -/
def digitsValue : Nat → QByteArray → Option Nat
  | acc, [] => some acc
  | acc, c :: cs =>
    if 48 ≤ c ∧ c ≤ 57 then digitsValue (acc * 10 + (c - 48)) cs else none

/-- The Qt call `a.toLongLong()` in base 10: surrounding white space and a sign
are accepted; a malformed or out-of-range text gives 0. -/
def toLongLong (a : QByteArray) : Int :=
  let s := ((a.dropWhile isSpace).reverse.dropWhile isSpace).reverse
  match s with
  | [] => 0
  | 45 :: ds =>
    if ds.isEmpty then 0
    else match digitsValue 0 ds with
      | some v => if v ≤ 2 ^ 63 then - (v : Int) else 0
      | none => 0
  | 43 :: ds =>
    if ds.isEmpty then 0
    else match digitsValue 0 ds with
      | some v => if v < 2 ^ 63 then (v : Int) else 0
      | none => 0
  | ds =>
    match digitsValue 0 ds with
    | some v => if v < 2 ^ 63 then (v : Int) else 0
    | none => 0

end QByteArray

/-! ## QUuid -/

/-- A UUID: its 128-bit value, most significant byte first as RFC 4122 lays it out. -/
structure QUuid where
  value : Nat
deriving DecidableEq, Repr

namespace QUuid

/-- The `width` low bytes of `v`, most significant first. -/
def beBytes : Nat → Nat → QByteArray
  | 0, _ => []
  | w + 1, v => beBytes w (v / 256) ++ [v % 256]

/-- The number a big-endian byte string denotes. -/
def beValue (bs : QByteArray) : Nat := bs.foldl (fun acc b => acc * 256 + b) 0

/-- The Qt call `uid.toRfc4122()`: the 16 bytes in network order. -/
def toRfc4122 (u : QUuid) : QByteArray := beBytes 16 u.value

/-- The Qt call `QUuid::fromRfc4122(bytes)`: the null UUID unless 16 bytes are given. -/
def fromRfc4122 (bytes : QByteArray) : QUuid :=
  if bytes.length = 16 then ⟨beValue bytes⟩ else ⟨0⟩

end QUuid

/-! ## Identifier, Revision, Key (`common/storage/key.cpp`) -/

/-- Modelled from the spec: the width used by `padNumber` of `utils.h` (missing). The
spec gives the revision text form as a zero-padded fixed-width decimal of at least
19 digits; 19 is the number of decimal digits of the largest `qint64`. -/
def uint_num_digits : Nat := 19

/-- Modelled from the spec: `padNumber` of `utils.h` (missing): the decimal text of the
number, right justified with `'0'` to the fixed width. -/
def padNumber (number : Int) : QByteArray :=
  (QByteArray.number number).rightJustified uint_num_digits 48

structure Identifier where
  uid : QUuid
deriving DecidableEq, Repr

structure Revision where
  rev : Int
deriving DecidableEq, Repr

structure Key where
  id : Identifier
  rev : Revision
deriving DecidableEq, Repr

/-- Modelled from the spec: `Identifier::INTERNAL_REPR_SIZE` of `key.h` (missing): 16 raw bytes. -/
def Identifier.INTERNAL_REPR_SIZE : Nat := 16

/-- Modelled from the spec: `Revision::INTERNAL_REPR_SIZE` of `key.h` (missing): the fixed width. -/
def Revision.INTERNAL_REPR_SIZE : Nat := 19

/-- Modelled from the spec: `Key::INTERNAL_REPR_SIZE` of `key.h` (missing): the identifier,
then the revision. -/
def Key.INTERNAL_REPR_SIZE : Nat := Identifier.INTERNAL_REPR_SIZE + Revision.INTERNAL_REPR_SIZE

def Identifier.toInternalByteArray (i : Identifier) : QByteArray :=
  i.uid.toRfc4122

/-- `Identifier::fromInternalByteArray`; `none` stands for the failed `Q_ASSERT`. -/
def Identifier.fromInternalByteArray (bytes : QByteArray) : Option Identifier :=
  if bytes.length = Identifier.INTERNAL_REPR_SIZE then some ⟨QUuid.fromRfc4122 bytes⟩ else none

def Revision.toInternalByteArray (r : Revision) : QByteArray :=
  padNumber r.rev

/-- `Revision::fromInternalByteArray`; `none` stands for the failed `Q_ASSERT`. -/
def Revision.fromInternalByteArray (bytes : QByteArray) : Option Revision :=
  if bytes.length = Revision.INTERNAL_REPR_SIZE then some ⟨bytes.toLongLong⟩ else none

def Revision.toQint64 (r : Revision) : Int := r.rev

def Key.toInternalByteArray (k : Key) : QByteArray :=
  k.id.toInternalByteArray ++ k.rev.toInternalByteArray

/-- `Key::fromInternalByteArray`; `none` stands for a failed `Q_ASSERT`. -/
def Key.fromInternalByteArray (bytes : QByteArray) : Option Key :=
  if bytes.length = Key.INTERNAL_REPR_SIZE then
    let idBytes := bytes.midLen 0 Identifier.INTERNAL_REPR_SIZE
    let revBytes := bytes.mid Identifier.INTERNAL_REPR_SIZE
    match Identifier.fromInternalByteArray idBytes, Revision.fromInternalByteArray revBytes with
    | some i, some r => some ⟨i, r⟩
    | _, _ => none
  else none

/-- The `w` low decimal digits of `n` as ASCII, most significant first. -/
def fixedDec : Nat → Nat → QByteArray
  | 0, _ => []
  | w + 1, n => fixedDec w (n / 10) ++ [48 + n % 10]

/-- A valid key: a 128-bit identifier and a non-negative 64-bit revision. -/
def Key.Valid (k : Key) : Prop :=
  k.id.uid.value < 2 ^ 128 ∧ 0 ≤ k.rev.rev ∧ k.rev.rev < 2 ^ 63

end Sink

namespace Sink

/-! ## The LMDB cursor (`lmdb.h`), as far as `storage_lmdb.cpp` uses it -/

/-- A stored entry: key and value. -/
abbrev Entry := QByteArray × QByteArray

def MDB_NOTFOUND : Int := -30798

def MDB_BAD_VALSIZE : Int := -30781

def EINVAL : Int := 22

inductive MDB_cursor_op where
  | MDB_FIRST
  | MDB_LAST
  | MDB_NEXT
  | MDB_NEXT_DUP
  | MDB_PREV
  | MDB_SET
  | MDB_SET_RANGE
deriving DecidableEq, Repr

/-- A positioned cursor over the entries of a database in key order: the entries
before the current one (nearest first), the current one, and those after it. -/
structure MDB_cursor where
  before : List Entry
  current : Entry
  after : List Entry
deriving DecidableEq, Repr

/-- What `mdb_cursor_get` leaves behind: the return code, the cursor, and the key and
data out-parameters (unchanged when the call fails). -/
structure CursorGet where
  rc : Int
  cursor : Option MDB_cursor
  key : QByteArray
  data : QByteArray
deriving DecidableEq, Repr

/-- Position the cursor on the head of `post`, with `pre` (in key order) before it. -/
def positionAt (pre post : List Entry) (cursor : Option MDB_cursor) (key data : QByteArray) :
    CursorGet :=
  match post with
  | [] => ⟨MDB_NOTFOUND, cursor, key, data⟩
  | e :: rest => ⟨0, some ⟨pre.reverse, e, rest⟩, e.1, e.2⟩

/-- The entries whose key is smaller than `key`, and the rest: where a key search lands. -/
def seek (entries : List Entry) (key : QByteArray) : List Entry × List Entry :=
  entries.span (fun e => decide (QByteArray.lt e.1 key))

/-- The LMDB call `mdb_cursor_get(cursor, &key, &data, op)` on a database holding `entries`
(ascending by key, duplicates of a key adjacent). A key search with an empty key is
rejected with `MDB_BAD_VALSIZE`. -/
def mdb_cursor_get (entries : List Entry) (cursor : Option MDB_cursor)
    (key data : QByteArray) (op : MDB_cursor_op) : CursorGet :=
  match op with
  | .MDB_FIRST => positionAt [] entries cursor key data
  | .MDB_LAST =>
    match entries.reverse with
    | [] => ⟨MDB_NOTFOUND, cursor, key, data⟩
    | e :: rest => ⟨0, some ⟨rest, e, []⟩, e.1, e.2⟩
  | .MDB_NEXT =>
    match cursor with
    | none => positionAt [] entries cursor key data
    | some c =>
      match c.after with
      | [] => ⟨MDB_NOTFOUND, cursor, key, data⟩
      | n :: rest => ⟨0, some ⟨c.current :: c.before, n, rest⟩, n.1, n.2⟩
  | .MDB_NEXT_DUP =>
    match cursor with
    | none => ⟨EINVAL, cursor, key, data⟩
    | some c =>
      match c.after with
      | [] => ⟨MDB_NOTFOUND, cursor, key, data⟩
      | n :: rest =>
        if n.1 = c.current.1 then ⟨0, some ⟨c.current :: c.before, n, rest⟩, n.1, n.2⟩
        else ⟨MDB_NOTFOUND, cursor, key, data⟩
  | .MDB_PREV =>
    match cursor with
    | none =>
      match entries.reverse with
      | [] => ⟨MDB_NOTFOUND, cursor, key, data⟩
      | e :: rest => ⟨0, some ⟨rest, e, []⟩, e.1, e.2⟩
    | some c =>
      match c.before with
      | [] => ⟨MDB_NOTFOUND, cursor, key, data⟩
      | p :: rest => ⟨0, some ⟨rest, p, c.current :: c.after⟩, p.1, p.2⟩
  | .MDB_SET =>
    if key.isEmpty then ⟨MDB_BAD_VALSIZE, cursor, key, data⟩
    else
      match (seek entries key).2 with
      | [] => ⟨MDB_NOTFOUND, none, key, data⟩
      | e :: rest =>
        if e.1 = key then ⟨0, some ⟨(seek entries key).1.reverse, e, rest⟩, e.1, e.2⟩
        else ⟨MDB_NOTFOUND, none, key, data⟩
  | .MDB_SET_RANGE =>
    if key.isEmpty then ⟨MDB_BAD_VALSIZE, cursor, key, data⟩
    else positionAt (seek entries key).1 (seek entries key).2 none key data

/-! ## `DataStore::NamedDatabase` (`common/storage_lmdb.cpp`) -/

/-- Modelled from the spec: the code of the NotFound error kind
(`DataStore::ErrorCodes::NotFound` of `storage.h`, missing). The spec names the kind and
not its number; the number here only stands for it, and no property below depends on
which number it is. -/
def ErrorCodes.NotFound : Int := 4

def getErrorCode (e : Int) : Int :=
  if e = MDB_NOTFOUND then ErrorCodes.NotFound else -1

/-- One invocation of an error handler: whether it was the handler passed to the call
(`true`) or the default handler of the database (`false`), and the error code. -/
structure ErrorCall where
  explicit : Bool
  code : Int
deriving DecidableEq, Repr

/-- The reserved beginning of internal keys, the text `__internal`. -/
def s_internalPrefix : QByteArray := [95, 95, 105, 110, 116, 101, 114, 110, 97, 108]

/-- Modelled from the spec: `DataStore::isInternalKey` of `storage_common.cpp` (missing):
a key is internal when it begins with the reserved text `__internal`. -/
def isInternalKey (key : QByteArray) : Bool := key.startsWith s_internalPrefix

/-- A named database inside a transaction: whether `d` and `d->transaction` are set,
the entries the snapshot holds in cursor order, the duplicates flag, and the return
code of `mdb_cursor_open` (0 unless LMDB refuses the cursor). -/
structure NamedDatabase where
  isOpen : Bool
  entries : List Entry
  allowDuplicates : Bool
  cursorOpenRc : Int
deriving DecidableEq, Repr

/-- The outcome of a scan: the returned count, the state the result handler left, the
invocations of the result handler in order (entry and returned flag), and the
invocations of an error handler. -/
structure ScanResult (σ : Type) where
  numberOfRetrievedValues : Nat
  state : σ
  calls : List (Entry × Bool)
  errors : List ErrorCall

/-- The state of the local variables of `scan` while it iterates. -/
structure ScanState (σ : Type) where
  rc : Int
  numberOfRetrievedValues : Nat
  state : σ
  calls : List (Entry × Bool)

/-- The `while ((rc = mdb_cursor_get(cursor, &key, &data, nextOp)) == 0)` loop of `scan`. -/
def scanLoop {σ : Type} (entries : List Entry) (k : QByteArray)
    (resultHandler : σ → QByteArray → QByteArray → Bool × σ) (skipInternalKeys : Bool)
    (nextOp : MDB_cursor_op) :
    Nat → Option MDB_cursor → QByteArray → QByteArray → ScanState σ → ScanState σ
  | 0, _, _, _, st => st
  | fuel + 1, cursor, key, data, st =>
    let g := mdb_cursor_get entries cursor key data nextOp
    if g.rc = 0 then
      let current := g.key
      if current.startsWith k then
        let callResultHandler := !(skipInternalKeys && isInternalKey current)
        if callResultHandler then
          let r := resultHandler st.state current g.data
          let st1 : ScanState σ :=
            ⟨g.rc, st.numberOfRetrievedValues + 1, r.2, st.calls ++ [((current, g.data), r.1)]⟩
          if !r.1 then st1
          else scanLoop entries k resultHandler skipInternalKeys nextOp fuel g.cursor g.key g.data st1
        else
          scanLoop entries k resultHandler skipInternalKeys nextOp fuel g.cursor g.key g.data
            { st with rc := g.rc }
      else
        scanLoop entries k resultHandler skipInternalKeys nextOp fuel g.cursor g.key g.data
          { st with rc := g.rc }
    else { st with rc := g.rc }

/-- The body of `if ((rc = mdb_cursor_get(cursor, &key, &data, op)) == 0)` in the
iterating branch of `scan`, `g` being what that first call left behind. -/
def scanFirst {σ : Type} (d : NamedDatabase) (k : QByteArray)
    (resultHandler : σ → QByteArray → QByteArray → Bool × σ) (s0 : σ)
    (findSubstringKeys skipInternalKeys : Bool) (g : CursorGet) : ScanState σ :=
  if g.rc = 0 then
    let current := g.key
    -- The first lookup will find a key that is equal or greater than our key
    if current.startsWith k then
      let callResultHandler := !(skipInternalKeys && isInternalKey current)
      let n := if callResultHandler then 1 else 0
      let r : Bool × σ := if callResultHandler then resultHandler s0 current g.data else (true, s0)
      let calls : List (Entry × Bool) :=
        if callResultHandler then [((current, g.data), r.1)] else []
      if !callResultHandler || r.1 then
        -- Reset the key to what we search for
        let key := if findSubstringKeys then k else g.key
        let nextOp := if d.allowDuplicates && !findSubstringKeys
          then MDB_cursor_op.MDB_NEXT_DUP else MDB_cursor_op.MDB_NEXT
        scanLoop d.entries k resultHandler skipInternalKeys nextOp (d.entries.length + 1)
          g.cursor key g.data ⟨g.rc, n, r.2, calls⟩
      else ⟨g.rc, n, r.2, calls⟩
    else ⟨g.rc, 0, s0, []⟩
  else ⟨g.rc, 0, s0, []⟩

/-- The first cursor operation of the iterating branch of `scan`. -/
def scanOp (d : NamedDatabase) (findSubstringKeys : Bool) : MDB_cursor_op :=
  let op := if d.allowDuplicates then MDB_cursor_op.MDB_SET else MDB_cursor_op.MDB_FIRST
  if findSubstringKeys then MDB_cursor_op.MDB_SET_RANGE else op

/-- The step `if (rc == MDB_NOTFOUND) rc = 0` ("we never find the last value"). -/
def notFoundIsOk {σ : Type} (st : ScanState σ) : ScanState σ :=
  if st.rc = MDB_NOTFOUND then { st with rc := 0 } else st

/-- The exact-key branch of `scan`: one `MDB_SET` lookup, the handler called on a hit. -/
def scanExact {σ : Type} (d : NamedDatabase) (k : QByteArray)
    (resultHandler : σ → QByteArray → QByteArray → Bool × σ) (s0 : σ) : ScanState σ :=
  let g := mdb_cursor_get d.entries none k [] MDB_cursor_op.MDB_SET
  if g.rc = 0 then
    let r := resultHandler s0 g.key g.data
    ⟨g.rc, 1, r.2, [((g.key, g.data), r.1)]⟩
  else ⟨g.rc, 0, s0, []⟩

/-- The cursor part of `scan`, from the first `mdb_cursor_get` to the point where the
cursor is closed. -/
def scanBody {σ : Type} (d : NamedDatabase) (k : QByteArray)
    (resultHandler : σ → QByteArray → QByteArray → Bool × σ) (s0 : σ)
    (findSubstringKeys skipInternalKeys : Bool) : ScanState σ :=
  if k.isEmpty || d.allowDuplicates || findSubstringKeys then
    notFoundIsOk (scanFirst d k resultHandler s0 findSubstringKeys skipInternalKeys
      (mdb_cursor_get d.entries none k [] (scanOp d findSubstringKeys)))
  else
    scanExact d k resultHandler s0

/-- `DataStore::NamedDatabase::scan(k, resultHandler, errorHandler, findSubstringKeys,
skipInternalKeys)`. The result handler carries its own state `σ`; `hasErrorHandler`
tells whether an error handler was passed. -/
def NamedDatabase.scan {σ : Type} (d : NamedDatabase) (k : QByteArray)
    (resultHandler : σ → QByteArray → QByteArray → Bool × σ) (s0 : σ)
    (hasErrorHandler : Bool) (findSubstringKeys skipInternalKeys : Bool) : ScanResult σ :=
  if !d.isOpen then
    -- Not an error. We rely on this to read nothing from non-existing databases.
    ⟨0, s0, [], []⟩
  else if d.cursorOpenRc ≠ 0 then
    ⟨0, s0, [], [⟨hasErrorHandler, getErrorCode d.cursorOpenRc⟩]⟩
  else
    let st := scanBody d k resultHandler s0 findSubstringKeys skipInternalKeys
    ⟨st.numberOfRetrievedValues, st.state, st.calls,
      if st.rc ≠ 0 then [⟨hasErrorHandler, getErrorCode st.rc⟩] else []⟩

/-- The outcome of `findLatest`: the invocations of the result handler and of an error
handler. -/
structure FindLatestResult where
  calls : List Entry
  errors : List ErrorCall
deriving DecidableEq, Repr

/-- The local variables of `findLatest` around its `while` loop. -/
structure FindLatestState where
  rc : Int
  advanced : Bool
  cursor : Option MDB_cursor
  key : QByteArray
  data : QByteArray
deriving DecidableEq, Repr

/-- The `while (key.startsWith(k))` loop of `findLatest`. -/
def findLatestLoop (entries : List Entry) (k : QByteArray) :
    Nat → FindLatestState → FindLatestState
  | 0, st => st
  | fuel + 1, st =>
    if st.key.startsWith k then
      let g := mdb_cursor_get entries st.cursor st.key st.data MDB_cursor_op.MDB_NEXT
      if g.rc ≠ 0 then ⟨g.rc, true, g.cursor, g.key, g.data⟩
      else findLatestLoop entries k fuel ⟨g.rc, true, g.cursor, g.key, g.data⟩
    else st

/-- `DataStore::NamedDatabase::findLatest(k, resultHandler, errorHandler)`. -/
def NamedDatabase.findLatest (d : NamedDatabase) (k : QByteArray) (hasErrorHandler : Bool) :
    FindLatestResult :=
  if !d.isOpen then
    -- Not an error. We rely on this to read nothing from non-existing databases.
    ⟨[], []⟩
  else if d.cursorOpenRc ≠ 0 then
    ⟨[], [⟨hasErrorHandler, getErrorCode d.cursorOpenRc⟩]⟩
  else
    let g := mdb_cursor_get d.entries none k [] MDB_cursor_op.MDB_SET_RANGE
    let r : Int × Bool × List Entry :=
      if g.rc = 0 then
        -- The first lookup will find a key that is equal or greater than our key
        if g.key.startsWith k then
          let st := findLatestLoop d.entries k (d.entries.length + 1)
            ⟨g.rc, false, g.cursor, g.key, g.data⟩
          if st.advanced then
            -- We read past the end above, just take the last value
            let prefOp := if st.rc = MDB_NOTFOUND
              then MDB_cursor_op.MDB_LAST else MDB_cursor_op.MDB_PREV
            let p := mdb_cursor_get d.entries st.cursor st.key st.data prefOp
            (p.rc, true, [(p.key, p.data)])
          else (st.rc, false, [])
        else (g.rc, false, [])
      else (g.rc, false, [])
    -- We never find the last value
    let rc := if r.1 = MDB_NOTFOUND then 0 else r.1
    let errors : List ErrorCall :=
      if rc ≠ 0 then [⟨hasErrorHandler, getErrorCode rc⟩]
      else if !r.2.1 then
        -- Error(name, 1, "Key: " + k + " : No value found")
        [⟨hasErrorHandler, 1⟩]
      else []
    ⟨r.2.2, errors⟩

/-- The content of a database as LMDB keeps it: keys ascending, equal keys only in a
database that allows duplicates. -/
def NamedDatabase.Sorted (d : NamedDatabase) : Prop :=
  d.entries.Pairwise
    (fun a b => QByteArray.lt a.1 b.1 ∨ (d.allowDuplicates = true ∧ a.1 = b.1))

/-- An open database with a well-formed content on which LMDB grants a cursor. -/
def NamedDatabase.Ok (d : NamedDatabase) : Prop :=
  d.isOpen = true ∧ d.cursorOpenRc = 0 ∧ d.Sorted

end Sink

namespace Sink

/-- The handler invocations of a cursor walk over `todo`, the entries that the
successive `mdb_cursor_get` calls of the `scan` loop deliver, written as a
recursion over that list; `scanLoop` is shown to compute this. -/
def visit {σ : Type} (k : QByteArray)
    (resultHandler : σ → QByteArray → QByteArray → Bool × σ) (skipInternalKeys : Bool) :
    List Entry → ScanState σ → ScanState σ
  | [], st => { st with rc := MDB_NOTFOUND }
  | e :: rest, st =>
    if e.1.startsWith k && !(skipInternalKeys && isInternalKey e.1) then
      let r := resultHandler st.state e.1 e.2
      let st1 : ScanState σ :=
        ⟨0, st.numberOfRetrievedValues + 1, r.2, st.calls ++ [(e, r.1)]⟩
      if !r.1 then st1 else visit k resultHandler skipInternalKeys rest st1
    else visit k resultHandler skipInternalKeys rest { st with rc := 0 }

end Sink

namespace Sink

/-! ## The query facade (`common/facade.h`) -/

/-- Modelled from the spec: `ResultSet` of `resultset.h` (missing): the sequence of
entity ids or keys the set yields, in order. -/
structure ResultSet where
  keys : List QByteArray
deriving DecidableEq, Repr

/-- `fullScan(transaction, bufferType)`: the database is `<bufferType>.main`.
`uidFromKey` (of `storage_common.cpp`) and the default of `skipInternalKeys` (declared
in `storage.h`) are parameters. -/
def fullScan (main : NamedDatabase) (uidFromKey : QByteArray → QByteArray)
    (skipInternalKeys : Bool) : ResultSet :=
  let r := main.scan []
    (fun (keys : List QByteArray) key _value =>
      -- Skip internals
      if isInternalKey key then (true, keys)
      else (true, keys ++ [uidFromKey key]))
    [] true false skipInternalKeys
  ⟨r.state⟩

end Sink

namespace Sink

/-- The key `__internal_dbname`, under which a database records its own name. -/
def internalDbNameKey : QByteArray :=
  [95, 95, 105, 110, 116, 101, 114, 110, 97, 108, 95, 100, 98, 110, 97, 109, 101]

end Sink

namespace Sink

/-- A sample database without duplicates: the keys `a`, `ab`, `abc`, `b` and the
internal key `__internal_dbname`. -/
def sampleDb : NamedDatabase :=
  ⟨true,
    [(internalDbNameKey, [109, 97, 105, 108]), ([97], [49]), ([97, 98], [50]),
      ([97, 98, 99], [51]), ([98], [52])],
    false, 0⟩

/-- A result handler without state that always asks for more. -/
def continueHandler : Unit → QByteArray → QByteArray → Bool × Unit :=
  fun s _ _ => (true, s)

end Sink

namespace Sink

inductive Operation where
  | Operation_Creation
  | Operation_Modification
  | Operation_Removal
deriving DecidableEq, Repr

/-- A `QVariant` holding a property value: `none` is the invalid variant. -/
abbrev QVariant := Option QByteArray

/-- A `QHash<QByteArray, QVariant>`: its key/value pairs, each key once. -/
abbrev QVariantHash := List (QByteArray × QVariant)

/-- The Qt call `hash.value(key)`: the default (invalid) variant when the key is absent. -/
def QVariantHash.value (h : QVariantHash) (key : QByteArray) : QVariant :=
  match h.lookup key with
  | some v => v
  | none => none

/-- The Qt call `hash.insert(key, value)`: an existing value of the key is replaced. -/
def QVariantHash.insert (h : QVariantHash) (key : QByteArray) (value : QVariant) : QVariantHash :=
  (key, value) :: h.filter (fun kv => kv.1 != key)

/-- The Qt call `hash.keys()`. -/
def QVariantHash.keys (h : QVariantHash) : List QByteArray := h.map (fun kv => kv.1)

/-- Modelled from the spec: the domain object handed to filters and result providers
(`ApplicationDomainType` of `applicationdomaintype.h`, missing):
resource, identifier, revision and the property map the adaptor reads. -/
structure ApplicationDomainType where
  resourceInstanceIdentifier : QByteArray
  identifier : QByteArray
  revision : Int
  properties : QVariantHash
deriving DecidableEq, Repr

/-- Modelled from the spec: `getProperty(key)`: the value in the property map, the
invalid variant when the property is not present. -/
def ApplicationDomainType.getProperty (o : ApplicationDomainType) (key : QByteArray) : QVariant :=
  o.properties.value key

/-- Modelled from the spec: the fields of `Query` (`query.h`, missing) that the facade
reads, and `parentProperty`, which the spec names and the tree test sets. -/
structure Query where
  ids : List QByteArray
  propertyFilter : QVariantHash
  liveQuery : Bool
  parentProperty : QByteArray
deriving DecidableEq, Repr

/-- Modelled from the spec: what an entity buffer decodes to (`entitybuffer.h` and the
adaptor factory are missing): the revision and operation of its metadata and the
properties of the entity. -/
structure EntityBuffer where
  revision : Int
  operation : Operation
  properties : QVariantHash
deriving DecidableEq, Repr

/-- A read-only transaction as the facade uses it: the database `<bufferType>.main`, and
the revision bookkeeping that `storage_common.cpp` reads from the `revisions` data
(`maxRevision`, `getUidFromRevision`, `getTypeFromRevision`), as parameters. -/
structure Transaction where
  main : NamedDatabase
  maxRevision : Int
  getUidFromRevision : Int → QByteArray
  getTypeFromRevision : Int → QByteArray

/-- What a `GenericFacade<DomainType>` is built from: the resource identifier, the buffer
type of the domain type, the decoding of stored buffers, and as parameters
`uidFromKey`, `assembleKey` (both of `storage_common.cpp`), the index lookup
`queryIndexes` of the type implementation (result set and applied filters), and the
default of `skipInternalKeys` (declared in `storage.h`). -/
structure GenericFacade where
  mResourceInstanceIdentifier : QByteArray
  bufferType : QByteArray
  readBuffer : QByteArray → EntityBuffer
  uidFromKey : QByteArray → QByteArray
  assembleKey : QByteArray → Int → QByteArray
  queryIndexes : Query → Transaction → ResultSet × List QByteArray
  skipInternalKeys : Bool

/-- A call the facade makes on the result provider. -/
inductive ProviderCall where
  | add (value : ApplicationDomainType)
  | modify (value : ApplicationDomainType)
  | remove (value : ApplicationDomainType)
  | setRevision (revision : Int)
deriving DecidableEq, Repr

/-- `replaySet(resultSet, resultProvider)`: every value of the filtered set goes to the
provider according to its operation. -/
def replaySet (resultSet : List (ApplicationDomainType × Operation)) : List ProviderCall :=
  resultSet.map (fun vo =>
    match vo.2 with
    | .Operation_Creation => ProviderCall.add vo.1
    | .Operation_Modification => ProviderCall.modify vo.1
    | .Operation_Removal => ProviderCall.remove vo.1)

/-- `readEntity(transaction, key, resultCallback)`: the invocations of `resultCallback`,
one for the entry `findLatest` reports, none when it reports an error. -/
def GenericFacade.readEntity (f : GenericFacade) (transaction : Transaction) (key : QByteArray) :
    List (ApplicationDomainType × Operation) :=
  (transaction.main.findLatest key true).calls.map (fun kv =>
    let buffer := f.readBuffer kv.2
    (⟨f.mResourceInstanceIdentifier, f.uidFromKey kv.1, buffer.revision, buffer.properties⟩,
      buffer.operation))

/-- `loadInitialResultSet(query, transaction, remainingFilters)`: the base set and the
remaining filters. -/
def GenericFacade.loadInitialResultSet (f : GenericFacade) (query : Query)
    (transaction : Transaction) : ResultSet × List QByteArray :=
  let r := f.queryIndexes query transaction
  let appliedFilters := r.2
  let remainingFilters := query.propertyFilter.keys.filter (fun k => !appliedFilters.contains k)
  -- We do a full scan if there were no indexes available to create the initial set.
  if appliedFilters.isEmpty then
    (fullScan transaction.main f.uidFromKey f.skipInternalKeys, remainingFilters)
  else (r.1, remainingFilters)

/-- One call of the generator of `loadIncrementalResultSet`: the key it returns (empty
when it is done) and the revision counter it leaves. The fuel is the number of
revisions from the counter up to the top revision, so it is used up exactly when the
`while` condition fails. The counter is an exact integer here; `incrementalGenerator64`
has it as the `qint64` of the source, and the two agree as long as no increment wraps
(top revision below 2^63 - 1). -/
def GenericFacade.incrementalGenerator (f : GenericFacade) (transaction : Transaction) :
    Nat → Int → QByteArray × Int
  | 0, revisionCounter => ([], revisionCounter)
  | fuel + 1, revisionCounter =>
    if revisionCounter ≤ transaction.maxRevision then
      let uid := transaction.getUidFromRevision revisionCounter
      let type := transaction.getTypeFromRevision revisionCounter
      if type ≠ f.bufferType then
        -- Skip revision
        f.incrementalGenerator transaction fuel (revisionCounter + 1)
      else
        (f.assembleKey uid revisionCounter, revisionCounter + 1)
    else
      -- We're done
      ([], revisionCounter)

/-- Modelled from the spec: the keys a `ResultSet` built on a generator yields
(`resultset.h` is missing): `next()` calls the generator and reports the end when the
generated key is empty. -/
def GenericFacade.generatedKeys (f : GenericFacade) (transaction : Transaction) :
    Nat → Int → List QByteArray
  | 0, _ => []
  | fuel + 1, revisionCounter =>
    let r := f.incrementalGenerator transaction
      (transaction.maxRevision + 1 - revisionCounter).toNat revisionCounter
    if r.1.isEmpty then [] else r.1 :: f.generatedKeys transaction fuel r.2

/-- `loadIncrementalResultSet(baseRevision, query, transaction, remainingFilters)`. -/
def GenericFacade.loadIncrementalResultSet (f : GenericFacade) (baseRevision : Int)
    (query : Query) (transaction : Transaction) : ResultSet × List QByteArray :=
  (⟨f.generatedKeys transaction
      ((transaction.maxRevision + 1 - baseRevision).toNat + 1) baseRevision⟩,
    query.propertyFilter.keys)

/-- `filterSet(resultSet, filter, transaction, initialQuery)`: the values the generator of
the filtered set hands to its callback, in order. -/
def GenericFacade.filterSet (f : GenericFacade) (resultSet : ResultSet)
    (filter : ApplicationDomainType → Bool) (transaction : Transaction) (initialQuery : Bool) :
    List (ApplicationDomainType × Operation) :=
  resultSet.keys.flatMap (fun id =>
    (f.readEntity transaction id).flatMap (fun vo =>
      -- Always remove removals, they probably don't match due to non-available properties
      if filter vo.1 || vo.2 == Operation.Operation_Removal then
        if initialQuery then
          -- We're not interested in removals during the initial query
          if vo.2 != Operation.Operation_Removal then [(vo.1, Operation.Operation_Creation)]
          else []
        else [(vo.1, vo.2)]
      else []))

/-- `getFilter(remainingFilters, query)`, applied to a domain object. -/
def getFilter (remainingFilters : List QByteArray) (query : Query)
    (domainObject : ApplicationDomainType) : Bool :=
  match remainingFilters with
  | [] => true
  | filterProperty :: rest =>
    let property := domainObject.getProperty filterProperty
    if property.isSome then
      if property != query.propertyFilter.value filterProperty then false
      else getFilter rest query domainObject
    else
      -- Ignored property filter because value is invalid
      getFilter rest query domainObject

/-- `load(query, baseSetRetriever, resultProvider)`: the calls on the result provider and
the returned revision. -/
def GenericFacade.load (f : GenericFacade) (query : Query)
    (baseSetRetriever : Transaction → ResultSet × List QByteArray) (transaction : Transaction) :
    List ProviderCall × Int :=
  let r := baseSetRetriever transaction
  let filteredSet := f.filterSet r.1 (getFilter r.2 query) transaction false
  (replaySet filteredSet ++ [ProviderCall.setRevision transaction.maxRevision],
    transaction.maxRevision)

/-- `executeIncrementalQuery(query, resultProvider)`; `providerRevision` is what
`resultProvider.revision()` returns. The base revision is computed exactly; as a `qint64`
it is `wrapQint64 (providerRevision + 1)`, the same value unless the provider holds
2^63 - 1. -/
def GenericFacade.executeIncrementalQuery (f : GenericFacade) (query : Query)
    (providerRevision : Int) (transaction : Transaction) : List ProviderCall × Int :=
  let baseRevision := providerRevision + 1
  f.load query (fun t => f.loadIncrementalResultSet baseRevision query t) transaction

/-- The property name `parent`. -/
def parentPropertyName : QByteArray := [112, 97, 114, 101, 110, 116]

/-- `executeInitialQuery(query, parent, resultProvider)`. -/
def GenericFacade.executeInitialQuery (f : GenericFacade) (query : Query) (parent : QByteArray)
    (transaction : Transaction) : List ProviderCall × Int :=
  let modifiedQuery : Query :=
    { query with propertyFilter := query.propertyFilter.insert parentPropertyName (some parent) }
  f.load modifiedQuery (fun t => f.loadInitialResultSet modifiedQuery t) transaction

end Sink

namespace Sink

/-- The property name `uid`. -/
def uidPropertyName : QByteArray := [117, 105, 100]

/-- A sample facade for a type `mail`: stored buffers are told apart by their first byte
(1 Creation, 2 Modification, anything else Removal; the next byte is the revision), a
Modification carrying the property `uid` = `x`; no index is available. -/
def sampleFacade : GenericFacade :=
  { mResourceInstanceIdentifier := [114, 49]
    bufferType := [109, 97, 105, 108]
    readBuffer := fun value =>
      match value with
      | [1, r] => ⟨r, .Operation_Creation, []⟩
      | [2, r] => ⟨r, .Operation_Modification, [(uidPropertyName, some [120])]⟩
      | _ => ⟨value.getLastD 0, .Operation_Removal, []⟩
    uidFromKey := fun key => key.midLen 0 16
    assembleKey := fun uid revision => uid ++ padNumber revision
    queryIndexes := fun _ _ => (⟨[]⟩, [])
    skipInternalKeys := true }

/-- A sample content: the entity with identifier 1 was created at revision 1 and
modified at revision 2, the entity with identifier 2 was created at revision 3 and
removed at revision 4. -/
def sampleTransaction : Transaction :=
  { main :=
      ⟨true,
        [(QUuid.toRfc4122 ⟨1⟩ ++ padNumber 1, [1, 1]),
         (QUuid.toRfc4122 ⟨1⟩ ++ padNumber 2, [2, 2]),
         (QUuid.toRfc4122 ⟨2⟩ ++ padNumber 3, [1, 3]),
         (QUuid.toRfc4122 ⟨2⟩ ++ padNumber 4, [3, 4])],
        false, 0⟩
    maxRevision := 4
    getUidFromRevision := fun r => if r ≤ 2 then QUuid.toRfc4122 ⟨1⟩ else QUuid.toRfc4122 ⟨2⟩
    getTypeFromRevision := fun _ => [109, 97, 105, 108] }

/-- The sample entity 1 as its latest (modified) version reads. -/
def sampleModified : ApplicationDomainType :=
  ⟨[114, 49], QUuid.toRfc4122 ⟨1⟩, 2, [(uidPropertyName, some [120])]⟩

/-- The sample entity 2 as its latest (removed) version reads. -/
def sampleRemoved : ApplicationDomainType :=
  ⟨[114, 49], QUuid.toRfc4122 ⟨2⟩, 4, []⟩

end Sink

namespace Sink

/-- A result handler that counts its invocations and returns false on the second one. -/
def stopAtSecond : Nat → QByteArray → QByteArray → Bool × Nat :=
  fun s _ _ => (decide (s < 1), s + 1)

end Sink

namespace Sink

/-- A sample decoding of stored buffers: operation byte (1 Creation, 2 Modification,
anything else Removal), revision byte, then optionally a property: `u` followed by the
value of `uid`, or `p` followed by the value of `parent`. -/
def sampleReadBuffer (value : QByteArray) : EntityBuffer :=
  let operation := fun (o : Nat) =>
    if o = 1 then Operation.Operation_Creation
    else if o = 2 then Operation.Operation_Modification
    else Operation.Operation_Removal
  match value with
  | o :: r :: 117 :: v => ⟨r, operation o, [(uidPropertyName, some v)]⟩
  | o :: r :: 112 :: v => ⟨r, operation o, [(parentPropertyName, some v)]⟩
  | o :: r :: _ => ⟨r, operation o, []⟩
  | _ => ⟨0, Operation.Operation_Removal, []⟩

/-- A sample facade over `sampleReadBuffer`, with 16-byte identifiers and no index. -/
def storeFacade : GenericFacade :=
  { mResourceInstanceIdentifier := [114, 49]
    bufferType := [109, 97, 105, 108]
    readBuffer := sampleReadBuffer
    uidFromKey := fun key => key.midLen 0 16
    assembleKey := fun uid revision => uid ++ padNumber revision
    queryIndexes := fun _ _ => (⟨[]⟩, [])
    skipInternalKeys := true }

/-- The text `test1`. -/
def test1 : QByteArray := [116, 101, 115, 116, 49]

/-- Two stored mails: mail 1 created at revision 1 with `uid` = `test1`, mail 2 created at
revision 2 without a `uid`. -/
def twoMails : Transaction :=
  { main :=
      ⟨true,
        [(QUuid.toRfc4122 ⟨1⟩ ++ padNumber 1, [1, 1, 117] ++ test1),
         (QUuid.toRfc4122 ⟨2⟩ ++ padNumber 2, [1, 2])],
        false, 0⟩
    maxRevision := 2
    getUidFromRevision := fun r => if r ≤ 1 then QUuid.toRfc4122 ⟨1⟩ else QUuid.toRfc4122 ⟨2⟩
    getTypeFromRevision := fun _ => [109, 97, 105, 108] }

/-- Mail 1 of `twoMails` as it reads. -/
def mailWithUid : ApplicationDomainType :=
  ⟨[114, 49], QUuid.toRfc4122 ⟨1⟩, 1, [(uidPropertyName, some test1)]⟩

/-- Mail 2 of `twoMails` as it reads. -/
def mailWithoutUid : ApplicationDomainType :=
  ⟨[114, 49], QUuid.toRfc4122 ⟨2⟩, 2, []⟩

end Sink

namespace Sink

/-- The revision a result provider holds after the given calls, `revision` being the one
it held before: `setRevision` stores its argument. -/
def revisionAfter (revision : Int) (calls : List ProviderCall) : Int :=
  calls.foldl
    (fun r call =>
      match call with
      | ProviderCall.setRevision n => n
      | _ => r)
    revision

/-- Consecutive incremental runs of a live query, one per snapshot of the store, the
provider starting at `revision`: the calls each `executeIncrementalQuery` makes on the
provider; the next run starts from the revision those calls leave in the provider. -/
def GenericFacade.incrementalRuns (f : GenericFacade) (query : Query) :
    Int → List Transaction → List (List ProviderCall)
  | _, [] => []
  | revision, t :: ts =>
    let calls := (f.executeIncrementalQuery query revision t).1
    calls :: f.incrementalRuns query (revisionAfter revision calls) ts

/-- The sample store as it was after revision 2. -/
def sampleTransactionAt2 : Transaction :=
  { main :=
      ⟨true,
        [(QUuid.toRfc4122 ⟨1⟩ ++ padNumber 1, [1, 1]),
         (QUuid.toRfc4122 ⟨1⟩ ++ padNumber 2, [2, 2])],
        false, 0⟩
    maxRevision := 2
    getUidFromRevision := sampleTransaction.getUidFromRevision
    getTypeFromRevision := sampleTransaction.getTypeFromRevision }

end Sink

namespace Sink

/-- A sample decoding of stored buffers that carry two properties: operation byte
(1 Creation, 2 Modification, anything else Removal), revision byte, one byte that is the
value of `parent` and one byte that is the value of `uid`. -/
def treeReadBuffer (value : QByteArray) : EntityBuffer :=
  match value with
  | [o, r, p, u] =>
    ⟨r,
      if o = 1 then Operation.Operation_Creation
      else if o = 2 then Operation.Operation_Modification
      else Operation.Operation_Removal,
      [(parentPropertyName, some [p]), (uidPropertyName, some [u])]⟩
  | _ => ⟨0, Operation.Operation_Removal, []⟩

/-- A sample facade over `treeReadBuffer`, with 16-byte identifiers and no index. -/
def treeFacade : GenericFacade :=
  { mResourceInstanceIdentifier := [114, 49]
    bufferType := [109, 97, 105, 108]
    readBuffer := treeReadBuffer
    uidFromKey := fun key => key.midLen 0 16
    assembleKey := fun uid revision => uid ++ padNumber revision
    queryIndexes := fun _ _ => (⟨[]⟩, [])
    skipInternalKeys := true }

/-- Two stored entities: entity 1, created at revision 1 with `parent` = `x` and
`uid` = `y`, and entity 2, created at revision 2 with `parent` = `y` and `uid` = `x`. -/
def treeStore : Transaction :=
  { main :=
      ⟨true,
        [(QUuid.toRfc4122 ⟨1⟩ ++ padNumber 1, [1, 1, 120, 121]),
         (QUuid.toRfc4122 ⟨2⟩ ++ padNumber 2, [1, 2, 121, 120])],
        false, 0⟩
    maxRevision := 2
    getUidFromRevision := fun r => if r ≤ 1 then QUuid.toRfc4122 ⟨1⟩ else QUuid.toRfc4122 ⟨2⟩
    getTypeFromRevision := fun _ => [109, 97, 105, 108] }

/-- Entity 1 of `treeStore` as it reads. -/
def parentXUidY : ApplicationDomainType :=
  ⟨[114, 49], QUuid.toRfc4122 ⟨1⟩, 1,
    [(parentPropertyName, some [120]), (uidPropertyName, some [121])]⟩

/-- Entity 2 of `treeStore` as it reads. -/
def parentYUidX : ApplicationDomainType :=
  ⟨[114, 49], QUuid.toRfc4122 ⟨2⟩, 2,
    [(parentPropertyName, some [121]), (uidPropertyName, some [120])]⟩

end Sink

namespace Sink

/-! ## `DataStore::Transaction` and `DataStore` (`common/storage_lmdb.cpp`) -/

/-- Modelled from the spec: the code of the generic error kind
(`DataStore::ErrorCodes::GenericError` of `storage.h`, missing), taken as the first
enumerator. -/
def ErrorCodes.GenericError : Int := 0

/-- The texts of the errors built by the write, remove, transaction and store code; where
the text ends with LMDB's description of a return code, that code is kept. -/
inductive ErrorMessage where
  | notOpen
  | triedToWriteEmptyKey
  | mdb_put (rc : Int)
  | errorWhileOpeningDatabase (rc : Int)
  | errorWhileOpeningTransaction (rc : Int)
  | errorDuringTransactionCommit (rc : Int)
  | missingDatabaseEnvironment
  | requestedReadWriteInReadOnlyMode
  | errorOnMdbDel (rc : Int)
  | failedToRemoveDirectory
deriving DecidableEq, Repr

/-- One invocation of an error handler with an `Error(store, code, message)`: whether
it was the handler passed to the call (`true`) or the default handler (`false`), the
code and the text. -/
structure ErrorReport where
  explicit : Bool
  code : Int
  message : ErrorMessage
deriving DecidableEq, Repr

/-- The lines `SinkWarning()` and `SinkError()` write to the log while a database is
opened. -/
inductive LogLine where
  | triedToOpenDatabaseOnInvalidTransaction (db : QByteArray)
  | openedTheWrongDatabase (got expected : QByteArray)
  | failedToOpenTheDatabase (db : QByteArray)
deriving DecidableEq, Repr

/-- The LMDB calls that write, delete or end a transaction. -/
inductive MDB_call where
  | mdb_put (key data : QByteArray)
  | mdb_txn_commit
  | mdb_txn_abort
  | mdb_del (key : QByteArray) (data : Option QByteArray)
deriving DecidableEq, Repr

/-- The effect of the LMDB call `mdb_put(txn, dbi, &key, &data, 0)` on the entries of a
database. Without duplicates the value of a stored key is replaced; with duplicates the
pair is added among the values of its key unless it is stored already. -/
def mdb_put (entries : List Entry) (allowDuplicates : Bool) (key data : QByteArray) :
    List Entry :=
  if allowDuplicates then
    let smaller : Entry → Bool := fun e =>
      decide (QByteArray.lt e.1 key) || (decide (e.1 = key) && decide (QByteArray.lt e.2 data))
    match entries.dropWhile smaller with
    | [] => entries.takeWhile smaller ++ [(key, data)]
    | e :: rest =>
      if e = (key, data) then entries
      else entries.takeWhile smaller ++ (key, data) :: e :: rest
  else
    match (seek entries key).2 with
    | [] => (seek entries key).1 ++ [(key, data)]
    | e :: rest =>
      if e.1 = key then (seek entries key).1 ++ (key, data) :: rest
      else (seek entries key).1 ++ (key, data) :: e :: rest

/-- The outcome of `write`: the returned flag, the database afterwards, the LMDB calls
made and the invocations of an error handler. -/
structure WriteResult where
  result : Bool
  database : NamedDatabase
  calls : List MDB_call
  errors : List ErrorReport
deriving DecidableEq, Repr

/-- `DataStore::NamedDatabase::write(sKey, sValue, errorHandler)` on a database whose `d`
is set, so that `isOpen` tells whether `d->transaction` is; `putRc` is what `mdb_put`
returns. -/
def NamedDatabase.write (d : NamedDatabase) (sKey sValue : QByteArray)
    (hasErrorHandler : Bool) (putRc : Int) : WriteResult :=
  if !d.isOpen then
    ⟨false, d, [], [⟨hasErrorHandler, ErrorCodes.GenericError, .notOpen⟩]⟩
  else if sKey.isEmpty then
    ⟨false, d, [], [⟨hasErrorHandler, ErrorCodes.GenericError, .triedToWriteEmptyKey⟩]⟩
  else if putRc ≠ 0 then
    ⟨false, d, [.mdb_put sKey sValue],
      [⟨hasErrorHandler, ErrorCodes.GenericError, .mdb_put putRc⟩]⟩
  else
    ⟨true, { d with entries := mdb_put d.entries d.allowDuplicates sKey sValue },
      [.mdb_put sKey sValue], []⟩

/-- What LMDB answers while a named database is opened and checked: the return code of
`mdb_dbi_open`, the entries the database holds, and the return codes of
`mdb_cursor_open` and of `mdb_put`. -/
structure MDB_dbi where
  openRc : Int
  entries : List Entry
  cursorOpenRc : Int
  putRc : Int
deriving DecidableEq, Repr

/-- `DataStore::NamedDatabase::Private::openDatabase(readOnly, errorHandler)`: the returned
flag and the invocations of an error handler. A database that does not exist is no error
in a read-only transaction. -/
def NamedDatabase.Private.openDatabase (dbi : MDB_dbi) (readOnly hasErrorHandler : Bool) :
    Bool × List ErrorReport :=
  if dbi.openRc ≠ 0 then
    -- The database is not existing, ignore in read-only mode
    if !(readOnly && decide (dbi.openRc = MDB_NOTFOUND)) then
      (false, [⟨hasErrorHandler, ErrorCodes.GenericError,
        .errorWhileOpeningDatabase dbi.openRc⟩])
    else (false, [])
  else (true, [])

/-- The result handler of `ensureCorrectDb`; its state is the captured flag
`openedTheWrongDatabase` and the warnings logged so far. -/
def ensureCorrectDbHandler (db : QByteArray) :
    Bool × List LogLine → QByteArray → QByteArray → Bool × (Bool × List LogLine) :=
  fun s _ value =>
    if value ≠ db then (false, (true, s.2 ++ [.openedTheWrongDatabase value db]))
    else (false, s)

/-- The outcome of `ensureCorrectDb`: the returned flag, the database afterwards, the
LMDB calls made, the invocations of the default error handler and the warnings logged. -/
structure EnsureCorrectDbResult where
  result : Bool
  database : NamedDatabase
  calls : List MDB_call
  errors : List ErrorReport
  warnings : List LogLine
deriving DecidableEq, Repr

/-- `ensureCorrectDb(database, db, readOnly)`. The scan is given an error handler of its
own that drops the error, and leaves `skipInternalKeys` at the default of `storage.h`
(missing), taken as a parameter. -/
def ensureCorrectDb (database : NamedDatabase) (db : QByteArray)
    (readOnly skipInternalKeys : Bool) (putRc : Int) : EnsureCorrectDbResult :=
  let r := database.scan internalDbNameKey (ensureCorrectDbHandler db) (false, []) true false
    skipInternalKeys
  -- This is the first time we open this database in a write transaction, write the db name
  if r.numberOfRetrievedValues = 0 ∧ readOnly = false then
    let w := database.write internalDbNameKey db false putRc
    ⟨!r.state.1, w.database, w.calls, w.errors, r.state.2⟩
  else ⟨!r.state.1, database, [], [], r.state.2⟩

/-- The fields of `DataStore::Transaction::Private` the code reads: whether the LMDB
handle `transaction` is set, `requestedRead`, `implicitCommit` and `error`. -/
structure DataStore.Transaction.Private where
  transaction : Bool
  requestedRead : Bool
  implicitCommit : Bool
  error : Bool
deriving DecidableEq, Repr

/-- A `DataStore::Transaction`: its `d`, null in `Transaction()`. -/
structure DataStore.Transaction where
  d : Option DataStore.Transaction.Private
deriving DecidableEq, Repr

/-- `DataStore::Transaction::Private::startTransaction()`, `rc` being what
`mdb_txn_begin` returns; a failure goes to the default error handler. -/
def DataStore.Transaction.Private.startTransaction (p : DataStore.Transaction.Private)
    (rc : Int) : DataStore.Transaction.Private × List ErrorReport :=
  if rc ≠ 0 then
    (p, [⟨false, ErrorCodes.GenericError, .errorWhileOpeningTransaction rc⟩])
  else ({ p with transaction := true }, [])

/-- `DataStore::Transaction::operator bool()`. -/
def DataStore.Transaction.operator_bool (t : DataStore.Transaction) : Bool :=
  match t.d with
  | none => false
  | some p => p.transaction

/-- `DataStore::Transaction::abort()`: the transaction afterwards and the LMDB calls. -/
def DataStore.Transaction.abort (t : DataStore.Transaction) :
    DataStore.Transaction × List MDB_call :=
  match t.d with
  | none => (t, [])
  | some p =>
    if !p.transaction then (t, [])
    else (⟨some { p with transaction := false }⟩, [.mdb_txn_abort])

/-- The outcome of `commit`: the returned flag, the transaction afterwards, the LMDB
calls made and the invocations of an error handler. -/
structure CommitResult where
  result : Bool
  transaction : DataStore.Transaction
  calls : List MDB_call
  errors : List ErrorReport
deriving DecidableEq, Repr

/-- `DataStore::Transaction::commit(errorHandler)`, `rc` being what `mdb_txn_commit`
returns. -/
def DataStore.Transaction.commit (t : DataStore.Transaction) (hasErrorHandler : Bool)
    (rc : Int) : CommitResult :=
  match t.d with
  | none => ⟨false, t, [], []⟩
  | some p =>
    if !p.transaction then ⟨false, t, [], []⟩
    else if rc ≠ 0 then
      ⟨false, ⟨some { p with transaction := false }⟩, .mdb_txn_commit :: t.abort.2,
        [⟨hasErrorHandler, ErrorCodes.GenericError, .errorDuringTransactionCommit rc⟩]⟩
    else ⟨true, ⟨some { p with transaction := false }⟩, [.mdb_txn_commit], []⟩

/-- `DataStore::Transaction::~Transaction()`: the LMDB calls made and the invocations of
the default error handler, `rc` being what `mdb_txn_commit` would return. -/
def DataStore.Transaction.destructor (t : DataStore.Transaction) (rc : Int) :
    List MDB_call × List ErrorReport :=
  match t.d with
  | none => ([], [])
  | some p =>
    if p.transaction then
      if p.implicitCommit && !p.error then ((t.commit false rc).calls, (t.commit false rc).errors)
      else (t.abort.2, [])
    else ([], [])

/-- The outcome of `openDatabase`: the returned database (`none` for `NamedDatabase()`),
the transaction afterwards, the LMDB calls made, the invocations of an error handler
and the lines logged. -/
structure OpenDatabaseResult where
  database : Option NamedDatabase
  transaction : DataStore.Transaction
  calls : List MDB_call
  errors : List ErrorReport
  log : List LogLine
deriving DecidableEq, Repr

/-- `DataStore::Transaction::openDatabase(db, errorHandler, allowDuplicates)`. The result
is `none` where `Q_ASSERT(d->transaction)` fails. `skipInternalKeys` is the default
`ensureCorrectDb` leaves to `scan`. -/
def DataStore.Transaction.openDatabase (t : DataStore.Transaction) (db : QByteArray)
    (hasErrorHandler allowDuplicates : Bool) (dbi : MDB_dbi) (skipInternalKeys : Bool) :
    Option OpenDatabaseResult :=
  match t.d with
  | none => some ⟨none, t, [], [], [.triedToOpenDatabaseOnInvalidTransaction db]⟩
  | some p =>
    if !p.transaction then none
    else
      -- We don't know if anything changed
      let t1 : DataStore.Transaction := ⟨some { p with implicitCommit := true }⟩
      let o := NamedDatabase.Private.openDatabase dbi p.requestedRead hasErrorHandler
      if !o.1 then some ⟨none, t1, [], o.2, []⟩
      else
        let e := ensureCorrectDb ⟨true, dbi.entries, allowDuplicates, dbi.cursorOpenRc⟩ db
          p.requestedRead skipInternalKeys dbi.putRc
        if !e.result then
          some ⟨none, t1, e.calls, e.errors, e.warnings ++ [.failedToOpenTheDatabase db]⟩
        else some ⟨some e.database, t1, e.calls, e.errors, e.warnings⟩

/-- Modelled from the spec: the enumeration `DataStore::AccessMode` of `storage.h`
(missing), with the two modes the code names. -/
inductive DataStore.AccessMode where
  | ReadOnly
  | ReadWrite
deriving DecidableEq, Repr

/-- The fields of `DataStore::Private` the code reads: whether `env` is set, and the
mode the store was opened in. -/
structure DataStore.Private where
  env : Bool
  mode : DataStore.AccessMode
deriving DecidableEq, Repr

/-- A `DataStore`: its `d`. -/
structure DataStore where
  d : DataStore.Private
deriving DecidableEq, Repr

/-- `DataStore::createTransaction(type, errorHandlerArg)`: the returned transaction and
the invocations of an error handler, `rc` being what `mdb_txn_begin` would return. -/
def DataStore.createTransaction (s : DataStore) (type : DataStore.AccessMode)
    (hasErrorHandler : Bool) (rc : Int) : DataStore.Transaction × List ErrorReport :=
  if !s.d.env then
    (⟨none⟩, [⟨hasErrorHandler, ErrorCodes.GenericError, .missingDatabaseEnvironment⟩])
  else
    let requestedRead := decide (type = DataStore.AccessMode.ReadOnly)
    if s.d.mode = DataStore.AccessMode.ReadOnly ∧ requestedRead = false then
      (⟨none⟩,
        [⟨hasErrorHandler, ErrorCodes.GenericError, .requestedReadWriteInReadOnlyMode⟩])
    else
      let r := DataStore.Transaction.Private.startTransaction
        ⟨false, requestedRead, false, false⟩ rc
      (⟨some r.1⟩, r.2)

/-- A database named `mail` that holds its marker and one entry. -/
def mailDbi : MDB_dbi :=
  ⟨0, [(internalDbNameKey, [109, 97, 105, 108]), ([97], [49])], 0, 0⟩

/-- A database without a marker that holds one entry. -/
def unmarkedDbi : MDB_dbi := ⟨0, [([97], [49])], 0, 0⟩

/-- A store opened for reading and writing whose environment exists. -/
def sampleStore : DataStore := ⟨⟨true, DataStore.AccessMode.ReadWrite⟩⟩

/-- A store opened for reading only whose environment exists. -/
def readOnlyStore : DataStore := ⟨⟨true, DataStore.AccessMode.ReadOnly⟩⟩

end Sink

namespace Sink

/-! ## Removing entries and stores (`common/storage_lmdb.cpp`) -/

/-- A `QString`: the list of its code units. -/
abbrev QString := List Nat

/-- The effect of the LMDB call `mdb_del(txn, dbi, &key, data)` on the entries of a
database: without `data`, or in a database without duplicates, every entry of the key
goes; with `data` in a database with duplicates, only that pair. -/
def mdb_del (entries : List Entry) (allowDuplicates : Bool) (key : QByteArray)
    (data : Option QByteArray) : List Entry :=
  entries.filter (fun e =>
    !(decide (e.1 = key) &&
      (match data with
       | some v => !allowDuplicates || decide (e.2 = v)
       | none => true)))

/-- The outcome of `remove`: the database afterwards, the LMDB calls made and the
invocations of an error handler. -/
structure RemoveResult where
  database : NamedDatabase
  calls : List MDB_call
  errors : List ErrorReport
deriving DecidableEq, Repr

/-- `DataStore::NamedDatabase::remove(k, value, errorHandler)` on a database whose `d` is
set, so that `isOpen` tells whether `d->transaction` is; `delRc` is what `mdb_del`
returns. -/
def NamedDatabase.remove (d : NamedDatabase) (k value : QByteArray) (hasErrorHandler : Bool)
    (delRc : Int) : RemoveResult :=
  if !d.isOpen then
    ⟨d, [], [⟨hasErrorHandler, ErrorCodes.GenericError, .notOpen⟩]⟩
  else
    let data : Option QByteArray := if value.isEmpty then none else some value
    if delRc ≠ 0 then
      ⟨d, [.mdb_del k data], [⟨hasErrorHandler, ErrorCodes.GenericError, .errorOnMdbDel delRc⟩]⟩
    else
      ⟨{ d with entries := mdb_del d.entries d.allowDuplicates k data }, [.mdb_del k data], []⟩

/-- An LMDB environment handle (`MDB_env *`), named by a number. -/
abbrev MDB_env := Nat

/-- The process-wide registry `sEnvironments`, a `QHash<QString, MDB_env *>`: the
environment registered for a path, if any. -/
abbrev Environments := QString → Option MDB_env

/-- The Qt call `hash.take(key)`: the value of the key, the null pointer (`none`) when the
key is absent, and the hash without the key. -/
def Environments.take (h : Environments) (key : QString) : Option MDB_env × Environments :=
  (h key, fun k => if k = key then none else h k)

/-- The outcome of `removeFromDisk`: the registry afterwards, the arguments of the
`mdb_env_close` calls (`none` is the null pointer, on which `mdb_env_close` does
nothing) and the invocations of the default error handler. -/
structure RemoveFromDiskResult where
  sEnvironments : Environments
  mdb_env_close : List (Option MDB_env)
  errors : List ErrorReport

/-- `DataStore::removeFromDisk()` for the store `name` under `storageRoot`;
`removeRecursively` is what `QDir::removeRecursively` returns. -/
def DataStore.removeFromDisk (sEnvironments : Environments) (storageRoot name : QString)
    (removeRecursively : Bool) : RemoveFromDiskResult :=
  let fullPath := storageRoot ++ [47] ++ name
  let first := sEnvironments.take fullPath
  let env := first.2.take fullPath
  ⟨env.2, [env.1],
    if !removeRecursively then [⟨false, ErrorCodes.GenericError, .failedToRemoveDirectory⟩]
    else []⟩

/-- The path `/data`. -/
def dataRoot : QString := [47, 100, 97, 116, 97]

/-- A registry with the environment 1 for `/data/mail` and 2 for `/data/calendar`. -/
def sampleEnvironments : Environments := fun path =>
  if path = dataRoot ++ [47, 109, 97, 105, 108] then some 1
  else if path = dataRoot ++ [47, 99, 97, 108, 101, 110, 100, 97, 114] then some 2
  else none

/-! ## The generator of `loadIncrementalResultSet`, called repeatedly -/

/-- The keys the first `n` calls of the generator of `loadIncrementalResultSet` return,
the captured revision counter being `revisionCounter` before the first call. -/
def GenericFacade.generatorYields (f : GenericFacade) (transaction : Transaction) :
    Nat → Int → List QByteArray
  | 0, _ => []
  | n + 1, revisionCounter =>
    let r := f.incrementalGenerator transaction
      (transaction.maxRevision + 1 - revisionCounter).toNat revisionCounter
    r.1 :: f.generatorYields transaction n r.2

end Sink

namespace Sink

/-! ## The command line module (`akonadi2_cli/module.cpp`) -/

namespace Module

inductive Interactivity where
  | NotInteractive
  | EventDriven
deriving DecidableEq, Repr

mutual
/-- A node of the syntax tree, `Module::Syntax`: keyword, help text, interactivity, the
handler `lambda` (named by a number, `none` for an empty `std::function`) and the
nodes below it. -/
inductive Syntax where
  | mk (keyword help : QString) (interactivity : Interactivity) (lambda : Option Nat)
      (children : SyntaxList)
/-- A `QVector<Module::Syntax>`, `Module::SyntaxList`. -/
inductive SyntaxList where
  | nil
  | cons (head : Syntax) (tail : SyntaxList)
end

def Syntax.keyword : Syntax → QString
  | .mk keyword _ _ _ _ => keyword

def Syntax.lambda : Syntax → Option Nat
  | .mk _ _ _ lambda _ => lambda

def Syntax.children : Syntax → SyntaxList
  | .mk _ _ _ _ children => children

/-- Whether a `QVectorIterator` over the list has a next item. -/
def SyntaxList.hasNext : SyntaxList → Bool
  | .nil => false
  | .cons _ _ => true

/-- The inner loop `while (syntaxIt.hasNext())` of `match` for one word: the iterator it
leaves and `lastFullSyntax`. On a matching keyword the iterator moves to the children
of the node, and the loop goes on with the same word. -/
def matchWord (word : QString) : SyntaxList → Option Syntax → SyntaxList × Option Syntax
  | .nil, lastFullSyntax => (.nil, lastFullSyntax)
  | .cons (.mk keyword help interactivity lambda children) tail, lastFullSyntax =>
    if word = keyword then
      matchWord word children (some (.mk keyword help interactivity lambda children))
    else matchWord word tail lastFullSyntax

/-- The outer loop `while (commandLineIt.hasNext() && syntaxIt.hasNext())` of `match`:
the words left in the command line and `lastFullSyntax`. -/
def matchWords : List QString → SyntaxList → Option Syntax → List QString × Option Syntax
  | [], _, lastFullSyntax => ([], lastFullSyntax)
  | word :: commandLine, syntaxIt, lastFullSyntax =>
    if syntaxIt.hasNext then
      let r := matchWord word syntaxIt lastFullSyntax
      if !r.1.hasNext then (commandLine, r.2)
      else matchWords commandLine r.1 r.2
    else (word :: commandLine, lastFullSyntax)

end Module

/-- The module: its syntax tree `m_syntax`. -/
structure Module where
  m_syntax : Module.SyntaxList

/-- `Module::match(commandLine)`: the matched node (`none` for the null pointer of
`Command()`) and its arguments. -/
def Module.match_ (m : Module) (commandLine : List QString) :
    Option Module.Syntax × List QString :=
  if commandLine.isEmpty then (none, [])
  else
    let r := Module.matchWords commandLine m.m_syntax none
    match r.2 with
    | some lastFullSyntax =>
      if lastFullSyntax.lambda.isSome then (some lastFullSyntax, r.1) else (none, [])
    | none => (none, [])

/-- The Qt call `text.split(sep)` for a separator of one character, empty parts kept:
the pieces between consecutive separators. -/
def QString.split : QString → Nat → List QString
  | [], _ => [[]]
  | c :: cs, sep =>
    if c = sep then [] :: QString.split cs sep
    else
      match QString.split cs sep with
      | [] => [[c]]
      | piece :: pieces => (c :: piece) :: pieces

/-- The Qt call `list.join(sep)` for a separator of one character. -/
def QStringList.join : List QString → Nat → QString
  | [], _ => []
  | [piece], _ => piece
  | piece :: next :: pieces, sep => piece ++ sep :: QStringList.join (next :: pieces) sep

/-- `Module::tokenize(text)`. -/
def Module.tokenize (text : QString) : List QString :=
  -- TODO: properly tokenize (e.g. "foo bar" should not become ['"foo', 'bar"']
  text.split 32

/-- A syntax tree with the command `list` (handler 1) and below it the command
`resources` (handler 2). -/
def sampleSyntax : Module :=
  ⟨.cons (.mk [108, 105, 115, 116] [] .NotInteractive (some 1)
      (.cons (.mk [114, 101, 115, 111, 117, 114, 99, 101, 115] [] .NotInteractive (some 2)
        .nil) .nil)) .nil⟩

end Sink

namespace Sink

/-! ## The text form of a `QUuid` and the display forms (`common/storage/key.cpp`) -/

namespace QUuid

/-- The ASCII code of a hex digit, in lower case as Qt writes it. -/
def toHexDigit (n : Nat) : Nat := if n < 10 then 48 + n else 87 + n

/-- The `w` low hex digits of `n` as ASCII, most significant first. -/
def fixedHex : Nat → Nat → QByteArray
  | 0, _ => []
  | w + 1, n => toHexDigit (n / 16 ^ w % 16) :: fixedHex w n

/-- The Qt call `uid.toByteArray()`: the five hex fields separated by `-` and enclosed in
braces, `{xxxxxxxx-xxxx-xxxx-xxxx-xxxxxxxxxxxx}`. -/
def toByteArray (u : QUuid) : QByteArray :=
  123 :: (fixedHex 8 (u.value / 2 ^ 96) ++ 45 :: (fixedHex 4 (u.value / 2 ^ 80) ++
    45 :: (fixedHex 4 (u.value / 2 ^ 64) ++ 45 :: (fixedHex 4 (u.value / 2 ^ 48) ++
    45 :: (fixedHex 12 u.value ++ [125])))))

/-- The Qt call `uid.toString()`: the same characters as `toByteArray`. -/
def toString (u : QUuid) : QString := u.toByteArray

/-- The value of a hex digit, in either case. -/
def fromHexDigit (c : Nat) : Option Nat :=
  if 48 ≤ c ∧ c ≤ 57 then some (c - 48)
  else if 97 ≤ c ∧ c ≤ 102 then some (c - 87)
  else if 65 ≤ c ∧ c ≤ 70 then some (c - 55)
  else none

/-- Reads `n` hex digits from the front of the text: their value on top of `acc`, and
the rest of the text. -/
def readHex : Nat → Nat → QByteArray → Option (Nat × QByteArray)
  | 0, acc, s => some (acc, s)
  | _ + 1, _, [] => none
  | n + 1, acc, c :: cs =>
    match fromHexDigit c with
    | some v => readHex n (acc * 16 + v) cs
    | none => none

/-- Reads a `-` from the front of the text. -/
def readDash : QByteArray → Option QByteArray
  | [] => none
  | c :: s => if c = 45 then some s else none

/-- The Qt constructor `QUuid(text)`: the UUID the text denotes, with or without the
opening brace; the null UUID when the text is too short or malformed. -/
def fromByteArray (text : QByteArray) : QUuid :=
  if text.length < 36 then ⟨0⟩
  else if text.head? = some 123 ∧ text.length < 37 then ⟨0⟩
  else
    let src := if text.head? = some 123 then text.drop 1 else text
    let value : Option Nat :=
      (readHex 8 0 src).bind (fun d1 =>
      (readDash d1.2).bind (fun s1 =>
      (readHex 4 0 s1).bind (fun d2 =>
      (readDash d2.2).bind (fun s2 =>
      (readHex 4 0 s2).bind (fun d3 =>
      (readDash d3.2).bind (fun s3 =>
      (readHex 4 0 s3).bind (fun d4 =>
      (readDash d4.2).bind (fun s4 =>
      (readHex 12 0 s4).bind (fun d5 =>
        some (d1.1 * 2 ^ 96 + d2.1 * 2 ^ 80 + d3.1 * 2 ^ 64 + d4.1 * 2 ^ 48 + d5.1))))))))))
    match value with
    | some v => ⟨v⟩
    | none => ⟨0⟩

end QUuid

/-- Modelled from the spec: `Identifier::DISPLAY_REPR_SIZE` of `key.h` (missing): the
length of the display form, the 38 characters of `QUuid::toByteArray`. -/
def Identifier.DISPLAY_REPR_SIZE : Nat := 38

/-- Modelled from the spec: `Revision::DISPLAY_REPR_SIZE` of `key.h` (missing): the fixed
width, as the display form is the internal one. -/
def Revision.DISPLAY_REPR_SIZE : Nat := 19

/-- Modelled from the spec: `Key::DISPLAY_REPR_SIZE` of `key.h` (missing): the identifier,
then the revision. -/
def Key.DISPLAY_REPR_SIZE : Nat := Identifier.DISPLAY_REPR_SIZE + Revision.DISPLAY_REPR_SIZE

def Identifier.toDisplayString (i : Identifier) : QString :=
  i.uid.toString

def Identifier.toDisplayByteArray (i : Identifier) : QByteArray :=
  i.uid.toByteArray

/-- `Identifier::fromDisplayByteArray`; `none` stands for the failed `Q_ASSERT`. -/
def Identifier.fromDisplayByteArray (bytes : QByteArray) : Option Identifier :=
  if bytes.length = Identifier.DISPLAY_REPR_SIZE then some ⟨QUuid.fromByteArray bytes⟩ else none

def Revision.toDisplayByteArray (r : Revision) : QByteArray :=
  r.toInternalByteArray

/-- `Revision::fromDisplayByteArray`; `none` stands for a failed `Q_ASSERT`. -/
def Revision.fromDisplayByteArray (bytes : QByteArray) : Option Revision :=
  if bytes.length = Revision.DISPLAY_REPR_SIZE then Revision.fromInternalByteArray bytes
  else none

def Key.toDisplayByteArray (k : Key) : QByteArray :=
  k.id.toDisplayByteArray ++ k.rev.toDisplayByteArray

/-- `Key::fromDisplayByteArray`; `none` stands for a failed `Q_ASSERT`. -/
def Key.fromDisplayByteArray (bytes : QByteArray) : Option Key :=
  if bytes.length = Key.DISPLAY_REPR_SIZE then
    let idBytes := bytes.midLen 0 Identifier.DISPLAY_REPR_SIZE
    let revBytes := bytes.mid Identifier.DISPLAY_REPR_SIZE
    match Identifier.fromDisplayByteArray idBytes, Revision.fromDisplayByteArray revBytes with
    | some i, some r => some ⟨i, r⟩
    | _, _ => none
  else none

end Sink

namespace Sink

/-- The Qt call `bytes.toHex()`: two lower-case hex digits for every byte. -/
def QByteArray.toHex (bytes : QByteArray) : QByteArray :=
  bytes.flatMap (fun b => [QUuid.toHexDigit (b / 16), QUuid.toHexDigit (b % 16)])

/-- The canonical text of a UUID given by its 16 bytes: the bytes in lower-case hex, in
groups of 4, 2, 2, 2 and 6 bytes separated by `-` (36 characters). -/
def canonicalUuidText (bytes : QByteArray) : QByteArray :=
  (bytes.midLen 0 4).toHex ++ 45 :: ((bytes.midLen 4 2).toHex ++ 45 ::
    ((bytes.midLen 6 2).toHex ++ 45 :: ((bytes.midLen 8 2).toHex ++ 45 ::
    (bytes.midLen 10 6).toHex)))

end Sink

namespace Sink

/-! ## The revision counter as a `qint64` -/

end Sink

/-! ## Properties of the byte order -/

namespace Sink

theorem QByteArray.lex_append_iff (l1 l2 a b : QByteArray) (h : l1.length = l2.length) :
    QByteArray.lt (l1 ++ a) (l2 ++ b) ↔ QByteArray.lt l1 l2 ∨ (l1 = l2 ∧ QByteArray.lt a b) := by
  unfold QByteArray.lt
  induction l1 generalizing l2 with
  | nil =>
    cases l2 with
    | nil => simp
    | cons y l2 => simp at h
  | cons x l1 ih =>
    cases l2 with
    | nil => simp at h
    | cons y l2 =>
      have hl : l1.length = l2.length := by simpa using h
      constructor
      · intro hlex
        cases hlex with
        | cons h1 =>
          rcases (ih l2 hl).1 h1 with h2 | ⟨h2, h3⟩
          · exact Or.inl (List.Lex.cons h2)
          · exact Or.inr ⟨by rw [h2], h3⟩
        | rel h1 => exact Or.inl (List.Lex.rel h1)
      · rintro (h1 | ⟨h1, h2⟩)
        · cases h1 with
          | cons h3 => exact List.Lex.cons ((ih l2 hl).2 (Or.inl h3))
          | rel h3 => exact List.Lex.rel h3
        · injection h1 with hx hl'
          subst hx
          subst hl'
          exact List.Lex.cons ((ih l1 rfl).2 (Or.inr ⟨rfl, h2⟩))

theorem QByteArray.lt_singleton (a b : Nat) : QByteArray.lt [a] [b] ↔ a < b := by
  unfold QByteArray.lt
  constructor
  · intro h
    cases h with
    | cons h1 => cases h1
    | rel h1 => exact h1
  · intro h
    exact List.Lex.rel h

theorem QByteArray.lt_irrefl (a : QByteArray) : ¬ QByteArray.lt a a := by
  unfold QByteArray.lt
  induction a with
  | nil => intro h; cases h
  | cons x a ih =>
    intro h
    cases h with
    | cons h1 => exact ih h1
    | rel h1 => exact Nat.lt_irrefl _ h1

/-! ## Decimal text -/

theorem QByteArray.numberAux_acc (fuel n : Nat) (acc : QByteArray) :
    QByteArray.numberAux fuel n acc = QByteArray.numberAux fuel n [] ++ acc := by
  induction fuel generalizing n acc with
  | zero => simp [QByteArray.numberAux]
  | succ f ih =>
    simp only [QByteArray.numberAux]
    split
    · simp
    · rw [ih (n / 10) ((48 + n % 10) :: acc), ih (n / 10) [48 + n % 10]]
      simp

theorem fixedDec_length (w n : Nat) : (fixedDec w n).length = w := by
  induction w generalizing n with
  | zero => simp [fixedDec]
  | succ w ih => simp [fixedDec, ih]

theorem fixedDec_zero (w : Nat) : fixedDec w 0 = List.replicate w 48 := by
  induction w with
  | zero => simp [fixedDec]
  | succ w ih =>
    simp only [fixedDec, Nat.zero_div, Nat.zero_mod, Nat.add_zero, ih]
    exact (List.replicate_succ' ..).symm

theorem numberAux_pad (fuel : Nat) : ∀ (n w : Nat), 1 ≤ fuel → n < 10 ^ fuel → 1 ≤ w → n < 10 ^ w →
    (QByteArray.numberAux fuel n []).length ≤ w ∧
    List.replicate (w - (QByteArray.numberAux fuel n []).length) 48
      ++ QByteArray.numberAux fuel n [] = fixedDec w n := by
  induction fuel with
  | zero => intro n w h; omega
  | succ f ih =>
    intro n w _ hn hw hnw
    obtain ⟨w', rfl⟩ : ∃ w', w = w' + 1 := ⟨w - 1, by omega⟩
    simp only [QByteArray.numberAux]
    by_cases h10 : n < 10
    · simp only [h10, if_true, List.length_singleton]
      refine ⟨by omega, ?_⟩
      have h0 : n / 10 = 0 := by omega
      have h1 : n % 10 = n := by omega
      simp [fixedDec, h0, h1, fixedDec_zero]
    · simp only [h10, if_false]
      rw [QByteArray.numberAux_acc]
      have hq : n / 10 < 10 ^ f := by
        rw [pow_succ] at hn
        exact Nat.div_lt_of_lt_mul (by omega)
      have hq' : n / 10 < 10 ^ w' := by
        rw [pow_succ] at hnw
        exact Nat.div_lt_of_lt_mul (by omega)
      have hf : 1 ≤ f := by
        rcases Nat.eq_zero_or_pos f with h0 | h0
        · subst h0; simp at hq; omega
        · exact h0
      have hw1 : 1 ≤ w' := by
        rcases Nat.eq_zero_or_pos w' with h0 | h0
        · subst h0; simp at hq'; omega
        · exact h0
      obtain ⟨hlen, heq⟩ := ih (n / 10) w' hf hq hw1 hq'
      refine ⟨by simp; omega, ?_⟩
      simp only [fixedDec, ← heq, List.length_append, List.length_singleton]
      have : w' + 1 - ((QByteArray.numberAux f (n / 10) []).length + 1)
          = w' - (QByteArray.numberAux f (n / 10) []).length := by omega
      rw [this]
      simp

theorem padNumber_eq_fixedDec (r : Int) (h0 : 0 ≤ r) (h1 : r < 2 ^ 63) :
    padNumber r = fixedDec uint_num_digits r.toNat := by
  obtain ⟨n, rfl⟩ := Int.eq_ofNat_of_zero_le h0
  have hn : n < 2 ^ 63 := by exact_mod_cast h1
  have hlt : n < 10 ^ (n + 1) := by
    calc n < 2 ^ n := Nat.lt_two_pow n
      _ ≤ 10 ^ n := Nat.pow_le_pow_left (by norm_num) n
      _ ≤ 10 ^ (n + 1) := Nat.pow_le_pow_right (by norm_num) (by omega)
  have hw : n < 10 ^ uint_num_digits := by
    unfold uint_num_digits
    omega
  obtain ⟨hlen, heq⟩ := numberAux_pad (n + 1) n uint_num_digits (by omega) hlt (by decide) hw
  unfold padNumber QByteArray.number QByteArray.rightJustified
  have hneg : ¬ ((n : Int) < 0) := by omega
  simp only [hneg, if_false, Int.natAbs_ofNat, Int.toNat_ofNat]
  split
  · exact heq
  · have hl : (QByteArray.numberAux (n + 1) n []).length = uint_num_digits := by omega
    rw [← heq, hl]
    simp

end Sink

namespace Sink

theorem fixedDec_digit (w n c : Nat) (h : c ∈ fixedDec w n) : 48 ≤ c ∧ c ≤ 57 := by
  induction w generalizing n with
  | zero => simp [fixedDec] at h
  | succ w ih =>
    simp only [fixedDec, List.mem_append, List.mem_singleton] at h
    rcases h with h | h
    · exact ih _ h
    · omega

theorem QByteArray.digitsValue_append (l : QByteArray) (c acc : Nat) :
    QByteArray.digitsValue acc (l ++ [c]) =
      (QByteArray.digitsValue acc l).bind
        (fun v => if 48 ≤ c ∧ c ≤ 57 then some (v * 10 + (c - 48)) else none) := by
  induction l generalizing acc with
  | nil =>
    simp only [List.nil_append, QByteArray.digitsValue, Option.some_bind]
  | cons x l ih =>
    simp only [List.cons_append, QByteArray.digitsValue]
    split
    · exact ih _
    · rfl

theorem digitsValue_fixedDec (w : Nat) : ∀ (n : Nat), n < 10 ^ w →
    QByteArray.digitsValue 0 (fixedDec w n) = some n := by
  induction w with
  | zero =>
    intro n h
    have : n = 0 := by simpa using h
    subst this
    rfl
  | succ w ih =>
    intro n h
    have hq : n / 10 < 10 ^ w := by
      rw [pow_succ] at h
      exact Nat.div_lt_of_lt_mul (by omega)
    have hd : 48 ≤ 48 + n % 10 ∧ 48 + n % 10 ≤ 57 := by omega
    simp only [fixedDec, QByteArray.digitsValue_append, ih _ hq, Option.some_bind, hd,
      and_self, if_true]
    congr 1
    omega

theorem fixedDec_injective (w n m : Nat) (hn : n < 10 ^ w) (hm : m < 10 ^ w)
    (h : fixedDec w n = fixedDec w m) : n = m := by
  have h1 := digitsValue_fixedDec w n hn
  rw [h, digitsValue_fixedDec w m hm] at h1
  exact (Option.some.inj h1).symm

theorem fixedDec_lt_iff (w : Nat) : ∀ (n m : Nat), n < 10 ^ w → m < 10 ^ w →
    (QByteArray.lt (fixedDec w n) (fixedDec w m) ↔ n < m) := by
  induction w with
  | zero =>
    intro n m hn hm
    have h1 : n = 0 := by simpa using hn
    have h2 : m = 0 := by simpa using hm
    subst h1; subst h2
    simp only [fixedDec, Nat.lt_irrefl, iff_false]
    exact QByteArray.lt_irrefl []
  | succ w ih =>
    intro n m hn hm
    have hqn : n / 10 < 10 ^ w := by
      rw [pow_succ] at hn
      exact Nat.div_lt_of_lt_mul (by omega)
    have hqm : m / 10 < 10 ^ w := by
      rw [pow_succ] at hm
      exact Nat.div_lt_of_lt_mul (by omega)
    simp only [fixedDec]
    rw [QByteArray.lex_append_iff _ _ _ _ (by simp [fixedDec_length]), ih _ _ hqn hqm]
    have hlast : QByteArray.lt [48 + n % 10] [48 + m % 10] ↔ n % 10 < m % 10 := by
      rw [QByteArray.lt_singleton]
      omega
    rw [hlast]
    constructor
    · rintro (h | ⟨h1, h2⟩)
      · omega
      · have := fixedDec_injective w _ _ hqn hqm h1
        omega
    · intro h
      by_cases hq : n / 10 < m / 10
      · exact Or.inl hq
      · have he : n / 10 = m / 10 := by omega
        exact Or.inr ⟨by rw [he], by omega⟩

theorem toLongLong_fixedDec (w n : Nat) (hw : 1 ≤ w) (hn : n < 10 ^ w) (h63 : n < 2 ^ 63) :
    QByteArray.toLongLong (fixedDec w n) = (n : Int) := by
  have hnotspace : ∀ c ∈ fixedDec w n, QByteArray.isSpace c = false := by
    intro c hc
    have := fixedDec_digit w n c hc
    simp only [QByteArray.isSpace, Bool.or_eq_false_iff, beq_eq_false_iff_ne, ne_eq,
      Bool.and_eq_false_imp, decide_eq_true_eq, decide_eq_false_iff_not, Nat.not_le]
    omega
  have hdrop : ∀ l : QByteArray, (∀ c ∈ l, QByteArray.isSpace c = false) →
      l.dropWhile QByteArray.isSpace = l := by
    intro l hl
    cases l with
    | nil => rfl
    | cons x l => simp [List.dropWhile, hl x (List.mem_cons_self _ _)]
  have hs : (((fixedDec w n).dropWhile QByteArray.isSpace).reverse.dropWhile
      QByteArray.isSpace).reverse = fixedDec w n := by
    rw [hdrop _ hnotspace, hdrop _ (by simpa using hnotspace), List.reverse_reverse]
  unfold QByteArray.toLongLong
  simp only [hs]
  have hlen := fixedDec_length w n
  have hdv := digitsValue_fixedDec w n hn
  cases hfd : fixedDec w n with
  | nil => rw [hfd] at hlen; simp at hlen; omega
  | cons c cs =>
    have hc := fixedDec_digit w n c (by rw [hfd]; exact List.mem_cons_self _ _)
    rw [hfd] at hdv
    split
    · next h => cases h
    · next h => injection h with h1 _; omega
    · next h => injection h with h1 _; omega
    · next ds _ _ _ =>
      rw [hdv]
      simp only
      rw [if_pos h63]

theorem QUuid.beBytes_length (w v : Nat) : (QUuid.beBytes w v).length = w := by
  induction w generalizing v with
  | zero => simp [QUuid.beBytes]
  | succ w ih => simp [QUuid.beBytes, ih]

theorem QUuid.beValue_beBytes (w : Nat) : ∀ v : Nat, v < 256 ^ w →
    QUuid.beValue (QUuid.beBytes w v) = v := by
  induction w with
  | zero =>
    intro v h
    have : v = 0 := by simpa using h
    subst this
    rfl
  | succ w ih =>
    intro v h
    have hq : v / 256 < 256 ^ w := by
      rw [pow_succ] at h
      exact Nat.div_lt_of_lt_mul (by omega)
    have := ih _ hq
    unfold QUuid.beValue at this ⊢
    simp only [QUuid.beBytes, List.foldl_append, this, List.foldl_cons, List.foldl_nil]
    omega

theorem QUuid.fromRfc4122_toRfc4122 (u : QUuid) (h : u.value < 2 ^ 128) :
    QUuid.fromRfc4122 u.toRfc4122 = u := by
  unfold QUuid.fromRfc4122 QUuid.toRfc4122
  simp only [QUuid.beBytes_length, if_true]
  rw [QUuid.beValue_beBytes 16 u.value (by norm_num; exact h)]

end Sink

/-! ## Keys: round trip and order -/

namespace Sink

theorem Revision.toInternalByteArray_eq (r : Revision) (h0 : 0 ≤ r.rev) (h1 : r.rev < 2 ^ 63) :
    r.toInternalByteArray = fixedDec uint_num_digits r.rev.toNat :=
  padNumber_eq_fixedDec r.rev h0 h1

theorem Revision.toNat_lt (r : Int) (h0 : 0 ≤ r) (h1 : r < 2 ^ 63) :
    r.toNat < 10 ^ uint_num_digits ∧ r.toNat < 2 ^ 63 := by
  unfold uint_num_digits
  omega

theorem Identifier.toInternalByteArray_length (i : Identifier) :
    i.toInternalByteArray.length = 16 :=
  QUuid.beBytes_length 16 _

theorem Identifier.toInternalByteArray_injective (i j : Identifier)
    (hi : i.uid.value < 2 ^ 128) (hj : j.uid.value < 2 ^ 128)
    (h : i.toInternalByteArray = j.toInternalByteArray) : i = j := by
  have h1 := QUuid.fromRfc4122_toRfc4122 i.uid hi
  have h2 := QUuid.fromRfc4122_toRfc4122 j.uid hj
  unfold Identifier.toInternalByteArray at h
  rw [h, h2] at h1
  cases i; cases j
  simp only at h1
  rw [h1]

theorem Key.fromInternalByteArray_append (a b : QByteArray) (ha : a.length = 16)
    (hb : b.length = 19) :
    Key.fromInternalByteArray (a ++ b) = some ⟨⟨QUuid.fromRfc4122 a⟩, ⟨b.toLongLong⟩⟩ := by
  have hmid : (a ++ b).midLen 0 16 = a := by
    unfold QByteArray.midLen
    rw [List.drop_zero, List.take_append_of_le_length (by omega), List.take_of_length_le (by omega)]
  have hmid2 : (a ++ b).mid 16 = b := by
    unfold QByteArray.mid
    rw [List.drop_append_of_le_length (by omega), List.drop_of_length_le (by omega),
      List.nil_append]
  simp only [Key.fromInternalByteArray, List.length_append, ha, hb, Key.INTERNAL_REPR_SIZE,
    Identifier.INTERNAL_REPR_SIZE, Revision.INTERNAL_REPR_SIZE, if_true, hmid, hmid2,
    Identifier.fromInternalByteArray, Revision.fromInternalByteArray]

/-- C1: for every valid key (128-bit identifier, non-negative 64-bit revision)
`Key::fromInternalByteArray(k.toInternalByteArray())` passes its size assertions and
gives a key with the identifier and the revision of `k`. -/
theorem Key.internal_round_trip (k : Key) (h : k.Valid) :
    Key.fromInternalByteArray k.toInternalByteArray = some k := by
  obtain ⟨hid, h0, h1⟩ := h
  have hrev := Revision.toInternalByteArray_eq k.rev h0 h1
  obtain ⟨hlt, h63⟩ := Revision.toNat_lt k.rev.rev h0 h1
  have hidlen := Identifier.toInternalByteArray_length k.id
  have hrevlen : k.rev.toInternalByteArray.length = 19 := by
    rw [hrev, fixedDec_length]; rfl
  have hparse : k.rev.toInternalByteArray.toLongLong = k.rev.rev := by
    rw [hrev, toLongLong_fixedDec _ _ (by decide) hlt h63]
    exact Int.toNat_of_nonneg h0
  have huuid : QUuid.fromRfc4122 k.id.toInternalByteArray = k.id.uid :=
    QUuid.fromRfc4122_toRfc4122 k.id.uid hid
  have h := Key.fromInternalByteArray_append _ _ hidlen hrevlen
  rw [hparse, huuid] at h
  exact h

theorem Key.internal_round_trip_witness :
    Key.Valid ⟨⟨⟨81985529216486895⟩⟩, ⟨42⟩⟩ ∧
    Key.fromInternalByteArray (Key.toInternalByteArray ⟨⟨⟨81985529216486895⟩⟩, ⟨42⟩⟩)
      = some ⟨⟨⟨81985529216486895⟩⟩, ⟨42⟩⟩ :=
  ⟨by unfold Key.Valid; decide,
   Key.internal_round_trip ⟨⟨⟨81985529216486895⟩⟩, ⟨42⟩⟩ (by unfold Key.Valid; decide)⟩

/-- C2: for non-negative 64-bit revisions `a` and `b` the internal byte arrays have the
same fixed length of 19 bytes, all of them decimal digits that read back as the
number, and `a < b` exactly when the first byte array is lexicographically smaller
than the second. -/
theorem Revision.serialization_preserves_order (a b : Int)
    (ha0 : 0 ≤ a) (ha : a < 2 ^ 63) (hb0 : 0 ≤ b) (hb : b < 2 ^ 63) :
    (Revision.mk a).toInternalByteArray.length = uint_num_digits ∧
    (Revision.mk b).toInternalByteArray.length = uint_num_digits ∧
    19 ≤ uint_num_digits ∧
    (∀ c ∈ (Revision.mk a).toInternalByteArray, 48 ≤ c ∧ c ≤ 57) ∧
    (Revision.mk a).toInternalByteArray.toLongLong = a ∧
    (a < b ↔
      QByteArray.lt (Revision.mk a).toInternalByteArray (Revision.mk b).toInternalByteArray) := by
  have hea := Revision.toInternalByteArray_eq ⟨a⟩ ha0 ha
  have heb := Revision.toInternalByteArray_eq ⟨b⟩ hb0 hb
  obtain ⟨hla, h63a⟩ := Revision.toNat_lt a ha0 ha
  obtain ⟨hlb, _⟩ := Revision.toNat_lt b hb0 hb
  simp only at hea heb
  rw [hea, heb]
  refine ⟨fixedDec_length _ _, fixedDec_length _ _, by decide, ?_, ?_, ?_⟩
  · intro c hc
    exact fixedDec_digit _ _ c hc
  · rw [toLongLong_fixedDec _ _ (by decide) hla h63a]
    exact Int.toNat_of_nonneg ha0
  · rw [fixedDec_lt_iff _ _ _ hla hlb]
    omega

theorem Revision.serialization_preserves_order_witness :
    (Revision.mk 9).toInternalByteArray.length = uint_num_digits ∧
    (Revision.mk 10).toInternalByteArray.length = uint_num_digits ∧
    19 ≤ uint_num_digits ∧
    (∀ c ∈ (Revision.mk 9).toInternalByteArray, 48 ≤ c ∧ c ≤ 57) ∧
    (Revision.mk 9).toInternalByteArray.toLongLong = 9 ∧
    ((9 : Int) < 10 ↔
      QByteArray.lt (Revision.mk 9).toInternalByteArray (Revision.mk 10).toInternalByteArray) :=
  Revision.serialization_preserves_order 9 10 (by decide) (by decide) (by decide) (by decide)

/-- C3: for valid keys the internal byte array of `k1` is lexicographically smaller than
that of `k2` exactly when the identifier bytes of `k1` are smaller, or the identifiers
are equal and the revision of `k1` is numerically smaller; so a key whose bytes start
with the identifier bytes of `k2` has the identifier of `k2`, and it sorts after `k2`
exactly when its revision is higher: the highest revision is the last key with the
identifier as prefix. -/
theorem Key.ordering (k1 k2 : Key) (h1 : k1.Valid) (h2 : k2.Valid) :
    (QByteArray.lt k1.toInternalByteArray k2.toInternalByteArray ↔
      (QByteArray.lt k1.id.toInternalByteArray k2.id.toInternalByteArray ∨
        (k1.id = k2.id ∧ k1.rev.rev < k2.rev.rev))) ∧
    (k1.toInternalByteArray.startsWith k2.id.toInternalByteArray = true →
      k1.id = k2.id ∧
      (k1.rev.rev ≤ k2.rev.rev ↔
        ¬ QByteArray.lt k2.toInternalByteArray k1.toInternalByteArray)) := by
  obtain ⟨hid1, h10, h11⟩ := h1
  obtain ⟨hid2, h20, h21⟩ := h2
  have hr1 := Revision.toInternalByteArray_eq k1.rev h10 h11
  have hr2 := Revision.toInternalByteArray_eq k2.rev h20 h21
  obtain ⟨hl1, _⟩ := Revision.toNat_lt k1.rev.rev h10 h11
  obtain ⟨hl2, _⟩ := Revision.toNat_lt k2.rev.rev h20 h21
  have hlen1 := Identifier.toInternalByteArray_length k1.id
  have hlen2 := Identifier.toInternalByteArray_length k2.id
  have hrevlt : ∀ (x y : Key), x.rev.toInternalByteArray = fixedDec uint_num_digits x.rev.rev.toNat →
      y.rev.toInternalByteArray = fixedDec uint_num_digits y.rev.rev.toNat →
      x.rev.rev.toNat < 10 ^ uint_num_digits → y.rev.rev.toNat < 10 ^ uint_num_digits →
      0 ≤ x.rev.rev → 0 ≤ y.rev.rev →
      (QByteArray.lt x.rev.toInternalByteArray y.rev.toInternalByteArray ↔
        x.rev.rev < y.rev.rev) := by
    intro x y hx hy hxl hyl hx0 hy0
    rw [hx, hy, fixedDec_lt_iff _ _ _ hxl hyl]
    omega
  have hmain : ∀ (x y : Key), x.id.uid.value < 2 ^ 128 → y.id.uid.value < 2 ^ 128 →
      (QByteArray.lt x.rev.toInternalByteArray y.rev.toInternalByteArray ↔
        x.rev.rev < y.rev.rev) →
      (QByteArray.lt x.toInternalByteArray y.toInternalByteArray ↔
        (QByteArray.lt x.id.toInternalByteArray y.id.toInternalByteArray ∨
          (x.id = y.id ∧ x.rev.rev < y.rev.rev))) := by
    intro x y hx hy hrev
    unfold Key.toInternalByteArray
    rw [QByteArray.lex_append_iff _ _ _ _
      (by rw [Identifier.toInternalByteArray_length, Identifier.toInternalByteArray_length]),
      hrev]
    constructor
    · rintro (h | ⟨h, h'⟩)
      · exact Or.inl h
      · exact Or.inr ⟨Identifier.toInternalByteArray_injective _ _ hx hy h, h'⟩
    · rintro (h | ⟨h, h'⟩)
      · exact Or.inl h
      · exact Or.inr ⟨by rw [h], h'⟩
  refine ⟨hmain k1 k2 hid1 hid2 (hrevlt k1 k2 hr1 hr2 hl1 hl2 h10 h20), ?_⟩
  intro hpre
  have hideq : k1.id = k2.id := by
    apply Identifier.toInternalByteArray_injective _ _ hid1 hid2
    unfold QByteArray.startsWith Key.toInternalByteArray at hpre
    rw [List.isPrefixOf_iff_prefix] at hpre
    have hp1 : k1.id.toInternalByteArray <+: k1.id.toInternalByteArray ++ k1.rev.toInternalByteArray :=
      List.prefix_append _ _
    exact (List.prefix_of_prefix_length_le hp1 hpre (by omega)).eq_of_length (by omega)
  refine ⟨hideq, ?_⟩
  rw [hmain k2 k1 hid2 hid1 (hrevlt k2 k1 hr2 hr1 hl2 hl1 h20 h10)]
  constructor
  · intro hle
    rintro (h | ⟨_, h⟩)
    · rw [hideq] at h
      exact QByteArray.lt_irrefl _ h
    · omega
  · intro hn
    by_contra hlt
    exact hn (Or.inr ⟨hideq.symm, by omega⟩)

theorem Key.ordering_witness :
    (QByteArray.lt (Key.toInternalByteArray ⟨⟨⟨7⟩⟩, ⟨9⟩⟩) (Key.toInternalByteArray ⟨⟨⟨7⟩⟩, ⟨10⟩⟩) ↔
      (QByteArray.lt (Identifier.toInternalByteArray ⟨⟨7⟩⟩) (Identifier.toInternalByteArray ⟨⟨7⟩⟩) ∨
        ((⟨⟨7⟩⟩ : Identifier) = ⟨⟨7⟩⟩ ∧ (9 : Int) < 10))) ∧
    (QByteArray.startsWith (Key.toInternalByteArray ⟨⟨⟨7⟩⟩, ⟨9⟩⟩)
        (Identifier.toInternalByteArray ⟨⟨7⟩⟩) = true →
      (⟨⟨7⟩⟩ : Identifier) = ⟨⟨7⟩⟩ ∧
      ((9 : Int) ≤ 10 ↔
        ¬ QByteArray.lt (Key.toInternalByteArray ⟨⟨⟨7⟩⟩, ⟨10⟩⟩)
          (Key.toInternalByteArray ⟨⟨⟨7⟩⟩, ⟨9⟩⟩))) :=
  Key.ordering ⟨⟨⟨7⟩⟩, ⟨9⟩⟩ ⟨⟨⟨7⟩⟩, ⟨10⟩⟩ (by unfold Key.Valid; decide) (by unfold Key.Valid; decide)

end Sink

/-! ## The byte order and prefixes -/

namespace Sink

theorem QByteArray.lt_iff_lt (a b : QByteArray) : QByteArray.lt a b ↔ a < b := Iff.rfl

theorem QByteArray.lt_trans' {a b c : QByteArray} (h1 : QByteArray.lt a b) (h2 : QByteArray.lt b c) :
    QByteArray.lt a c := by
  rw [QByteArray.lt_iff_lt] at *
  exact lt_trans h1 h2

theorem QByteArray.startsWith_iff (a p : QByteArray) : a.startsWith p = true ↔ p <+: a := by
  unfold QByteArray.startsWith
  exact List.isPrefixOf_iff_prefix

/-- A key that starts with `p` is not smaller than `p`. -/
theorem QByteArray.not_lt_of_startsWith (e p : QByteArray) (h : e.startsWith p = true) :
    ¬ QByteArray.lt e p := by
  rw [QByteArray.startsWith_iff] at h
  obtain ⟨t, rfl⟩ := h
  intro hlt
  have := (QByteArray.lex_append_iff p p t [] rfl).1 (by simpa using hlt)
  rcases this with h1 | ⟨_, h2⟩
  · exact QByteArray.lt_irrefl _ h1
  · cases h2

/-- Keys that start with `p` form an interval: between `p` and a key starting with `p`
every key starts with `p`. -/
theorem QByteArray.startsWith_of_between (p : QByteArray) : ∀ (f g : QByteArray),
    ¬ QByteArray.lt f p → ¬ QByteArray.lt g f → g.startsWith p = true →
    f.startsWith p = true := by
  induction p with
  | nil => intro f g _ _ _; simp [QByteArray.startsWith]
  | cons x p ih =>
    intro f g hfp hgf hg
    rw [QByteArray.startsWith_iff] at hg
    obtain ⟨t, rfl⟩ := hg
    cases f with
    | nil => exact absurd List.Lex.nil hfp
    | cons y f =>
      have hyx : ¬ y < x := fun h => hfp (List.Lex.rel h)
      have hxy : ¬ x < y := fun h => hgf (List.Lex.rel h)
      have hEq : y = x := by omega
      subst hEq
      have h1 : ¬ QByteArray.lt f p := fun h => hfp (List.Lex.cons h)
      have h2 : ¬ QByteArray.lt (p ++ t) f := fun h => hgf (List.Lex.cons h)
      have := ih f (p ++ t) h1 h2 (by rw [QByteArray.startsWith_iff]; exact List.prefix_append _ _)
      rw [QByteArray.startsWith_iff] at this ⊢
      obtain ⟨u, hu⟩ := this
      exact ⟨u, by rw [← hu]; rfl⟩

end Sink

namespace Sink

/-! ## The scan loop as a walk over the entries behind the cursor -/

theorem scanLoop_next {σ : Type} (entries : List Entry) (k : QByteArray)
    (h : σ → QByteArray → QByteArray → Bool × σ) (skip : Bool) :
    ∀ (after : List Entry) (fuel : Nat) (b : List Entry) (cur : Entry) (key data : QByteArray)
      (st : ScanState σ), after.length < fuel →
      scanLoop entries k h skip .MDB_NEXT fuel (some ⟨b, cur, after⟩) key data st
        = visit k h skip after st := by
  intro after
  induction after with
  | nil =>
    intro fuel b cur key data st hf
    obtain ⟨f, rfl⟩ : ∃ f, fuel = f + 1 := ⟨fuel - 1, by simp at hf; omega⟩
    simp [scanLoop, mdb_cursor_get, visit, MDB_NOTFOUND]
  | cons n rest ih =>
    intro fuel b cur key data st hf
    obtain ⟨f, rfl⟩ : ∃ f, fuel = f + 1 := ⟨fuel - 1, by simp at hf; omega⟩
    have hf' : rest.length < f := by simp at hf; omega
    simp only [scanLoop, mdb_cursor_get, visit, if_true]
    by_cases hs : n.1.startsWith k = true
    · by_cases hi : (skip && isInternalKey n.1) = true
      · simp only [hs, hi, if_true, Bool.not_true, Bool.and_false, Bool.false_eq_true, if_false]
        exact ih f _ _ _ _ _ hf'
      · have hi' : (skip && isInternalKey n.1) = false := by simpa using hi
        simp only [hs, hi', if_true, Bool.not_false, Bool.and_true]
        split
        · rfl
        · exact ih f _ _ _ _ _ hf'
    · have hs' : n.1.startsWith k = false := by simpa using hs
      simp only [hs', Bool.false_and, Bool.false_eq_true, if_false]
      exact ih f _ _ _ _ _ hf'

theorem scanLoop_next_dup {σ : Type} (entries : List Entry) (k : QByteArray)
    (h : σ → QByteArray → QByteArray → Bool × σ) (skip : Bool) :
    ∀ (after : List Entry) (fuel : Nat) (b : List Entry) (cur : Entry) (key data : QByteArray)
      (st : ScanState σ), after.length < fuel →
      scanLoop entries k h skip .MDB_NEXT_DUP fuel (some ⟨b, cur, after⟩) key data st
        = visit k h skip (after.takeWhile (fun n => decide (n.1 = cur.1))) st := by
  intro after
  induction after with
  | nil =>
    intro fuel b cur key data st hf
    obtain ⟨f, rfl⟩ : ∃ f, fuel = f + 1 := ⟨fuel - 1, by simp at hf; omega⟩
    simp [scanLoop, mdb_cursor_get, visit, MDB_NOTFOUND]
  | cons n rest ih =>
    intro fuel b cur key data st hf
    obtain ⟨f, rfl⟩ : ∃ f, fuel = f + 1 := ⟨fuel - 1, by simp at hf; omega⟩
    have hf' : rest.length < f := by simp at hf; omega
    obtain ⟨nk, nv⟩ := n
    obtain ⟨ck, cv⟩ := cur
    by_cases hk : nk = ck
    · subst hk
      simp only [scanLoop, mdb_cursor_get, if_true, List.takeWhile_cons, decide_True, visit]
      have ih' := fun st' => ih f ((nk, cv) :: b) (nk, nv) nk nv st' hf'
      by_cases hs : QByteArray.startsWith nk k = true
      · by_cases hi : (skip && isInternalKey nk) = true
        · simp only [hs, hi, if_true, Bool.not_true, Bool.and_false, Bool.false_eq_true, if_false]
          exact ih' _
        · have hi' : (skip && isInternalKey nk) = false := by simpa using hi
          simp only [hs, hi', if_true, Bool.not_false, Bool.and_true]
          split
          · rfl
          · exact ih' _
      · have hs' : QByteArray.startsWith nk k = false := by simpa using hs
        simp only [hs', Bool.false_and, Bool.false_eq_true, if_false]
        exact ih' _
    · simp [scanLoop, mdb_cursor_get, hk, visit, MDB_NOTFOUND]

end Sink

namespace Sink

theorem visit_always_true {σ : Type} (k : QByteArray)
    (h : σ → QByteArray → QByteArray → Bool × σ) (skip : Bool)
    (htrue : ∀ s a b, (h s a b).1 = true) :
    ∀ (todo : List Entry) (st : ScanState σ),
      (visit k h skip todo st).calls = st.calls ++
        (todo.filter (fun e => e.1.startsWith k && !(skip && isInternalKey e.1))).map
          (fun e => (e, true)) ∧
      (visit k h skip todo st).rc = MDB_NOTFOUND := by
  intro todo
  induction todo with
  | nil =>
    intro st
    simp [visit]
  | cons e rest ih =>
    intro st
    simp only [visit]
    by_cases hc : (e.1.startsWith k && !(skip && isInternalKey e.1)) = true
    · simp only [hc, if_true, htrue, Bool.not_true, Bool.false_eq_true, if_false,
        List.filter_cons_of_pos, List.map_cons]
      obtain ⟨h1, h2⟩ := ih ⟨0, st.numberOfRetrievedValues + 1, (h st.state e.1 e.2).2,
        st.calls ++ [(e, true)]⟩
      exact ⟨by rw [h1]; simp, h2⟩
    · simp only [hc, if_false, Bool.false_eq_true, List.filter_cons_of_neg, not_false_eq_true]
      exact ih _

theorem seek_spec (entries : List Entry) (key : QByteArray) :
    entries = (seek entries key).1 ++ (seek entries key).2 ∧
    (∀ e ∈ (seek entries key).1, QByteArray.lt e.1 key) ∧
    (∀ e rest, (seek entries key).2 = e :: rest → ¬ QByteArray.lt e.1 key) := by
  unfold seek
  rw [List.span_eq_take_drop]
  refine ⟨(List.takeWhile_append_dropWhile _ _).symm, ?_, ?_⟩
  · intro e he
    simpa using List.mem_takeWhile_imp he
  · intro e rest hd
    have hd' : List.dropWhile (fun e : Entry => decide (QByteArray.lt e.1 key)) entries
        = e :: rest := hd
    have := List.head?_dropWhile_not (fun e : Entry => decide (QByteArray.lt e.1 key)) entries
    rw [hd'] at this
    simpa using this

end Sink

namespace Sink

/-! ## A false return stops the scan; internal keys -/

theorem scanLoop_calls_dropLast {σ : Type} (entries : List Entry) (k : QByteArray)
    (h : σ → QByteArray → QByteArray → Bool × σ) (skip : Bool) (nextOp : MDB_cursor_op) :
    ∀ (fuel : Nat) (cursor : Option MDB_cursor) (key data : QByteArray) (st : ScanState σ),
      (∀ c ∈ st.calls, c.2 = true) →
      ∀ c ∈ (scanLoop entries k h skip nextOp fuel cursor key data st).calls.dropLast,
        c.2 = true := by
  intro fuel
  induction fuel with
  | zero =>
    intro cursor key data st hst c hc
    exact hst c (List.mem_of_mem_dropLast hc)
  | succ f ih =>
    intro cursor key data st hst
    simp only [scanLoop]
    split
    · split
      · split
        · split
          · intro c hc
            simp only [List.dropLast_concat] at hc
            exact hst c hc
          · next hr =>
            apply ih
            intro c hc
            simp only [List.mem_append, List.mem_singleton] at hc
            rcases hc with hc | hc
            · exact hst c hc
            · subst hc
              simpa using hr
        · exact ih _ _ _ _ hst
      · exact ih _ _ _ _ hst
    · intro c hc
      exact hst c (List.mem_of_mem_dropLast hc)

theorem scanLoop_calls_not_internal {σ : Type} (entries : List Entry) (k : QByteArray)
    (h : σ → QByteArray → QByteArray → Bool × σ) (nextOp : MDB_cursor_op) :
    ∀ (fuel : Nat) (cursor : Option MDB_cursor) (key data : QByteArray) (st : ScanState σ),
      (∀ c ∈ st.calls, isInternalKey c.1.1 = false) →
      ∀ c ∈ (scanLoop entries k h true nextOp fuel cursor key data st).calls,
        isInternalKey c.1.1 = false := by
  intro fuel
  induction fuel with
  | zero =>
    intro cursor key data st hst c hc
    exact hst c hc
  | succ f ih =>
    intro cursor key data st hst
    simp only [scanLoop]
    split
    · split
      · split
        · next hcall =>
          have hint : isInternalKey
              (mdb_cursor_get entries cursor key data nextOp).key = false := by
            simpa using hcall
          have hall : ∀ c ∈ st.calls ++
              [(((mdb_cursor_get entries cursor key data nextOp).key,
                 (mdb_cursor_get entries cursor key data nextOp).data),
                (h st.state (mdb_cursor_get entries cursor key data nextOp).key
                  (mdb_cursor_get entries cursor key data nextOp).data).1)],
              isInternalKey c.1.1 = false := by
            intro c hc
            simp only [List.mem_append, List.mem_singleton] at hc
            rcases hc with hc | hc
            · exact hst c hc
            · subst hc
              exact hint
          split
          · exact hall
          · exact ih _ _ _ _ hall
        · exact ih _ _ _ _ hst
      · exact ih _ _ _ _ hst
    · exact hst

theorem scanFirst_calls_dropLast {σ : Type} (d : NamedDatabase) (k : QByteArray)
    (h : σ → QByteArray → QByteArray → Bool × σ) (s0 : σ) (findSub skip : Bool)
    (g : CursorGet) :
    ∀ c ∈ (scanFirst d k h s0 findSub skip g).calls.dropLast, c.2 = true := by
  obtain ⟨rc, cursor, key, data⟩ := g
  unfold scanFirst
  by_cases hrc : rc = 0
  · by_cases hs : key.startsWith k = true
    · by_cases hcall : (skip && isInternalKey key) = true
      · simp only [hrc, hs, hcall, if_true, Bool.not_true, Bool.false_eq_true, if_false,
          Bool.not_false, Bool.true_or]
        apply scanLoop_calls_dropLast
        intro c hc
        simp at hc
      · have hcall' : (skip && isInternalKey key) = false := by simpa using hcall
        by_cases hr : (h s0 key data).1 = true
        · simp only [hrc, hs, hcall', if_true, Bool.not_false, Bool.not_true, Bool.false_or, hr]
          apply scanLoop_calls_dropLast
          intro c hc
          simp only [List.mem_singleton] at hc
          subst hc
          rfl
        · simp only [hrc, hs, hcall', if_true, Bool.not_false, Bool.not_true, Bool.false_or, hr,
            if_false]
          intro c hc
          simp at hc
    · simp only [hrc, hs, if_true, if_false]
      intro c hc
      simp at hc
  · simp only [hrc, if_false]
    intro c hc
    simp at hc

theorem notFoundIsOk_calls {σ : Type} (st : ScanState σ) :
    (notFoundIsOk st).calls = st.calls := by
  unfold notFoundIsOk
  split <;> rfl

theorem mdb_set_empty (entries : List Entry) (c : Option MDB_cursor) (data : QByteArray) :
    mdb_cursor_get entries c [] data .MDB_SET = ⟨MDB_BAD_VALSIZE, c, [], data⟩ := by
  simp [mdb_cursor_get]

theorem mdb_set_hit (entries : List Entry) (c : Option MDB_cursor) (k data : QByteArray)
    (e : Entry) (rest : List Entry) (hk : k ≠ []) (hs : (seek entries k).2 = e :: rest)
    (he : e.1 = k) :
    mdb_cursor_get entries c k data .MDB_SET
      = ⟨0, some ⟨(seek entries k).1.reverse, e, rest⟩, e.1, e.2⟩ := by
  have hk' : k.isEmpty = false := by cases k <;> simp_all
  simp only [mdb_cursor_get, hk', Bool.false_eq_true, if_false, hs, he, if_true]

theorem mdb_set_miss (entries : List Entry) (c : Option MDB_cursor) (k data : QByteArray)
    (hk : k ≠ [])
    (hs : (seek entries k).2 = [] ∨ ∃ e rest, (seek entries k).2 = e :: rest ∧ e.1 ≠ k) :
    mdb_cursor_get entries c k data .MDB_SET = ⟨MDB_NOTFOUND, none, k, data⟩ := by
  have hk' : k.isEmpty = false := by cases k <;> simp_all
  rcases hs with hs | ⟨e, rest, hs, he⟩
  · simp only [mdb_cursor_get, hk', Bool.false_eq_true, if_false, hs]
  · simp only [mdb_cursor_get, hk', Bool.false_eq_true, if_false, hs, he]

theorem mdb_set_cases (entries : List Entry) (k : QByteArray) (hk : k ≠ []) :
    (∃ e rest, (seek entries k).2 = e :: rest ∧ e.1 = k ∧
      mdb_cursor_get entries none k [] .MDB_SET
        = ⟨0, some ⟨(seek entries k).1.reverse, e, rest⟩, e.1, e.2⟩) ∨
    (((seek entries k).2 = [] ∨ ∃ e rest, (seek entries k).2 = e :: rest ∧ e.1 ≠ k) ∧
      mdb_cursor_get entries none k [] .MDB_SET = ⟨MDB_NOTFOUND, none, k, []⟩) := by
  cases hs : (seek entries k).2 with
  | nil => exact Or.inr ⟨Or.inl rfl, mdb_set_miss _ _ _ _ hk (Or.inl hs)⟩
  | cons e rest =>
    by_cases he : e.1 = k
    · exact Or.inl ⟨e, rest, rfl, he, mdb_set_hit _ _ _ _ e rest hk hs he⟩
    · exact Or.inr ⟨Or.inr ⟨e, rest, rfl, he⟩,
        mdb_set_miss _ _ _ _ hk (Or.inr ⟨e, rest, hs, he⟩)⟩

theorem mdb_set_range_cases (entries : List Entry) (k : QByteArray) (hk : k ≠ []) :
    (∃ e rest, (seek entries k).2 = e :: rest ∧
      mdb_cursor_get entries none k [] .MDB_SET_RANGE
        = ⟨0, some ⟨(seek entries k).1.reverse, e, rest⟩, e.1, e.2⟩) ∨
    ((seek entries k).2 = [] ∧
      mdb_cursor_get entries none k [] .MDB_SET_RANGE = ⟨MDB_NOTFOUND, none, k, []⟩) := by
  have hk' : k.isEmpty = false := by cases k <;> simp_all
  cases hs : (seek entries k).2 with
  | nil =>
    right
    simp only [mdb_cursor_get, hk', Bool.false_eq_true, if_false, hs, positionAt, and_self]
  | cons e rest =>
    left
    refine ⟨e, rest, rfl, ?_⟩
    simp only [mdb_cursor_get, hk', Bool.false_eq_true, if_false, hs, positionAt]

theorem mdb_first_cases (entries : List Entry) (k : QByteArray) :
    (∃ e rest, entries = e :: rest ∧
      mdb_cursor_get entries none k [] .MDB_FIRST = ⟨0, some ⟨[], e, rest⟩, e.1, e.2⟩) ∨
    (entries = [] ∧
      mdb_cursor_get entries none k [] .MDB_FIRST = ⟨MDB_NOTFOUND, none, k, []⟩) := by
  cases entries with
  | nil => right; simp [mdb_cursor_get, positionAt]
  | cons e rest => left; exact ⟨e, rest, rfl, by simp [mdb_cursor_get, positionAt]⟩

theorem scanExact_calls {σ : Type} (d : NamedDatabase) (k : QByteArray)
    (h : σ → QByteArray → QByteArray → Bool × σ) (s0 : σ) :
    (scanExact d k h s0).calls = [] ∨
    ∃ e b, (scanExact d k h s0).calls = [(e, b)] ∧ e.1 = k := by
  unfold scanExact
  by_cases hk : k = []
  · subst hk
    left
    simp [mdb_set_empty, MDB_BAD_VALSIZE]
  · rcases mdb_set_cases d.entries k hk with ⟨e, rest, _, he, hg⟩ | ⟨_, hg⟩
    · right
      rw [hg]
      exact ⟨_, _, rfl, he⟩
    · left
      rw [hg]
      simp [MDB_NOTFOUND]

/-- C6: in every branch of `scan` (empty key, duplicates, substring mode, exact key)
and for every result handler, every invocation of the handler but the last one
returned true: once the handler has returned false it is invoked on no further entry. -/
theorem NamedDatabase.scan_stops_on_false {σ : Type} (d : NamedDatabase) (k : QByteArray)
    (resultHandler : σ → QByteArray → QByteArray → Bool × σ) (s0 : σ)
    (hasErrorHandler findSubstringKeys skipInternalKeys : Bool) :
    ∀ c ∈ (d.scan k resultHandler s0 hasErrorHandler findSubstringKeys
        skipInternalKeys).calls.dropLast, c.2 = true := by
  have hbody : ∀ c ∈ (scanBody d k resultHandler s0 findSubstringKeys
      skipInternalKeys).calls.dropLast, c.2 = true := by
    unfold scanBody
    by_cases hb : (k.isEmpty || d.allowDuplicates || findSubstringKeys) = true
    · rw [if_pos hb, notFoundIsOk_calls]
      exact scanFirst_calls_dropLast d k resultHandler s0 findSubstringKeys skipInternalKeys _
    · rw [if_neg hb]
      rcases scanExact_calls d k resultHandler s0 with h0 | ⟨e, b, h1, _⟩
      · rw [h0]
        intro c hc
        simp at hc
      · rw [h1]
        intro c hc
        simp at hc
  unfold NamedDatabase.scan
  split
  · intro c hc
    simp at hc
  · split
    · intro c hc
      simp at hc
    · exact hbody

end Sink

namespace Sink

theorem scanFirst_calls_not_internal {σ : Type} (d : NamedDatabase) (k : QByteArray)
    (h : σ → QByteArray → QByteArray → Bool × σ) (s0 : σ) (findSub : Bool)
    (g : CursorGet) :
    ∀ c ∈ (scanFirst d k h s0 findSub true g).calls, isInternalKey c.1.1 = false := by
  obtain ⟨rc, cursor, key, data⟩ := g
  unfold scanFirst
  by_cases hrc : rc = 0
  · by_cases hs : key.startsWith k = true
    · by_cases hcall : isInternalKey key = true
      · simp only [hrc, hs, hcall, if_true, Bool.and_self, Bool.not_true, Bool.false_eq_true,
          if_false, Bool.not_false, Bool.true_or]
        apply scanLoop_calls_not_internal
        intro c hc
        simp at hc
      · have hcall' : isInternalKey key = false := by simpa using hcall
        have hone : ∀ b : Bool, ∀ c ∈ [(((key, data) : Entry), b)],
            isInternalKey c.1.1 = false := by
          intro b c hc
          simp only [List.mem_singleton] at hc
          subst hc
          exact hcall'
        by_cases hr : (h s0 key data).1 = true
        · simp only [hrc, hs, hcall', if_true, Bool.and_false, Bool.not_false, Bool.not_true,
            Bool.false_or, hr]
          apply scanLoop_calls_not_internal
          exact hone _
        · have hr' : (h s0 key data).1 = false := by simpa using hr
          simp only [hrc, hs, hcall', if_true, Bool.and_false, Bool.not_false, Bool.not_true,
            Bool.false_or, hr', Bool.false_eq_true, if_false]
          exact hone _
    · simp only [hrc, hs, if_true, if_false]
      intro c hc
      simp at hc
  · simp only [hrc, if_false]
    intro c hc
    simp at hc

theorem scanLoop_state_invariant {σ : Type} (inv : σ → Prop) (entries : List Entry)
    (k : QByteArray) (h : σ → QByteArray → QByteArray → Bool × σ)
    (hstep : ∀ s a b, inv s → inv (h s a b).2) (skip : Bool) (nextOp : MDB_cursor_op) :
    ∀ (fuel : Nat) (cursor : Option MDB_cursor) (key data : QByteArray) (st : ScanState σ),
      inv st.state → inv (scanLoop entries k h skip nextOp fuel cursor key data st).state := by
  intro fuel
  induction fuel with
  | zero => intro cursor key data st hst; exact hst
  | succ f ih =>
    intro cursor key data st hst
    simp only [scanLoop]
    split
    · split
      · split
        · split
          · exact hstep _ _ _ hst
          · exact ih _ _ _ _ (hstep _ _ _ hst)
        · exact ih _ _ _ _ hst
      · exact ih _ _ _ _ hst
    · exact hst

theorem scan_state_invariant {σ : Type} (inv : σ → Prop) (d : NamedDatabase)
    (k : QByteArray) (h : σ → QByteArray → QByteArray → Bool × σ) (s0 : σ)
    (hstep : ∀ s a b, inv s → inv (h s a b).2) (h0 : inv s0)
    (he findSub skip : Bool) :
    inv (d.scan k h s0 he findSub skip).state := by
  have hfirst : ∀ g : CursorGet, inv (scanFirst d k h s0 findSub skip g).state := by
    intro g
    obtain ⟨rc, cursor, key, data⟩ := g
    unfold scanFirst
    by_cases hrc : rc = 0
    · by_cases hs : key.startsWith k = true
      · by_cases hcall : (skip && isInternalKey key) = true
        · simp only [hrc, hs, hcall, if_true, Bool.not_true, Bool.false_eq_true, if_false,
            Bool.not_false, Bool.true_or]
          exact scanLoop_state_invariant inv _ _ _ hstep _ _ _ _ _ _ _ h0
        · have hcall' : (skip && isInternalKey key) = false := by simpa using hcall
          by_cases hr : (h s0 key data).1 = true
          · simp only [hrc, hs, hcall', if_true, Bool.not_false, Bool.not_true, Bool.false_or, hr]
            exact scanLoop_state_invariant inv _ _ _ hstep _ _ _ _ _ _ _ (hstep _ _ _ h0)
          · simp only [hrc, hs, hcall', if_true, Bool.not_false, Bool.not_true, Bool.false_or, hr,
              if_false]
            exact hstep _ _ _ h0
      · simp only [hrc, hs, if_true, if_false]
        exact h0
    · simp only [hrc, if_false]
      exact h0
  have hbody : inv (scanBody d k h s0 findSub skip).state := by
    unfold scanBody
    split
    · unfold notFoundIsOk
      split
      · exact hfirst _
      · exact hfirst _
    · unfold scanExact
      simp only
      split
      · exact hstep _ _ _ h0
      · exact h0
  unfold NamedDatabase.scan
  split
  · exact h0
  · split
    · exact h0
    · exact hbody

/-- C7 (as amended): with `skipInternalKeys = true` the result handler of `scan` gets a key
that begins with `__internal` only in the exact-key lookup (non-empty search key, no
duplicates, no substring mode), and then it is the search key itself; the cursor walks
(empty key, duplicates, substring mode) never hand over an internal key. The full scan
used by queries puts into the base set only `uidFromKey` of keys that are not internal. -/
theorem NamedDatabase.scan_skips_internal_keys {σ : Type} (d : NamedDatabase) (k : QByteArray)
    (resultHandler : σ → QByteArray → QByteArray → Bool × σ) (s0 : σ)
    (hasErrorHandler findSubstringKeys : Bool) (uidFromKey : QByteArray → QByteArray) :
    (∀ c ∈ (d.scan k resultHandler s0 hasErrorHandler findSubstringKeys true).calls,
      isInternalKey c.1.1 = true →
        k.isEmpty = false ∧ d.allowDuplicates = false ∧ findSubstringKeys = false ∧ c.1.1 = k) ∧
    (∀ skipInternalKeys, ∀ x ∈ (fullScan d uidFromKey skipInternalKeys).keys,
      ∃ key, isInternalKey key = false ∧ x = uidFromKey key) := by
  constructor
  · have hbody : ∀ c ∈ (scanBody d k resultHandler s0 findSubstringKeys true).calls,
        isInternalKey c.1.1 = true →
          k.isEmpty = false ∧ d.allowDuplicates = false ∧ findSubstringKeys = false ∧
            c.1.1 = k := by
      unfold scanBody
      by_cases hb : (k.isEmpty || d.allowDuplicates || findSubstringKeys) = true
      · rw [if_pos hb, notFoundIsOk_calls]
        intro c hc hint
        have := scanFirst_calls_not_internal d k resultHandler s0 findSubstringKeys _ c hc
        rw [hint] at this
        cases this
      · rw [if_neg hb]
        have hb' : k.isEmpty = false ∧ d.allowDuplicates = false ∧ findSubstringKeys = false := by
          simpa [and_assoc] using hb
        rcases scanExact_calls d k resultHandler s0 with h0 | ⟨e, b, h1, he⟩
        · rw [h0]
          intro c hc
          simp at hc
        · rw [h1]
          intro c hc _
          simp only [List.mem_singleton] at hc
          subst hc
          exact ⟨hb'.1, hb'.2.1, hb'.2.2, he⟩
    unfold NamedDatabase.scan
    split
    · intro c hc
      simp at hc
    · split
      · intro c hc
        simp at hc
      · exact hbody
  · intro skip
    unfold fullScan
    apply scan_state_invariant
      (fun keys : List QByteArray => ∀ x ∈ keys, ∃ key, isInternalKey key = false ∧ x = uidFromKey key)
    · intro s a b hs
      by_cases hi : isInternalKey a = true
      · simp only [hi, if_true]
        exact hs
      · simp only [hi, if_false, Bool.false_eq_true]
        intro x hx
        simp only [List.mem_append, List.mem_singleton] at hx
        rcases hx with hx | hx
        · exact hs x hx
        · exact ⟨a, by simpa using hi, hx⟩
    · intro x hx
      simp at hx

/-- C7 (as stated) fails: the exact-key lookup of `__internal_dbname`, as `ensureCorrectDb`
does it, hands the internal key to the result handler although `skipInternalKeys` is
true. -/
theorem NamedDatabase.scan_exact_hands_over_internal_key :
    ((⟨true, [(internalDbNameKey, [109, 97, 105, 108])], false, 0⟩ : NamedDatabase).scan
        internalDbNameKey (fun (s : Unit) _ _ => (false, s)) () true false true).calls
      = [((internalDbNameKey, [109, 97, 105, 108]), false)] ∧
    isInternalKey internalDbNameKey = true := by
  decide

end Sink

namespace Sink

/-! ## What a scan visits -/

theorem scanFirst_hit {σ : Type} (d : NamedDatabase) (k : QByteArray)
    (h : σ → QByteArray → QByteArray → Bool × σ) (htrue : ∀ s a b, (h s a b).1 = true)
    (s0 : σ) (findSub skip : Bool) (b : List Entry) (e : Entry) (rest : List Entry)
    (hlen : rest.length ≤ d.entries.length) (hs : e.1.startsWith k = true) :
    (scanFirst d k h s0 findSub skip ⟨0, some ⟨b, e, rest⟩, e.1, e.2⟩).calls =
      ((e :: (if (d.allowDuplicates && !findSub) = true
          then rest.takeWhile (fun n => decide (n.1 = e.1)) else rest)).filter
        (fun x => x.1.startsWith k && !(skip && isInternalKey x.1))).map (fun x => (x, true)) := by
  have hfuel : rest.length < d.entries.length + 1 := by omega
  unfold scanFirst
  by_cases hn : (d.allowDuplicates && !findSub) = true
  · by_cases hcall : (skip && isInternalKey e.1) = true
    · simp only [hs, hcall, hn, if_true, Bool.not_true, Bool.false_eq_true, if_false,
        Bool.not_false, Bool.true_or, Bool.and_false, List.filter_cons_of_neg,
        not_false_eq_true]
      rw [scanLoop_next_dup _ _ _ _ _ _ _ _ _ _ _ hfuel]
      rw [(visit_always_true k h skip htrue _ _).1]
      simp
    · have hcall' : (skip && isInternalKey e.1) = false := by simpa using hcall
      simp only [hs, hcall', hn, if_true, Bool.not_false, Bool.not_true, Bool.false_or, htrue,
        Bool.and_true, List.filter_cons_of_pos, List.map_cons]
      rw [scanLoop_next_dup _ _ _ _ _ _ _ _ _ _ _ hfuel]
      rw [(visit_always_true k h skip htrue _ _).1]
      simp
  · by_cases hcall : (skip && isInternalKey e.1) = true
    · simp only [hs, hcall, hn, if_true, Bool.not_true, Bool.false_eq_true, if_false,
        Bool.not_false, Bool.true_or, Bool.and_false, List.filter_cons_of_neg,
        not_false_eq_true]
      rw [scanLoop_next _ _ _ _ _ _ _ _ _ _ _ hfuel]
      rw [(visit_always_true k h skip htrue _ _).1]
      simp
    · have hcall' : (skip && isInternalKey e.1) = false := by simpa using hcall
      simp only [hs, hcall', hn, if_true, Bool.not_false, Bool.not_true, Bool.false_or, htrue,
        Bool.and_true, List.filter_cons_of_pos, List.map_cons, Bool.false_eq_true, if_false]
      rw [scanLoop_next _ _ _ _ _ _ _ _ _ _ _ hfuel]
      rw [(visit_always_true k h skip htrue _ _).1]
      simp

theorem scanFirst_miss {σ : Type} (d : NamedDatabase) (k : QByteArray)
    (h : σ → QByteArray → QByteArray → Bool × σ) (s0 : σ) (findSub skip : Bool)
    (g : CursorGet) (hg : g.rc ≠ 0 ∨ g.key.startsWith k = false) :
    (scanFirst d k h s0 findSub skip g).calls = [] := by
  unfold scanFirst
  rcases hg with hg | hg
  · simp only [hg, if_false]
  · split
    · simp only [hg, Bool.false_eq_true, if_false]
    · rfl

end Sink

namespace Sink

/-! ## Consequences of the key order of a database -/

theorem QByteArray.lt_asymm' {a b : QByteArray} (h : QByteArray.lt a b) : ¬ QByteArray.lt b a := by
  rw [QByteArray.lt_iff_lt] at *
  exact lt_asymm h

theorem QByteArray.lt_of_not_lt_of_ne {a b : QByteArray} (h : ¬ QByteArray.lt a b) (hne : a ≠ b) :
    QByteArray.lt b a := by
  rw [QByteArray.lt_iff_lt] at *
  exact lt_of_le_of_ne (not_lt.1 h) (Ne.symm hne)

theorem QByteArray.not_lt_trans {a b c : QByteArray} (h1 : ¬ QByteArray.lt b a)
    (h2 : ¬ QByteArray.lt c b) : ¬ QByteArray.lt c a := by
  rw [QByteArray.lt_iff_lt] at *
  exact not_lt.2 (le_trans (not_lt.1 h1) (not_lt.1 h2))

/-- The order relation between an entry and a later one. -/
theorem NamedDatabase.Sorted.not_lt {dup : Bool} {a b : Entry}
    (h : QByteArray.lt a.1 b.1 ∨ (dup = true ∧ a.1 = b.1)) : ¬ QByteArray.lt b.1 a.1 := by
  rcases h with h | ⟨_, h⟩
  · exact QByteArray.lt_asymm' h
  · rw [h]
    exact QByteArray.lt_irrefl _

theorem NamedDatabase.Sorted.split (d : NamedDatabase) (hd : d.Sorted) (pre post : List Entry)
    (h : d.entries = pre ++ post) :
    post.Pairwise (fun a b => QByteArray.lt a.1 b.1 ∨ (d.allowDuplicates = true ∧ a.1 = b.1)) := by
  unfold NamedDatabase.Sorted at hd
  rw [h, List.pairwise_append] at hd
  exact hd.2.1

/-- Behind an entry that is not below `p` and does not start with `p`, no entry starts
with `p`. -/
theorem no_match_behind (dup : Bool) (p : QByteArray) (e : Entry) (rest : List Entry)
    (hs : (e :: rest).Pairwise
      (fun a b => QByteArray.lt a.1 b.1 ∨ (dup = true ∧ a.1 = b.1)))
    (hge : ¬ QByteArray.lt e.1 p) (hno : e.1.startsWith p = false) :
    ∀ x ∈ e :: rest, x.1.startsWith p = false := by
  intro x hx
  rw [List.pairwise_cons] at hs
  rcases List.mem_cons.1 hx with rfl | hx
  · exact hno
  · have hle := NamedDatabase.Sorted.not_lt (hs.1 x hx)
    by_contra hcon
    have hst : x.1.startsWith p = true := by simpa using hcon
    have := QByteArray.startsWith_of_between p e.1 x.1 hge hle hst
    rw [hno] at this
    cases this

/-- Among entries in key order none of which is below `p`, those with key `p` come
first. -/
theorem filter_key_eq_takeWhile (dup : Bool) (p : QByteArray) :
    ∀ (l : List Entry),
      l.Pairwise (fun a b => QByteArray.lt a.1 b.1 ∨ (dup = true ∧ a.1 = b.1)) →
      (∀ x ∈ l, ¬ QByteArray.lt x.1 p) →
      l.filter (fun x => decide (x.1 = p)) = l.takeWhile (fun x => decide (x.1 = p)) := by
  intro l
  induction l with
  | nil => intro _ _; rfl
  | cons x l ih =>
    intro hs hge
    rw [List.pairwise_cons] at hs
    by_cases hx : x.1 = p
    · simp only [hx, decide_True, List.filter_cons_of_pos, List.takeWhile_cons_of_pos]
      rw [ih hs.2 (fun y hy => hge y (List.mem_cons_of_mem _ hy))]
    · simp only [hx, decide_False, Bool.false_eq_true, not_false_eq_true,
        List.filter_cons_of_neg, List.takeWhile_cons_of_neg, List.filter_eq_nil_iff,
        decide_eq_true_eq]
      intro y hy hyp
      have hxp : QByteArray.lt p x.1 :=
        QByteArray.lt_of_not_lt_of_ne (hge x (List.mem_cons_self _ _)) hx
      have hyx := NamedDatabase.Sorted.not_lt (hs.1 y hy)
      rw [hyp] at hyx
      exact hyx hxp

theorem filter_below_nil (p : QByteArray) (pre : List Entry) (f : Entry → Bool)
    (hpre : ∀ e ∈ pre, QByteArray.lt e.1 p)
    (hf : ∀ e, f e = true → ¬ QByteArray.lt e.1 p) :
    pre.filter f = [] := by
  rw [List.filter_eq_nil_iff]
  intro e he hfe
  exact hf e hfe (hpre e he)

end Sink

namespace Sink

theorem map_fst_map_true (l : List Entry) :
    (l.map (fun x => (x, true))).map (fun c : Entry × Bool => c.1) = l := by
  induction l with
  | nil => rfl
  | cons x l ih => simp only [List.map_cons, ih]

theorem scan_calls_eq_body {σ : Type} (d : NamedDatabase) (hd : d.Ok) (k : QByteArray)
    (h : σ → QByteArray → QByteArray → Bool × σ) (s0 : σ) (he findSub skip : Bool) :
    (d.scan k h s0 he findSub skip).calls = (scanBody d k h s0 findSub skip).calls := by
  obtain ⟨ho, hc, _⟩ := hd
  unfold NamedDatabase.scan
  simp only [ho, hc, Bool.not_true, Bool.false_eq_true, if_false, ne_eq, not_true_eq_false]

/-- Substring mode: the entries whose key starts with the search key. -/
theorem scanBody_substring {σ : Type} (d : NamedDatabase) (hd : d.Sorted) (p : QByteArray)
    (hp : p ≠ []) (h : σ → QByteArray → QByteArray → Bool × σ)
    (htrue : ∀ s a b, (h s a b).1 = true) (s0 : σ) (skip : Bool) :
    ((scanBody d p h s0 true skip).calls).map (fun c => c.1) =
      d.entries.filter (fun e => e.1.startsWith p && !(skip && isInternalKey e.1)) := by
  obtain ⟨hsplit, hpre, hpost⟩ := seek_spec d.entries p
  have hpre0 : (seek d.entries p).1.filter
      (fun e => e.1.startsWith p && !(skip && isInternalKey e.1)) = [] := by
    apply filter_below_nil p _ _ hpre
    intro e he
    simp only [Bool.and_eq_true] at he
    exact QByteArray.not_lt_of_startsWith _ _ he.1
  have hsorted := NamedDatabase.Sorted.split d hd _ _ hsplit
  unfold scanBody
  simp only [Bool.or_true, if_true, notFoundIsOk_calls, scanOp]
  rcases mdb_set_range_cases d.entries p hp with ⟨e, rest, hs2, hg⟩ | ⟨hs2, hg⟩
  · rw [hg]
    have hlen : rest.length ≤ d.entries.length := by
      rw [hsplit, hs2]
      simp
      omega
    by_cases hs : e.1.startsWith p = true
    · rw [scanFirst_hit d p h htrue s0 true skip _ e rest hlen hs, map_fst_map_true]
      simp only [Bool.not_true, Bool.and_false, Bool.false_eq_true, if_false]
      rw [hsplit, List.filter_append, hpre0, hs2, List.nil_append]
    · have hs' : e.1.startsWith p = false := by simpa using hs
      rw [scanFirst_miss d p h s0 true skip _ (Or.inr hs')]
      rw [hsplit, List.filter_append, hpre0, hs2, List.nil_append, List.map_nil]
      symm
      rw [List.filter_eq_nil_iff]
      intro x hx hfx
      rw [hs2] at hsorted
      have := no_match_behind d.allowDuplicates p e rest hsorted (hpost e rest hs2) hs' x hx
      simp only [this, Bool.false_and, Bool.false_eq_true] at hfx
  · rw [hg, scanFirst_miss d p h s0 true skip _ (Or.inl (by simp [MDB_NOTFOUND]))]
    rw [hsplit, List.filter_append, hpre0, hs2]
    rfl

end Sink

namespace Sink

theorem QByteArray.startsWith_self (a : QByteArray) : a.startsWith a = true := by
  rw [QByteArray.startsWith_iff]

theorem QByteArray.startsWith_nil (a : QByteArray) : a.startsWith [] = true := by
  rw [QByteArray.startsWith_iff]
  exact List.nil_prefix

/-- When the key search misses, no entry has the key. -/
theorem filter_key_nil_of_miss (d : NamedDatabase) (hd : d.Sorted) (p : QByteArray)
    (f : Entry → Bool) (hf : ∀ e, f e = true → e.1 = p)
    (hmiss : (seek d.entries p).2 = [] ∨
      ∃ e rest, (seek d.entries p).2 = e :: rest ∧ e.1 ≠ p) :
    d.entries.filter f = [] := by
  obtain ⟨hsplit, hpre, hpost⟩ := seek_spec d.entries p
  have hsorted := NamedDatabase.Sorted.split d hd _ _ hsplit
  rw [List.filter_eq_nil_iff]
  intro x hx hfx
  have hxp := hf x hfx
  rw [hsplit, List.mem_append] at hx
  rcases hx with hx | hx
  · have := hpre x hx
    rw [hxp] at this
    exact QByteArray.lt_irrefl _ this
  · rcases hmiss with h0 | ⟨e, rest, h1, hne⟩
    · rw [h0] at hx
      cases hx
    · rw [h1] at hx hsorted
      rw [List.pairwise_cons] at hsorted
      rcases List.mem_cons.1 hx with rfl | hx
      · exact hne hxp
      · have hpe : QByteArray.lt p e.1 :=
          QByteArray.lt_of_not_lt_of_ne (hpost e rest h1) hne
        have := NamedDatabase.Sorted.not_lt (hsorted.1 x hx)
        rw [hxp] at this
        exact this hpe

/-- A database with duplicates, no substring mode: the values stored under the search key. -/
theorem scanBody_duplicates {σ : Type} (d : NamedDatabase) (hd : d.Sorted)
    (hdup : d.allowDuplicates = true) (p : QByteArray)
    (hp : p ≠ []) (h : σ → QByteArray → QByteArray → Bool × σ)
    (htrue : ∀ s a b, (h s a b).1 = true) (s0 : σ) (skip : Bool) :
    ((scanBody d p h s0 false skip).calls).map (fun c => c.1) =
      d.entries.filter (fun e => decide (e.1 = p) && !(skip && isInternalKey e.1)) := by
  obtain ⟨hsplit, hpre, hpost⟩ := seek_spec d.entries p
  have hsorted := NamedDatabase.Sorted.split d hd _ _ hsplit
  unfold scanBody
  simp only [hdup, Bool.or_true, Bool.true_or, if_true, notFoundIsOk_calls, scanOp,
    Bool.false_eq_true, if_false]
  rcases mdb_set_cases d.entries p hp with ⟨e, rest, hs2, he, hg⟩ | ⟨hmiss, hg⟩
  · rw [hg]
    have hlen : rest.length ≤ d.entries.length := by
      rw [hsplit, hs2]
      simp
      omega
    have hs : e.1.startsWith p = true := by rw [he]; exact QByteArray.startsWith_self p
    rw [scanFirst_hit d p h htrue s0 false skip _ e rest hlen hs, map_fst_map_true]
    simp only [hdup, Bool.not_false, Bool.and_true, if_true, he]
    have hpre0 : (seek d.entries p).1.filter
        (fun e => decide (e.1 = p) && !(skip && isInternalKey e.1)) = [] := by
      apply filter_below_nil p _ _ hpre
      intro x hx
      simp only [Bool.and_eq_true, decide_eq_true_eq] at hx
      rw [hx.1]
      exact QByteArray.lt_irrefl _
    rw [hsplit, List.filter_append, hpre0, hs2, List.nil_append]
    rw [hs2] at hsorted
    have hge : ∀ x ∈ e :: rest, ¬ QByteArray.lt x.1 p := by
      intro x hx
      rw [List.pairwise_cons] at hsorted
      rcases List.mem_cons.1 hx with rfl | hx
      · exact hpost _ rest hs2
      · have := NamedDatabase.Sorted.not_lt (hsorted.1 x hx)
        rw [he] at this
        exact this
    have hkey := filter_key_eq_takeWhile d.allowDuplicates p (e :: rest) hsorted hge
    have htw : List.takeWhile (fun x : Entry => decide (x.1 = p)) (e :: rest)
        = e :: List.takeWhile (fun x : Entry => decide (x.1 = p)) rest := by
      simp [List.takeWhile_cons, he]
    rw [htw] at hkey
    have h1 : (e :: rest).filter (fun e => decide (e.1 = p) && !(skip && isInternalKey e.1))
        = ((e :: rest).filter (fun x => decide (x.1 = p))).filter
            (fun e => !(skip && isInternalKey e.1)) := by
      rw [List.filter_filter]
      apply List.filter_congr
      intro x _
      exact Bool.and_comm _ _
    rw [h1, hkey]
    apply List.filter_congr
    intro x hx
    have hxp : x.1 = p := by
      rcases List.mem_cons.1 hx with rfl | hx
      · exact he
      · simpa using List.mem_takeWhile_imp hx
    rw [hxp, QByteArray.startsWith_self, Bool.true_and]
  · rw [hg, scanFirst_miss d p h s0 false skip _ (Or.inl (by simp [MDB_NOTFOUND]))]
    rw [filter_key_nil_of_miss d hd p _ _ hmiss]
    · rfl
    · intro x hx
      simp only [Bool.and_eq_true, decide_eq_true_eq] at hx
      exact hx.1

/-- The exact-key lookup: the entry stored under the search key. -/
theorem scanBody_exact {σ : Type} (d : NamedDatabase) (hd : d.Sorted)
    (hdup : d.allowDuplicates = false) (p : QByteArray)
    (hp : p ≠ []) (h : σ → QByteArray → QByteArray → Bool × σ)
    (htrue : ∀ s a b, (h s a b).1 = true) (s0 : σ) (skip : Bool) :
    ((scanBody d p h s0 false skip).calls).map (fun c => c.1) =
      d.entries.filter (fun e => decide (e.1 = p)) := by
  obtain ⟨hsplit, hpre, hpost⟩ := seek_spec d.entries p
  have hsorted := NamedDatabase.Sorted.split d hd _ _ hsplit
  have hp' : p.isEmpty = false := by
    cases p with
    | nil => exact absurd rfl hp
    | cons _ _ => rfl
  unfold scanBody
  simp only [hdup, hp', Bool.or_false, Bool.false_eq_true, if_false, scanExact]
  rcases mdb_set_cases d.entries p hp with ⟨e, rest, hs2, he, hg⟩ | ⟨hmiss, hg⟩
  · rw [hg]
    simp only [if_true, htrue, List.map_cons, List.map_nil]
    have hpre0 : (seek d.entries p).1.filter (fun e => decide (e.1 = p)) = [] := by
      apply filter_below_nil p _ _ hpre
      intro x hx
      simp only [decide_eq_true_eq] at hx
      rw [hx]
      exact QByteArray.lt_irrefl _
    rw [hsplit, List.filter_append, hpre0, hs2, List.nil_append]
    have hfc : List.filter (fun x : Entry => decide (x.1 = p)) (e :: rest)
        = e :: List.filter (fun x : Entry => decide (x.1 = p)) rest := by
      simp [List.filter_cons, he]
    rw [hfc]
    rw [hs2, List.pairwise_cons] at hsorted
    have hrest : rest.filter (fun e => decide (e.1 = p)) = [] := by
      rw [List.filter_eq_nil_iff]
      intro x hx hxp
      simp only [decide_eq_true_eq] at hxp
      rcases hsorted.1 x hx with hlt | ⟨hdup', _⟩
      · rw [he, hxp] at hlt
        exact QByteArray.lt_irrefl _ hlt
      · rw [hdup] at hdup'
        cases hdup'
    rw [hrest]
  · rw [hg]
    simp only [MDB_NOTFOUND, Int.reduceNeg, Int.neg_eq_zero, OfNat.ofNat_ne_zero, if_false,
      List.map_nil]
    rw [filter_key_nil_of_miss d hd p _ _ hmiss]
    intro x hx
    simpa using hx

/-- The empty key on a database without duplicates: every entry. -/
theorem scanBody_all {σ : Type} (d : NamedDatabase)
    (hdup : d.allowDuplicates = false) (h : σ → QByteArray → QByteArray → Bool × σ)
    (htrue : ∀ s a b, (h s a b).1 = true) (s0 : σ) (skip : Bool) :
    ((scanBody d [] h s0 false skip).calls).map (fun c => c.1) =
      d.entries.filter (fun e => !(skip && isInternalKey e.1)) := by
  unfold scanBody
  simp only [hdup, List.isEmpty_nil, Bool.true_or, if_true, notFoundIsOk_calls, scanOp,
    Bool.false_eq_true, if_false]
  rcases mdb_first_cases d.entries [] with ⟨e, rest, hs2, hg⟩ | ⟨hs2, hg⟩
  · rw [hg]
    have hlen : rest.length ≤ d.entries.length := by
      rw [hs2]
      simp
    rw [scanFirst_hit d [] h htrue s0 false skip _ e rest hlen (QByteArray.startsWith_nil _),
      map_fst_map_true]
    simp only [hdup, Bool.false_and, Bool.false_eq_true, if_false, hs2]
    apply List.filter_congr
    intro x _
    rw [QByteArray.startsWith_nil, Bool.true_and]
  · rw [hg, scanFirst_miss d [] h s0 false skip _ (Or.inl (by simp [MDB_NOTFOUND])), hs2]
    rfl

end Sink

namespace Sink

/-- C5 (as amended): on an open, well-formed database and with a result handler that always
returns true, `scan(p, handler)` invokes the handler, each entry once and in ascending
key order, on exactly
* the entries whose key starts with `p`, when `findSubstringKeys` is set and `p` is not empty;
* the entries whose key equals `p`, when `findSubstringKeys` is not set and `p` is not empty;
* all entries, when `p` is empty, the database has no duplicates and `findSubstringKeys`
  is not set;
in each case without the entries whose key is internal when `skipInternalKeys` is set,
except in the exact-key lookup of a database without duplicates, which does not look
at that flag. -/
theorem NamedDatabase.scan_visits {σ : Type} (d : NamedDatabase) (hd : d.Ok) (p : QByteArray)
    (resultHandler : σ → QByteArray → QByteArray → Bool × σ)
    (htrue : ∀ s a b, (resultHandler s a b).1 = true) (s0 : σ)
    (hasErrorHandler findSubstringKeys skipInternalKeys : Bool) :
    (findSubstringKeys = true → p ≠ [] →
      ((d.scan p resultHandler s0 hasErrorHandler findSubstringKeys skipInternalKeys).calls).map
          (fun c => c.1)
        = d.entries.filter
            (fun e => e.1.startsWith p && !(skipInternalKeys && isInternalKey e.1))) ∧
    (findSubstringKeys = false → p ≠ [] → d.allowDuplicates = true →
      ((d.scan p resultHandler s0 hasErrorHandler findSubstringKeys skipInternalKeys).calls).map
          (fun c => c.1)
        = d.entries.filter
            (fun e => decide (e.1 = p) && !(skipInternalKeys && isInternalKey e.1))) ∧
    (findSubstringKeys = false → p ≠ [] → d.allowDuplicates = false →
      ((d.scan p resultHandler s0 hasErrorHandler findSubstringKeys skipInternalKeys).calls).map
          (fun c => c.1)
        = d.entries.filter (fun e => decide (e.1 = p))) ∧
    (findSubstringKeys = false → p = [] → d.allowDuplicates = false →
      ((d.scan p resultHandler s0 hasErrorHandler findSubstringKeys skipInternalKeys).calls).map
          (fun c => c.1)
        = d.entries.filter (fun e => !(skipInternalKeys && isInternalKey e.1))) := by
  rw [scan_calls_eq_body d hd]
  obtain ⟨_, _, hs⟩ := hd
  refine ⟨?_, ?_, ?_, ?_⟩
  · intro hf hp
    subst hf
    exact scanBody_substring d hs p hp resultHandler htrue s0 skipInternalKeys
  · intro hf hp hdup
    subst hf
    exact scanBody_duplicates d hs hdup p hp resultHandler htrue s0 skipInternalKeys
  · intro hf hp hdup
    subst hf
    exact scanBody_exact d hs hdup p hp resultHandler htrue s0 skipInternalKeys
  · intro hf hp hdup
    subst hf
    subst hp
    exact scanBody_all d hdup resultHandler htrue s0 skipInternalKeys

theorem NamedDatabase.scan_visits_witness :
    sampleDb.Ok ∧ (∀ s a b, (continueHandler s a b).1 = true) ∧
    ((sampleDb.scan [97] continueHandler () true true true).calls).map (fun c => c.1)
      = sampleDb.entries.filter
          (fun e => e.1.startsWith [97] && !(true && isInternalKey e.1)) ∧
    ((sampleDb.scan [97] continueHandler () true false true).calls).map (fun c => c.1)
      = sampleDb.entries.filter (fun e => decide (e.1 = [97])) :=
  ⟨by unfold NamedDatabase.Ok NamedDatabase.Sorted; decide, fun _ _ _ => rfl,
   (NamedDatabase.scan_visits sampleDb (by unfold NamedDatabase.Ok NamedDatabase.Sorted; decide)
      [97] continueHandler (fun _ _ _ => rfl) () true true true).1 rfl (by decide),
   (NamedDatabase.scan_visits sampleDb (by unfold NamedDatabase.Ok NamedDatabase.Sorted; decide)
      [97] continueHandler (fun _ _ _ => rfl) () true false true).2.2.1 rfl (by decide) rfl⟩

/-- C5 (as stated) fails: without `findSubstringKeys` the scan for `a` is an exact-key
lookup; on a database holding only the key `ab`, which starts with `a`, the result
handler is not invoked at all. -/
theorem NamedDatabase.scan_without_substring_mode_misses_longer_key :
    NamedDatabase.Ok ⟨true, [([97, 98], [49])], false, 0⟩ ∧
    QByteArray.startsWith [97, 98] [97] = true ∧
    ((⟨true, [([97, 98], [49])], false, 0⟩ : NamedDatabase).scan [97] continueHandler ()
      true false false).calls = [] := by
  refine ⟨by unfold NamedDatabase.Ok NamedDatabase.Sorted; decide, by decide, by decide⟩

end Sink

namespace Sink

/-! ## `findLatest` -/

theorem findLatestLoop_stop (entries : List Entry) (p : QByteArray) (fuel : Nat)
    (st : FindLatestState) (h : st.key.startsWith p = false) :
    findLatestLoop entries p fuel st = st := by
  cases fuel with
  | zero => rfl
  | succ f => simp only [findLatestLoop, h, Bool.false_eq_true, if_false]

theorem findLatestLoop_spec (entries : List Entry) (p : QByteArray) :
    ∀ (after : List Entry) (fuel : Nat) (b : List Entry) (cur : Entry) (adv : Bool),
      after.length < fuel → cur.1.startsWith p = true →
      (after.dropWhile (fun x => x.1.startsWith p) = [] →
        (findLatestLoop entries p fuel ⟨0, adv, some ⟨b, cur, after⟩, cur.1, cur.2⟩).rc
            = MDB_NOTFOUND ∧
        (findLatestLoop entries p fuel ⟨0, adv, some ⟨b, cur, after⟩, cur.1, cur.2⟩).advanced
            = true) ∧
      (∀ x rest', after.dropWhile (fun x => x.1.startsWith p) = x :: rest' →
        findLatestLoop entries p fuel ⟨0, adv, some ⟨b, cur, after⟩, cur.1, cur.2⟩
          = ⟨0, true,
              some ⟨(after.takeWhile (fun x => x.1.startsWith p)).reverse ++ cur :: b, x, rest'⟩,
              x.1, x.2⟩) := by
  intro after
  induction after with
  | nil =>
    intro fuel b cur adv hf hcur
    obtain ⟨f, rfl⟩ : ∃ f, fuel = f + 1 := ⟨fuel - 1, by simp at hf; omega⟩
    constructor
    · intro _
      simp [findLatestLoop, hcur, mdb_cursor_get, MDB_NOTFOUND]
    · intro x rest' hx
      simp at hx
  | cons n rest ih =>
    intro fuel b cur adv hf hcur
    obtain ⟨f, rfl⟩ : ∃ f, fuel = f + 1 := ⟨fuel - 1, by simp at hf; omega⟩
    have hf' : rest.length < f := by simp at hf; omega
    have hstep : findLatestLoop entries p (f + 1) ⟨0, adv, some ⟨b, cur, n :: rest⟩, cur.1, cur.2⟩
        = findLatestLoop entries p f ⟨0, true, some ⟨cur :: b, n, rest⟩, n.1, n.2⟩ := by
      simp [findLatestLoop, hcur, mdb_cursor_get]
    rw [hstep]
    by_cases hn : n.1.startsWith p = true
    · have hd : (n :: rest).dropWhile (fun x => x.1.startsWith p)
          = rest.dropWhile (fun x => x.1.startsWith p) := by
        simp [List.dropWhile_cons, hn]
      have ht : (n :: rest).takeWhile (fun x => x.1.startsWith p)
          = n :: rest.takeWhile (fun x => x.1.startsWith p) := by
        simp [List.takeWhile_cons, hn]
      rw [hd, ht]
      obtain ⟨h1, h2⟩ := ih f (cur :: b) n true hf' hn
      refine ⟨h1, ?_⟩
      intro x rest' hx
      rw [h2 x rest' hx]
      simp
    · have hn' : n.1.startsWith p = false := by simpa using hn
      have hd : (n :: rest).dropWhile (fun x => x.1.startsWith p) = n :: rest := by
        simp [List.dropWhile_cons, hn']
      have ht : (n :: rest).takeWhile (fun x => x.1.startsWith p) = [] := by
        simp [List.takeWhile_cons, hn']
      rw [hd, ht, findLatestLoop_stop _ _ _ _ hn']
      constructor
      · intro h
        cases h
      · intro x rest' hx
        injection hx with hx1 hx2
        subst hx1
        subst hx2
        rfl

theorem mdb_last_of_getLast (entries : List Entry) (c : Option MDB_cursor)
    (key data : QByteArray) (l : Entry) (h : entries.getLast? = some l) :
    (mdb_cursor_get entries c key data .MDB_LAST).rc = 0 ∧
    (mdb_cursor_get entries c key data .MDB_LAST).key = l.1 ∧
    (mdb_cursor_get entries c key data .MDB_LAST).data = l.2 := by
  obtain ⟨ys, rfl⟩ := List.getLast?_eq_some_iff.1 h
  simp [mdb_cursor_get]

/-- The last element of a list in key order is not below any element. -/
theorem getLast_greatest (dup : Bool) (l : List Entry) (e : Entry)
    (hs : l.Pairwise (fun a b => QByteArray.lt a.1 b.1 ∨ (dup = true ∧ a.1 = b.1)))
    (h : l.getLast? = some e) : ∀ x ∈ l, ¬ QByteArray.lt e.1 x.1 := by
  obtain ⟨ys, rfl⟩ := List.getLast?_eq_some_iff.1 h
  rw [List.pairwise_append] at hs
  intro x hx
  rcases List.mem_append.1 hx with hx | hx
  · exact NamedDatabase.Sorted.not_lt (hs.2.2 x hx e (List.mem_singleton_self e))
  · rw [List.mem_singleton.1 hx]
    exact QByteArray.lt_irrefl _

end Sink

namespace Sink

theorem mdb_prev_of (entries : List Entry) (l cur : Entry) (r after : List Entry)
    (key data : QByteArray) :
    mdb_cursor_get entries (some ⟨l :: r, cur, after⟩) key data .MDB_PREV
      = ⟨0, some ⟨r, l, cur :: after⟩, l.1, l.2⟩ := by
  simp [mdb_cursor_get]

theorem findLatest_hit (d : NamedDatabase) (hd : d.Ok) (p : QByteArray) (hp : p ≠ [])
    (he : Bool) (e : Entry) (rest : List Entry) (hs2 : (seek d.entries p).2 = e :: rest)
    (hs : e.1.startsWith p = true) :
    ∃ l, (e :: rest.takeWhile (fun x => x.1.startsWith p)).getLast? = some l ∧
      d.findLatest p he = ⟨[l], []⟩ := by
  obtain ⟨ho, hc, _⟩ := hd
  obtain ⟨hsplit, _, _⟩ := seek_spec d.entries p
  have hg : mdb_cursor_get d.entries none p [] .MDB_SET_RANGE
      = ⟨0, some ⟨(seek d.entries p).1.reverse, e, rest⟩, e.1, e.2⟩ := by
    rcases mdb_set_range_cases d.entries p hp with ⟨e', rest', h1, h2⟩ | ⟨h1, _⟩
    · rw [hs2] at h1
      injection h1 with h3 h4
      subst h3
      subst h4
      exact h2
    · rw [hs2] at h1
      cases h1
  have hlen : rest.length < d.entries.length + 1 := by
    rw [hsplit, hs2]
    simp
    omega
  obtain ⟨hnil, hcons⟩ := findLatestLoop_spec d.entries p rest (d.entries.length + 1)
    (seek d.entries p).1.reverse e false hlen hs
  obtain ⟨l, hl⟩ : ∃ l, (e :: rest.takeWhile (fun x => x.1.startsWith p)).getLast? = some l := by
    cases hlast : (e :: rest.takeWhile (fun x => x.1.startsWith p)).getLast? with
    | none => simp at hlast
    | some l => exact ⟨l, rfl⟩
  refine ⟨l, hl, ?_⟩
  unfold NamedDatabase.findLatest
  simp only [ho, hc, Bool.not_true, Bool.false_eq_true, if_false, ne_eq, not_true_eq_false, hg,
    if_true, hs]
  cases hdw : rest.dropWhile (fun x => x.1.startsWith p) with
  | nil =>
    obtain ⟨h1, h2⟩ := hnil hdw
    have hall : rest.takeWhile (fun x => x.1.startsWith p) = rest := by
      have := List.takeWhile_append_dropWhile (fun x : Entry => x.1.startsWith p) rest
      rw [hdw, List.append_nil] at this
      exact this
    have hlast : d.entries.getLast? = some l := by
      rw [hall] at hl
      rw [hsplit, hs2, List.getLast?_append, hl]
      rfl
    generalize findLatestLoop d.entries p (d.entries.length + 1)
      ⟨0, false, some ⟨(seek d.entries p).1.reverse, e, rest⟩, e.1, e.2⟩ = st at h1 h2
    obtain ⟨h3, h4, h5⟩ := mdb_last_of_getLast d.entries st.cursor st.key st.data l hlast
    simp only [h1, h2, if_true, h3, h4, h5]
    simp [MDB_NOTFOUND]
  | cons x rest' =>
    rw [hcons x rest' hdw]
    obtain ⟨ys, hys⟩ := List.getLast?_eq_some_iff.1 hl
    have hrev : (rest.takeWhile (fun x => x.1.startsWith p)).reverse
        ++ e :: (seek d.entries p).1.reverse = l :: (ys.reverse ++ (seek d.entries p).1.reverse) := by
      have := congrArg List.reverse hys
      simp only [List.reverse_cons, List.reverse_append, List.reverse_nil, List.nil_append,
        List.singleton_append] at this
      rw [← List.singleton_append, ← List.append_assoc, this]
      rfl
    rw [hrev]
    simp [MDB_NOTFOUND, mdb_prev_of]

end Sink

namespace Sink

/-- Among entries in key order none of which is below `p`, those whose key starts with
`p` come first. -/
theorem filter_startsWith_eq_takeWhile (dup : Bool) (p : QByteArray) :
    ∀ (l : List Entry),
      l.Pairwise (fun a b => QByteArray.lt a.1 b.1 ∨ (dup = true ∧ a.1 = b.1)) →
      (∀ x ∈ l, ¬ QByteArray.lt x.1 p) →
      l.filter (fun x => x.1.startsWith p) = l.takeWhile (fun x => x.1.startsWith p) := by
  intro l
  induction l with
  | nil => intro _ _; rfl
  | cons x l ih =>
    intro hs hge
    by_cases hx : x.1.startsWith p = true
    · rw [List.pairwise_cons] at hs
      simp only [hx, List.filter_cons_of_pos, List.takeWhile_cons_of_pos]
      rw [ih hs.2 (fun y hy => hge y (List.mem_cons_of_mem _ hy))]
    · have hx' : x.1.startsWith p = false := by simpa using hx
      have hnone := no_match_behind dup p x l hs (hge x (List.mem_cons_self _ _)) hx'
      have h1 : (x :: l).filter (fun x => x.1.startsWith p) = [] := by
        rw [List.filter_eq_nil_iff]
        intro y hy hyp
        rw [hnone y hy] at hyp
        cases hyp
      have h2 : (x :: l).takeWhile (fun x => x.1.startsWith p) = [] := by
        simp [List.takeWhile_cons, hx']
      rw [h1, h2]

/-- C4: on an open, well-formed database, for a non-empty prefix `p` that at least one stored
key starts with, `findLatest(p, handler)` invokes the result handler exactly once, with
the last stored entry whose key starts with `p` (its key is the greatest such key, the
value is the one stored under it), and invokes no error handler. -/
theorem NamedDatabase.findLatest_reports_greatest (d : NamedDatabase) (hd : d.Ok)
    (p : QByteArray) (hp : p ≠ []) (hasErrorHandler : Bool)
    (hex : ∃ e ∈ d.entries, e.1.startsWith p = true) :
    ∃ l, (d.findLatest p hasErrorHandler).calls = [l] ∧
      (d.findLatest p hasErrorHandler).errors = [] ∧
      l ∈ d.entries ∧ l.1.startsWith p = true ∧
      (∀ x ∈ d.entries, x.1.startsWith p = true → ¬ QByteArray.lt l.1 x.1) ∧
      (d.entries.filter (fun x => x.1.startsWith p)).getLast? = some l := by
  obtain ⟨e0, he0, hp0⟩ := hex
  obtain ⟨hsplit, hpre, hpost⟩ := seek_spec d.entries p
  have hsorted := NamedDatabase.Sorted.split d hd.2.2 _ _ hsplit
  have he0post : e0 ∈ (seek d.entries p).2 := by
    rw [hsplit, List.mem_append] at he0
    rcases he0 with h | h
    · exact absurd (hpre e0 h) (QByteArray.not_lt_of_startsWith _ _ hp0)
    · exact h
  cases hs2 : (seek d.entries p).2 with
  | nil =>
    rw [hs2] at he0post
    cases he0post
  | cons e rest =>
    rw [hs2] at he0post hsorted
    have hge := hpost e rest hs2
    have hall : ∀ x ∈ e :: rest, ¬ QByteArray.lt x.1 p := by
      intro x hx
      rcases List.mem_cons.1 hx with rfl | hx
      · exact hge
      · exact QByteArray.not_lt_trans hge
          (NamedDatabase.Sorted.not_lt ((List.pairwise_cons.1 hsorted).1 x hx))
    have hs : e.1.startsWith p = true := by
      rcases List.mem_cons.1 he0post with rfl | hx
      · exact hp0
      · exact QByteArray.startsWith_of_between p e.1 e0.1 hge
          (NamedDatabase.Sorted.not_lt ((List.pairwise_cons.1 hsorted).1 e0 hx)) hp0
    obtain ⟨l, hl, hfl⟩ := findLatest_hit d hd p hp hasErrorHandler e rest hs2 hs
    have hfilter : d.entries.filter (fun x => x.1.startsWith p)
        = e :: rest.takeWhile (fun x => x.1.startsWith p) := by
      have hpre0 : (seek d.entries p).1.filter (fun x => x.1.startsWith p) = [] :=
        filter_below_nil p _ _ hpre (fun x hx => QByteArray.not_lt_of_startsWith _ _ hx)
      rw [hsplit, List.filter_append, hpre0, hs2, List.nil_append,
        filter_startsWith_eq_takeWhile d.allowDuplicates p (e :: rest) hsorted hall]
      simp [List.takeWhile_cons, hs]
    have hlmem : l ∈ d.entries.filter (fun x => x.1.startsWith p) := by
      rw [hfilter]
      exact List.mem_of_mem_getLast? hl
    have hfs : (d.entries.filter (fun x => x.1.startsWith p)).Pairwise
        (fun a b => QByteArray.lt a.1 b.1 ∨ (d.allowDuplicates = true ∧ a.1 = b.1)) :=
      List.Pairwise.sublist (List.filter_sublist _) hd.2.2
    rw [← hfilter] at hl
    refine ⟨l, by rw [hfl], by rw [hfl], (List.mem_filter.1 hlmem).1,
      (List.mem_filter.1 hlmem).2, ?_, hl⟩
    intro x hx hxp
    exact getLast_greatest d.allowDuplicates _ l hfs hl x (List.mem_filter.2 ⟨hx, hxp⟩)

theorem NamedDatabase.findLatest_reports_greatest_witness :
    sampleDb.Ok ∧ ([97] : QByteArray) ≠ [] ∧
    (∃ e ∈ sampleDb.entries, e.1.startsWith [97] = true) ∧
    ∃ l, (sampleDb.findLatest [97] true).calls = [l] ∧
      (sampleDb.findLatest [97] true).errors = [] ∧
      l ∈ sampleDb.entries ∧ l.1.startsWith [97] = true ∧
      (∀ x ∈ sampleDb.entries, x.1.startsWith [97] = true → ¬ QByteArray.lt l.1 x.1) ∧
      (sampleDb.entries.filter (fun x => x.1.startsWith [97])).getLast? = some l :=
  ⟨by unfold NamedDatabase.Ok NamedDatabase.Sorted; decide, by decide,
   ⟨([97], [49]), by decide, by decide⟩,
   NamedDatabase.findLatest_reports_greatest sampleDb
     (by unfold NamedDatabase.Ok NamedDatabase.Sorted; decide) [97] (by decide) true
     ⟨([97], [49]), by decide, by decide⟩⟩

end Sink

namespace Sink

/-! ## The query facade -/

/-- C8 (code): `load` hands `false` to `filterSet` as `initialQuery` also for the initial
query, so on the sample content the initial query calls the provider's `modify` for the
entity whose latest version is a Modification and `remove` for the entity whose latest
version is a Removal; no `add` is made. -/
theorem GenericFacade.executeInitialQuery_calls_modify_and_remove :
    (sampleFacade.executeInitialQuery ⟨[], [], false, []⟩ [] sampleTransaction).1 =
      [ProviderCall.modify sampleModified, ProviderCall.modify sampleModified,
       ProviderCall.remove sampleRemoved, ProviderCall.remove sampleRemoved,
       ProviderCall.setRevision 4] := by
  decide

theorem GenericFacade.incrementalGenerator_spec (f : GenericFacade) (t : Transaction) :
    ∀ (n : Nat) (c : Int), n = (t.maxRevision + 1 - c).toNat →
      ∀ R, c ≤ R → R ≤ t.maxRevision → t.getTypeFromRevision R = f.bufferType →
        ∃ R0, c ≤ R0 ∧ R0 ≤ R ∧ t.getTypeFromRevision R0 = f.bufferType ∧
          f.incrementalGenerator t n c = (f.assembleKey (t.getUidFromRevision R0) R0, R0 + 1) := by
  intro n
  induction n with
  | zero =>
    intro c hn R h1 h2 _
    omega
  | succ n ih =>
    intro c hn R h1 h2 h3
    have hc : c ≤ t.maxRevision := by omega
    simp only [GenericFacade.incrementalGenerator, hc, if_true]
    by_cases hty : t.getTypeFromRevision c = f.bufferType
    · refine ⟨c, le_refl c, h1, hty, ?_⟩
      simp only [hty, ne_eq, not_true_eq_false, if_false]
    · have hne : c ≠ R := by
        intro h
        rw [h] at hty
        exact hty h3
      obtain ⟨R0, h4, h5, h6, h7⟩ := ih (c + 1) (by omega) R (by omega) h2 h3
      refine ⟨R0, by omega, h5, h6, ?_⟩
      simp only [ne_eq, hty, not_false_eq_true, if_true]
      exact h7

theorem GenericFacade.mem_generatedKeys (f : GenericFacade) (t : Transaction)
    (hkey : ∀ uid revision, f.assembleKey uid revision ≠ []) :
    ∀ (fuel : Nat) (c : Int), (t.maxRevision + 1 - c).toNat < fuel →
      ∀ R, c ≤ R → R ≤ t.maxRevision → t.getTypeFromRevision R = f.bufferType →
        f.assembleKey (t.getUidFromRevision R) R ∈ f.generatedKeys t fuel c := by
  intro fuel
  induction fuel with
  | zero => intro c h; omega
  | succ fuel ih =>
    intro c hf R h1 h2 h3
    obtain ⟨R0, h4, h5, _, h7⟩ :=
      f.incrementalGenerator_spec t _ c rfl R h1 h2 h3
    have hne : (f.assembleKey (t.getUidFromRevision R0) R0).isEmpty = false := by
      cases hk : f.assembleKey (t.getUidFromRevision R0) R0 with
      | nil => exact absurd hk (hkey _ _)
      | cons _ _ => rfl
    simp only [GenericFacade.generatedKeys, h7, hne, Bool.false_eq_true, if_false]
    by_cases hR : R0 = R
    · subst hR
      exact List.mem_cons_self _ _
    · exact List.mem_cons_of_mem _ (ih (R0 + 1) (by omega) R (by omega) h2 h3)

theorem GenericFacade.mem_filterSet_removal (f : GenericFacade) (resultSet : ResultSet)
    (filter : ApplicationDomainType → Bool) (t : Transaction) (key : QByteArray)
    (hkey : key ∈ resultSet.keys) (value : ApplicationDomainType)
    (hv : (value, Operation.Operation_Removal) ∈ f.readEntity t key) :
    (value, Operation.Operation_Removal) ∈ f.filterSet resultSet filter t false := by
  unfold GenericFacade.filterSet
  rw [List.mem_flatMap]
  refine ⟨key, hkey, ?_⟩
  rw [List.mem_flatMap]
  refine ⟨_, hv, ?_⟩
  simp

/-- C9: in an incremental query every revision of the queried type from the provider's
revision + 1 up to the top revision is replayed, and when the entity read for it has
operation Removal the provider's `remove` is called with it, whatever the residual
property filter says about the entity. (Keys assembled from an identifier and a
revision are never empty.) -/
theorem GenericFacade.removals_pass_the_filter (f : GenericFacade) (query : Query)
    (providerRevision : Int) (t : Transaction)
    (hkey : ∀ uid revision, f.assembleKey uid revision ≠ [])
    (R : Int) (hlow : providerRevision + 1 ≤ R) (hhigh : R ≤ t.maxRevision)
    (htype : t.getTypeFromRevision R = f.bufferType)
    (value : ApplicationDomainType)
    (hremoval : (value, Operation.Operation_Removal)
      ∈ f.readEntity t (f.assembleKey (t.getUidFromRevision R) R)) :
    ProviderCall.remove value ∈ (f.executeIncrementalQuery query providerRevision t).1 := by
  have hmem := f.mem_generatedKeys t hkey
    ((t.maxRevision + 1 - (providerRevision + 1)).toNat + 1) (providerRevision + 1)
    (by omega) R hlow hhigh htype
  have hfs := f.mem_filterSet_removal
    (f.loadIncrementalResultSet (providerRevision + 1) query t).1
    (getFilter (f.loadIncrementalResultSet (providerRevision + 1) query t).2 query) t _
    hmem value hremoval
  unfold GenericFacade.executeIncrementalQuery GenericFacade.load
  simp only [List.mem_append]
  left
  unfold replaySet
  rw [List.mem_map]
  exact ⟨_, hfs, rfl⟩

theorem GenericFacade.removals_pass_the_filter_witness :
    (∀ uid revision, sampleFacade.assembleKey uid revision ≠ []) ∧
    ((0 : Int) + 1 ≤ 4) ∧ ((4 : Int) ≤ sampleTransaction.maxRevision) ∧
    sampleTransaction.getTypeFromRevision 4 = sampleFacade.bufferType ∧
    (sampleRemoved, Operation.Operation_Removal) ∈ sampleFacade.readEntity sampleTransaction
      (sampleFacade.assembleKey (sampleTransaction.getUidFromRevision 4) 4) ∧
    getFilter [uidPropertyName] ⟨[], [(uidPropertyName, some [121])], true, []⟩ sampleRemoved = true ∧
    ProviderCall.remove sampleRemoved ∈
      (sampleFacade.executeIncrementalQuery ⟨[], [(uidPropertyName, some [121])], true, []⟩ 0
        sampleTransaction).1 :=
  have hkey : ∀ uid revision, sampleFacade.assembleKey uid revision ≠ [] := by
    intro uid revision h
    have hlen := congrArg List.length h
    simp only [sampleFacade, padNumber, QByteArray.rightJustified, List.length_append,
      List.length_nil] at hlen
    split at hlen
    · simp only [List.length_append, List.length_replicate, uint_num_digits] at hlen
      omega
    · rename_i hge
      simp only [uint_num_digits] at hge
      omega
  ⟨hkey, by decide, by decide, by decide, by decide, by decide,
    GenericFacade.removals_pass_the_filter sampleFacade
      ⟨[], [(uidPropertyName, some [121])], true, []⟩ 0 sampleTransaction hkey 4
      (by decide) (by decide) (by decide) sampleRemoved (by decide)⟩

theorem getFilter_cons (fp : QByteArray) (rest : List QByteArray) (query : Query)
    (o : ApplicationDomainType) :
    getFilter (fp :: rest) query o =
      if (o.getProperty fp).isSome then
        if o.getProperty fp != query.propertyFilter.value fp then false
        else getFilter rest query o
      else getFilter rest query o := rfl

theorem getFilter_eq_true_iff (remainingFilters : List QByteArray) (query : Query)
    (domainObject : ApplicationDomainType) :
    getFilter remainingFilters query domainObject = true ↔
      ∀ filterProperty ∈ remainingFilters, ∀ v,
        domainObject.getProperty filterProperty = some v →
          query.propertyFilter.value filterProperty = some v := by
  induction remainingFilters with
  | nil => simp [getFilter]
  | cons fp rest ih =>
    have hsplit : (∀ filterProperty ∈ fp :: rest, ∀ v,
        domainObject.getProperty filterProperty = some v →
          query.propertyFilter.value filterProperty = some v) ↔
        ((∀ v, domainObject.getProperty fp = some v → query.propertyFilter.value fp = some v) ∧
          ∀ filterProperty ∈ rest, ∀ v,
            domainObject.getProperty filterProperty = some v →
              query.propertyFilter.value filterProperty = some v) := by
      constructor
      · intro h
        exact ⟨h fp (List.mem_cons_self _ _), fun x hx => h x (List.mem_cons_of_mem _ hx)⟩
      · intro h x hx
        rcases List.mem_cons.1 hx with rfl | hx
        · exact h.1
        · exact h.2 x hx
    rw [hsplit, ← ih, getFilter_cons]
    cases hprop : domainObject.getProperty fp with
    | none =>
      simp only [Option.isSome_none, Bool.false_eq_true, if_false]
      constructor
      · intro h
        exact ⟨fun v hv => Option.noConfusion hv, h⟩
      · intro h
        exact h.2
    | some v =>
      simp only [Option.isSome_some, if_true]
      by_cases heq : query.propertyFilter.value fp = some v
      · simp only [heq, bne_self_eq_false, Bool.false_eq_true, if_false]
        constructor
        · intro h
          refine ⟨fun w hw => ?_, h⟩
          rw [← hw]
        · intro h
          exact h.2
      · have hne : (some v != query.propertyFilter.value fp) = true := by
          simp only [bne_iff_ne, ne_eq]
          exact fun h => heq h.symm
        simp only [hne, if_true, Bool.false_eq_true, false_iff, not_and]
        intro h
        exact absurd (h v rfl) heq

/-- C10 (as amended): a filtered property that is not present or invalid on the entity is
ignored by the filter built by `getFilter`: the filter accepts the entity exactly when
every filtered property that is valid on the entity equals the value given for it in
the query, so an entity lacking all filtered properties is accepted. -/
theorem getFilter_ignores_invalid_properties (remainingFilters : List QByteArray)
    (query : Query) (domainObject : ApplicationDomainType) :
    (getFilter remainingFilters query domainObject = true ↔
      ∀ filterProperty ∈ remainingFilters, ∀ v,
        domainObject.getProperty filterProperty = some v →
          query.propertyFilter.value filterProperty = some v) ∧
    ((∀ filterProperty ∈ remainingFilters, domainObject.getProperty filterProperty = none) →
      getFilter remainingFilters query domainObject = true) := by
  refine ⟨getFilter_eq_true_iff remainingFilters query domainObject, ?_⟩
  intro h
  rw [getFilter_eq_true_iff]
  intro fp hfp v hv
  rw [h fp hfp] at hv
  cases hv

theorem getFilter_ignores_invalid_properties_witness :
    (∀ filterProperty ∈ [uidPropertyName],
      sampleRemoved.getProperty filterProperty = none) ∧
    getFilter [uidPropertyName] ⟨[], [(uidPropertyName, some [121])], false, []⟩ sampleRemoved
      = true :=
  ⟨by decide,
   (getFilter_ignores_invalid_properties [uidPropertyName]
      ⟨[], [(uidPropertyName, some [121])], false, []⟩ sampleRemoved).2 (by decide)⟩

/-- C10 (as stated) fails: the property `uid` is not present on the entity, and the filter
built for `uid` = `y` accepts the entity. -/
theorem getFilter_accepts_entity_without_the_property :
    sampleRemoved.getProperty uidPropertyName = none ∧
    getFilter [uidPropertyName] ⟨[], [(uidPropertyName, some [121])], false, []⟩ sampleRemoved
      = true := by
  decide

end Sink

namespace Sink

/-! ## Instances on the sample database -/

theorem NamedDatabase.scan_stops_on_false_witness :
    (sampleDb.scan [97] stopAtSecond 0 true true false).calls
      = [(([97], [49]), true), (([97, 98], [50]), false)] ∧
    ((([97], [49]) : Entry), true)
      ∈ (sampleDb.scan [97] stopAtSecond 0 true true false).calls.dropLast ∧
    ((([97], [49]) : Entry), true).2 = true :=
  ⟨by decide, by decide,
   NamedDatabase.scan_stops_on_false sampleDb [97] stopAtSecond 0 true true false
     (([97], [49]), true) (by decide)⟩

theorem NamedDatabase.scan_skips_internal_keys_witness :
    (((internalDbNameKey, [109, 97, 105, 108]) : Entry), true)
      ∈ (sampleDb.scan internalDbNameKey continueHandler () true false true).calls ∧
    isInternalKey internalDbNameKey = true ∧
    (internalDbNameKey.isEmpty = false ∧ sampleDb.allowDuplicates = false ∧ false = false ∧
      internalDbNameKey = internalDbNameKey) ∧
    (sampleDb.scan [] continueHandler () true false true).calls.map (fun c => c.1.1)
      = [[97], [97, 98], [97, 98, 99], [98]] :=
  ⟨by decide, by decide,
   (NamedDatabase.scan_skips_internal_keys sampleDb internalDbNameKey continueHandler ()
      true false (fun key => key)).1 ((internalDbNameKey, [109, 97, 105, 108]), true)
      (by decide) (by decide),
   by decide⟩

end Sink

namespace Sink

/-! ## Equality filtering -/

theorem GenericFacade.mem_filterSet_iff (f : GenericFacade) (resultSet : ResultSet)
    (filter : ApplicationDomainType → Bool) (t : Transaction)
    (value : ApplicationDomainType) (op : Operation) :
    (value, op) ∈ f.filterSet resultSet filter t false ↔
      ∃ key ∈ resultSet.keys, (value, op) ∈ f.readEntity t key ∧
        (filter value = true ∨ op = Operation.Operation_Removal) := by
  unfold GenericFacade.filterSet
  simp only [List.mem_flatMap, Bool.false_eq_true, if_false]
  constructor
  · rintro ⟨key, hkey, vo, hvo, hmem⟩
    by_cases hc : (filter vo.1 || vo.2 == Operation.Operation_Removal) = true
    · rw [if_pos hc] at hmem
      have heq : (value, op) = vo := by simpa using hmem
      subst heq
      refine ⟨key, hkey, hvo, ?_⟩
      simpa using hc
    · rw [if_neg hc] at hmem
      cases hmem
  · rintro ⟨key, hkey, hvo, hc⟩
    refine ⟨key, hkey, (value, op), hvo, ?_⟩
    have hc' : (filter value || op == Operation.Operation_Removal) = true := by
      simpa using hc
    rw [if_pos hc']
    exact List.mem_singleton_self _

theorem getFilter_single (p : QByteArray) (query : Query) (o : ApplicationDomainType)
    (v : QByteArray) (hv : query.propertyFilter.value p = some v) :
    getFilter [p] query o = true ↔ (o.getProperty p = some v ∨ o.getProperty p = none) := by
  rw [getFilter_eq_true_iff]
  constructor
  · intro h
    cases hp : o.getProperty p with
    | none => exact Or.inr rfl
    | some w =>
      have := h p (List.mem_singleton_self p) w hp
      rw [hv] at this
      exact Or.inl this.symm
  · rintro (h | h) fp hfp w hw
    · rw [List.mem_singleton.1 hfp] at hw ⊢
      rw [hv, ← h, hw]
    · rw [List.mem_singleton.1 hfp, h] at hw
      cases hw

/-- C11 (as amended): for every entity on which all residual filter properties are present and
valid, the filter built by `getFilter` accepts the entity exactly when, for every
residual property, the entity's value equals the value given for it in
`query.propertyFilter`; a query whose residual filter is `p = v` (for instance `uid = v`)
delivers exactly the entities read for the base set whose `p` is `v`, together with
those on which `p` is not present or invalid and those whose operation is Removal. -/
theorem getFilter_equality_filtering (remainingFilters : List QByteArray) (query : Query)
    (domainObject : ApplicationDomainType) :
    ((∀ filterProperty ∈ remainingFilters,
        (domainObject.getProperty filterProperty).isSome = true) →
      (getFilter remainingFilters query domainObject = true ↔
        ∀ filterProperty ∈ remainingFilters,
          domainObject.getProperty filterProperty
            = query.propertyFilter.value filterProperty)) ∧
    (∀ (f : GenericFacade) (t : Transaction) (resultSet : ResultSet) (p v : QByteArray)
        (value : ApplicationDomainType) (op : Operation),
      query.propertyFilter.value p = some v →
      ((value, op) ∈ f.filterSet resultSet (getFilter [p] query) t false ↔
        ∃ key ∈ resultSet.keys, (value, op) ∈ f.readEntity t key ∧
          (value.getProperty p = some v ∨ value.getProperty p = none ∨
            op = Operation.Operation_Removal))) := by
  constructor
  · intro hvalid
    rw [getFilter_eq_true_iff]
    constructor
    · intro h fp hfp
      obtain ⟨w, hw⟩ := Option.isSome_iff_exists.1 (hvalid fp hfp)
      rw [hw, h fp hfp w hw]
    · intro h fp hfp w hw
      rw [← h fp hfp, hw]
  · intro f t resultSet p v value op hv
    rw [GenericFacade.mem_filterSet_iff, getFilter_single p query value v hv]
    constructor
    · rintro ⟨key, hkey, hread, (h | h) | h⟩
      · exact ⟨key, hkey, hread, Or.inl h⟩
      · exact ⟨key, hkey, hread, Or.inr (Or.inl h)⟩
      · exact ⟨key, hkey, hread, Or.inr (Or.inr h)⟩
    · rintro ⟨key, hkey, hread, h | h | h⟩
      · exact ⟨key, hkey, hread, Or.inl (Or.inl h)⟩
      · exact ⟨key, hkey, hread, Or.inl (Or.inr h)⟩
      · exact ⟨key, hkey, hread, Or.inr h⟩

theorem getFilter_equality_filtering_witness :
    (∀ filterProperty ∈ [uidPropertyName],
      (mailWithUid.getProperty filterProperty).isSome = true) ∧
    (getFilter [uidPropertyName] ⟨[], [(uidPropertyName, some test1)], false, []⟩ mailWithUid = true ↔
      ∀ filterProperty ∈ [uidPropertyName],
        mailWithUid.getProperty filterProperty
          = QVariantHash.value [(uidPropertyName, some test1)] filterProperty) ∧
    getFilter [uidPropertyName] ⟨[], [(uidPropertyName, some test1)], false, []⟩ mailWithUid = true :=
  ⟨by decide,
   (getFilter_equality_filtering [uidPropertyName] ⟨[], [(uidPropertyName, some test1)], false, []⟩
      mailWithUid).1 (by decide),
   by decide⟩

/-- C11 (as stated) fails: of two stored mails, one with `uid` = `test1` and one without a
`uid`, the query filtering on `uid` = `test1` delivers both. -/
theorem query_on_uid_delivers_mail_without_uid :
    (storeFacade.executeInitialQuery ⟨[], [(uidPropertyName, some test1)], false, []⟩ []
        twoMails).1
      = [ProviderCall.add mailWithUid, ProviderCall.add mailWithoutUid,
         ProviderCall.setRevision 2] ∧
    mailWithoutUid.getProperty uidPropertyName ≠ some test1 := by
  decide

end Sink

namespace Sink

/-! ## Incremental runs visit every revision once -/

theorem revisionAfter_load (f : GenericFacade) (query : Query)
    (retriever : Transaction → ResultSet × List QByteArray) (t : Transaction) (r : Int) :
    revisionAfter r (f.load query retriever t).1 = t.maxRevision := by
  unfold revisionAfter GenericFacade.load
  simp only [List.foldl_append, List.foldl_cons, List.foldl_nil]

end Sink

namespace Sink

end Sink

namespace Sink

/-! ## Queries by id and tree queries -/

theorem getFilter_ids (remainingFilters : List QByteArray) (query : Query)
    (ids : List QByteArray) (o : ApplicationDomainType) :
    getFilter remainingFilters { query with ids := ids } o = getFilter remainingFilters query o := by
  induction remainingFilters with
  | nil => rfl
  | cons fp rest ih =>
    rw [getFilter_cons, getFilter_cons, ih]

/-- The facade does not consult `query.ids`: whenever the index lookup applies no filter,
the initial query delivers the same for every list of ids. -/
theorem GenericFacade.executeInitialQuery_ignores_ids (f : GenericFacade) (query : Query)
    (ids : List QByteArray) (parent : QByteArray) (t : Transaction)
    (h1 : (f.queryIndexes
      { query with propertyFilter := query.propertyFilter.insert parentPropertyName (some parent) }
      t).2 = [])
    (h2 : (f.queryIndexes
      { query with ids := ids,
                   propertyFilter := query.propertyFilter.insert parentPropertyName (some parent) }
      t).2 = []) :
    f.executeInitialQuery { query with ids := ids } parent t
      = f.executeInitialQuery query parent t := by
  unfold GenericFacade.executeInitialQuery GenericFacade.load GenericFacade.loadInitialResultSet
  simp only [h1, h2, List.isEmpty_nil, if_true]
  have hfilter : getFilter
        (List.filter (fun k => !([] : List QByteArray).contains k)
          (QVariantHash.keys (QVariantHash.insert query.propertyFilter parentPropertyName
            (some parent))))
        { ids := ids,
          propertyFilter := query.propertyFilter.insert parentPropertyName (some parent),
          liveQuery := query.liveQuery,
          parentProperty := query.parentProperty }
      = getFilter
        (List.filter (fun k => !([] : List QByteArray).contains k)
          (QVariantHash.keys (QVariantHash.insert query.propertyFilter parentPropertyName
            (some parent))))
        { ids := query.ids,
          propertyFilter := query.propertyFilter.insert parentPropertyName (some parent),
          liveQuery := query.liveQuery,
          parentProperty := query.parentProperty } := by
    funext o
    exact getFilter_ids _
      { ids := query.ids,
        propertyFilter := query.propertyFilter.insert parentPropertyName (some parent),
        liveQuery := query.liveQuery,
          parentProperty := query.parentProperty } ids o
  rw [hfilter]

/-- C13 (code): with two stored mails and `ids` holding the identifier of the first one only,
the initial query delivers both mails: the facade builds its base set by the full
scan and never looks at `query.ids`. -/
theorem GenericFacade.executeInitialQuery_by_id_delivers_both :
    (storeFacade.executeInitialQuery ⟨[QUuid.toRfc4122 ⟨1⟩], [], false, []⟩ [] twoMails).1
      = [ProviderCall.add mailWithUid, ProviderCall.add mailWithoutUid,
         ProviderCall.setRevision 2] ∧
    mailWithoutUid.identifier ∉ [QUuid.toRfc4122 ⟨1⟩] := by
  decide

end Sink

namespace Sink

theorem QVariantHash.value_insert (h : QVariantHash) (key : QByteArray) (value : QVariant) :
    QVariantHash.value (QVariantHash.insert h key value) key = value := by
  unfold QVariantHash.value QVariantHash.insert
  simp [List.lookup]

theorem mem_replaySet_add (l : List (ApplicationDomainType × Operation))
    (value : ApplicationDomainType) :
    ProviderCall.add value ∈ replaySet l ↔ (value, Operation.Operation_Creation) ∈ l := by
  unfold replaySet
  rw [List.mem_map]
  constructor
  · rintro ⟨⟨v, op⟩, hmem, heq⟩
    cases op <;> simp at heq
    subst heq
    exact hmem
  · intro h
    exact ⟨_, h, rfl⟩

theorem mem_replaySet_modify (l : List (ApplicationDomainType × Operation))
    (value : ApplicationDomainType) :
    ProviderCall.modify value ∈ replaySet l ↔ (value, Operation.Operation_Modification) ∈ l := by
  unfold replaySet
  rw [List.mem_map]
  constructor
  · rintro ⟨⟨v, op⟩, hmem, heq⟩
    cases op <;> simp at heq
    subst heq
    exact hmem
  · intro h
    exact ⟨_, h, rfl⟩

end Sink

namespace Sink

/-! ## Scans of an empty store -/

theorem scanBody_empty {σ : Type} (d : NamedDatabase) (k : QByteArray)
    (h : σ → QByteArray → QByteArray → Bool × σ) (s0 : σ) (findSub skip : Bool)
    (hd : d.entries = []) :
    (scanBody d k h s0 findSub skip).numberOfRetrievedValues = 0 ∧
    (scanBody d k h s0 findSub skip).calls = [] ∧
    (scanBody d k h s0 findSub skip).rc =
      if k.isEmpty || d.allowDuplicates || findSub then
        (if k.isEmpty && (d.allowDuplicates || findSub) then MDB_BAD_VALSIZE else 0)
      else MDB_NOTFOUND := by
  obtain ⟨o, entries, dup, c⟩ := d
  simp only at hd
  subst hd
  cases k <;> cases dup <;> cases findSub <;>
    simp [scanBody, scanFirst, scanOp, scanExact, notFoundIsOk, mdb_cursor_get, positionAt,
      seek, MDB_NOTFOUND, MDB_BAD_VALSIZE]

/-- C16 (as amended): a scan of a database that is not open, with any key and any flags,
returns 0 and invokes no handler at all. A scan of an open database without entries
returns 0 and never invokes the result handler; it invokes no error handler when it walks
the cursor (an empty key on a database without duplicates and without substring search, or
a non-empty key with duplicates or with substring search), while the exact lookup of a
non-empty key (no duplicates, no substring search) delivers one NotFound error to the
explicit handler if given, else to the default one. -/
theorem NamedDatabase.scan_of_empty_store {σ : Type} (d : NamedDatabase) (k : QByteArray)
    (h : σ → QByteArray → QByteArray → Bool × σ) (s0 : σ)
    (hasErrorHandler findSubstringKeys skipInternalKeys : Bool)
    (hempty : d.isOpen = false ∨ (d.entries = [] ∧ d.cursorOpenRc = 0)) :
    (d.scan k h s0 hasErrorHandler findSubstringKeys skipInternalKeys).numberOfRetrievedValues
      = 0 ∧
    (d.scan k h s0 hasErrorHandler findSubstringKeys skipInternalKeys).calls = [] ∧
    (d.isOpen = false →
      (d.scan k h s0 hasErrorHandler findSubstringKeys skipInternalKeys).errors = []) ∧
    (k = [] → d.allowDuplicates = false → findSubstringKeys = false →
      (d.scan k h s0 hasErrorHandler findSubstringKeys skipInternalKeys).errors = []) ∧
    (k ≠ [] → d.allowDuplicates = true ∨ findSubstringKeys = true →
      (d.scan k h s0 hasErrorHandler findSubstringKeys skipInternalKeys).errors = []) ∧
    (d.isOpen = true → k ≠ [] → d.allowDuplicates = false → findSubstringKeys = false →
      (d.scan k h s0 hasErrorHandler findSubstringKeys skipInternalKeys).errors
        = [⟨hasErrorHandler, ErrorCodes.NotFound⟩]) := by
  by_cases ho : d.isOpen = true
  · rcases hempty with hc | ⟨hd, hc⟩
    · rw [ho] at hc
      exact absurd hc (by decide)
    · obtain ⟨hn, hcalls, hrc⟩ := scanBody_empty d k h s0 findSubstringKeys skipInternalKeys hd
      have hscan : d.scan k h s0 hasErrorHandler findSubstringKeys skipInternalKeys
          = ⟨(scanBody d k h s0 findSubstringKeys skipInternalKeys).numberOfRetrievedValues,
             (scanBody d k h s0 findSubstringKeys skipInternalKeys).state,
             (scanBody d k h s0 findSubstringKeys skipInternalKeys).calls,
             if (scanBody d k h s0 findSubstringKeys skipInternalKeys).rc ≠ 0
               then [⟨hasErrorHandler, getErrorCode
                 (scanBody d k h s0 findSubstringKeys skipInternalKeys).rc⟩] else []⟩ := by
        simp only [NamedDatabase.scan, ho, hc, Bool.not_true, Bool.false_eq_true, if_false,
          ne_eq, not_true_eq_false]
      rw [hscan]
      refine ⟨hn, hcalls, fun hf => absurd (ho.symm.trans hf) (by decide), ?_, ?_, ?_⟩
      · intro hk hdup hsub
        rw [hrc, hk, hdup, hsub]
        simp
      · intro hk hds
        have hk' : k.isEmpty = false := by
          cases k with
          | nil => exact absurd rfl hk
          | cons _ _ => rfl
        rw [hrc, hk']
        rcases hds with hds | hds <;> simp [hds]
      · intro _ hk hdup hsub
        have hk' : k.isEmpty = false := by
          cases k with
          | nil => exact absurd rfl hk
          | cons _ _ => rfl
        rw [hrc, hk', hdup, hsub]
        simp [MDB_NOTFOUND, getErrorCode]
  · have hf : d.isOpen = false := by simpa using ho
    have hscan : d.scan k h s0 hasErrorHandler findSubstringKeys skipInternalKeys
        = ⟨0, s0, [], []⟩ := by
      simp only [NamedDatabase.scan, hf, Bool.not_false, if_true]
    rw [hscan]
    exact ⟨rfl, rfl, fun _ => rfl, fun _ _ _ => rfl, fun _ _ => rfl,
      fun ht => absurd (hf.symm.trans ht) (by decide)⟩

theorem NamedDatabase.scan_of_empty_store_witness :
    ((⟨true, [], true, 0⟩ : NamedDatabase).scan [97] continueHandler () true false true).calls
        = [] ∧
    ((⟨true, [], true, 0⟩ : NamedDatabase).scan [97] continueHandler () true false true).errors
        = [] :=
  ⟨(NamedDatabase.scan_of_empty_store ⟨true, [], true, 0⟩ [97] continueHandler () true false
      true (Or.inr ⟨rfl, rfl⟩)).2.1,
   (NamedDatabase.scan_of_empty_store ⟨true, [], true, 0⟩ [97] continueHandler () true false
      true (Or.inr ⟨rfl, rfl⟩)).2.2.2.2.1 (by decide) (Or.inl rfl)⟩

/-- C16 (as stated) fails: on an open database without entries and without duplicates the
lookup of the key `a` invokes the default error handler with a NotFound error. -/
theorem NamedDatabase.scan_of_empty_store_reports_exact_miss :
    ((⟨true, [], false, 0⟩ : NamedDatabase).scan [97] continueHandler () false false
      true).errors = [⟨false, ErrorCodes.NotFound⟩] := by
  decide

end Sink

namespace Sink

/-! ## Transactions -/

/-- C18: on a store opened in `ReadOnly` mode, `createTransaction(ReadWrite)` returns an
invalid transaction and delivers exactly one error, to the explicit handler if given, else
to the default one; where the environment exists that error is the refusal of a read/write
transaction in read-only mode, and `createTransaction(ReadOnly)` returns a transaction
with its `d` set, valid exactly when `mdb_txn_begin` succeeds, without reporting that
error (and no error at all when `mdb_txn_begin` succeeds). -/
theorem DataStore.createTransaction_read_write_on_read_only_store (s : DataStore)
    (hasErrorHandler : Bool) (rc : Int) (hmode : s.d.mode = DataStore.AccessMode.ReadOnly) :
    (s.createTransaction .ReadWrite hasErrorHandler rc).1.operator_bool = false ∧
    (∃ e, (s.createTransaction .ReadWrite hasErrorHandler rc).2 = [e] ∧
      e.explicit = hasErrorHandler) ∧
    (s.d.env = true →
      (s.createTransaction .ReadWrite hasErrorHandler rc).2
        = [⟨hasErrorHandler, ErrorCodes.GenericError, .requestedReadWriteInReadOnlyMode⟩] ∧
      (s.createTransaction .ReadOnly hasErrorHandler rc).1.d ≠ none ∧
      (∀ e ∈ (s.createTransaction .ReadOnly hasErrorHandler rc).2,
        e.message ≠ .requestedReadWriteInReadOnlyMode) ∧
      ((s.createTransaction .ReadOnly hasErrorHandler rc).1.operator_bool = true ↔ rc = 0) ∧
      (rc = 0 → (s.createTransaction .ReadOnly hasErrorHandler rc).2 = [])) := by
  obtain ⟨⟨env, mode⟩⟩ := s
  simp only at hmode
  subst hmode
  cases env
  · simp [DataStore.createTransaction, DataStore.Transaction.operator_bool]
  · by_cases hrc : rc = 0
    · simp [DataStore.createTransaction, DataStore.Transaction.operator_bool,
        DataStore.Transaction.Private.startTransaction, hrc]
    · simp [DataStore.createTransaction, DataStore.Transaction.operator_bool,
        DataStore.Transaction.Private.startTransaction, hrc]

theorem DataStore.createTransaction_read_write_on_read_only_store_witness :
    (readOnlyStore.createTransaction .ReadWrite true 0).1.operator_bool = false ∧
    (readOnlyStore.createTransaction .ReadOnly true 0).1.operator_bool = true :=
  ⟨(DataStore.createTransaction_read_write_on_read_only_store readOnlyStore true 0 rfl).1,
   ((DataStore.createTransaction_read_write_on_read_only_store readOnlyStore true 0
      rfl).2.2 rfl).2.2.2.1.mpr rfl⟩

/-- C15 (as amended): when a valid transaction is destroyed it is committed if and only if
its `implicitCommit` flag is set and its `error` flag is not, and aborted otherwise (a
commit LMDB refuses is followed by an abort). Both flags are clear in a transaction
`createTransaction` returns; every `openDatabase` call on the valid transaction sets
`implicitCommit`, whether or not anything is written, and leaves `error` as it is. -/
theorem DataStore.Transaction.destructor_commits_iff_implicitCommit
    (p : DataStore.Transaction.Private) (rc : Int) (hvalid : p.transaction = true) :
    ((⟨some p⟩ : DataStore.Transaction).destructor rc).1 =
      (if p.implicitCommit = true ∧ p.error = false then
        (if rc = 0 then [MDB_call.mdb_txn_commit]
          else [MDB_call.mdb_txn_commit, MDB_call.mdb_txn_abort])
       else [MDB_call.mdb_txn_abort]) ∧
    (∀ (db : QByteArray) (hasErrorHandler allowDuplicates : Bool) (dbi : MDB_dbi)
        (skipInternalKeys : Bool),
      ∃ r, (⟨some p⟩ : DataStore.Transaction).openDatabase db hasErrorHandler allowDuplicates
          dbi skipInternalKeys = some r ∧
        r.transaction = ⟨some { p with implicitCommit := true }⟩) ∧
    (∀ (s : DataStore) (type : DataStore.AccessMode) (hasErrorHandler : Bool) (rc0 : Int)
        (q : DataStore.Transaction.Private),
      (s.createTransaction type hasErrorHandler rc0).1.d = some q →
        q.implicitCommit = false ∧ q.error = false) := by
  refine ⟨?_, ?_, ?_⟩
  · obtain ⟨t, r, i, e⟩ := p
    simp only at hvalid
    subst hvalid
    cases i <;> cases e <;> by_cases hrc : rc = 0 <;>
      simp [DataStore.Transaction.destructor, DataStore.Transaction.commit,
        DataStore.Transaction.abort, hrc]
  · intro db he dup dbi skip
    simp only [DataStore.Transaction.openDatabase, hvalid, Bool.not_true, Bool.false_eq_true,
      if_false]
    split
    · exact ⟨_, rfl, rfl⟩
    · split
      · exact ⟨_, rfl, rfl⟩
      · exact ⟨_, rfl, rfl⟩
  · intro s type he rc0 q hq
    obtain ⟨⟨env, mode⟩⟩ := s
    unfold DataStore.createTransaction at hq
    simp only [DataStore.Transaction.Private.startTransaction] at hq
    split at hq
    · exact absurd hq (by simp)
    · split at hq
      · exact absurd hq (by simp)
      · split at hq
        · simp only [Option.some.injEq] at hq
          subst hq
          exact ⟨rfl, rfl⟩
        · simp only [Option.some.injEq] at hq
          subst hq
          exact ⟨rfl, rfl⟩

theorem DataStore.Transaction.destructor_commits_iff_implicitCommit_witness :
    ((⟨some ⟨true, false, false, false⟩⟩ : DataStore.Transaction).destructor 0).1
      = [MDB_call.mdb_txn_abort] :=
  (DataStore.Transaction.destructor_commits_iff_implicitCommit ⟨true, false, false, false⟩ 0
    rfl).1

/-- C15 (as stated) fails: a read-only transaction in which the database `mail` was opened
and nothing was written is committed when it is destroyed. -/
theorem DataStore.Transaction.destructor_commits_without_a_write :
    ((sampleStore.createTransaction .ReadOnly false 0).1.openDatabase [109, 97, 105, 108]
        false false mailDbi true).map (fun r => (r.calls, r.transaction.destructor 0))
      = some ([], ([MDB_call.mdb_txn_commit], [])) := by
  decide

end Sink

namespace Sink

/-! ## The database-name marker -/

theorem internalDbNameKey_ne_nil : internalDbNameKey ≠ [] := by decide

/-- The exact-key scan `ensureCorrectDb` runs on a database without duplicates. -/
theorem scan_marker_cases {σ : Type} (entries : List Entry)
    (h : σ → QByteArray → QByteArray → Bool × σ) (s0 : σ) (hasErrorHandler skip : Bool) :
    (∃ e rest, (seek entries internalDbNameKey).2 = e :: rest ∧ e.1 = internalDbNameKey ∧
      (⟨true, entries, false, 0⟩ : NamedDatabase).scan internalDbNameKey h s0 hasErrorHandler
          false skip
        = ⟨1, (h s0 e.1 e.2).2, [((e.1, e.2), (h s0 e.1 e.2).1)], []⟩) ∨
    (((seek entries internalDbNameKey).2 = [] ∨
        ∃ e rest, (seek entries internalDbNameKey).2 = e :: rest ∧ e.1 ≠ internalDbNameKey) ∧
      (⟨true, entries, false, 0⟩ : NamedDatabase).scan internalDbNameKey h s0 hasErrorHandler
          false skip
        = ⟨0, s0, [], [⟨hasErrorHandler, ErrorCodes.NotFound⟩]⟩) := by
  have hk : internalDbNameKey.isEmpty = false := by decide
  rcases mdb_set_cases entries internalDbNameKey internalDbNameKey_ne_nil with
    ⟨e, rest, hs, he, hg⟩ | ⟨hs, hg⟩
  · left
    refine ⟨e, rest, hs, he, ?_⟩
    simp [NamedDatabase.scan, scanBody, scanExact, hk, hg]
  · right
    refine ⟨hs, ?_⟩
    simp [NamedDatabase.scan, scanBody, scanExact, hk, hg, MDB_NOTFOUND, getErrorCode]

theorem mem_of_seek_hit (entries : List Entry) (k : QByteArray) (e : Entry)
    (rest : List Entry) (hs : (seek entries k).2 = e :: rest) : e ∈ entries := by
  rw [(seek_spec entries k).1, hs]
  simp

/-- Without duplicates a key is stored once. -/
theorem NamedDatabase.Sorted.key_unique (d : NamedDatabase) (hd : d.Sorted)
    (hdup : d.allowDuplicates = false) (a b : Entry) (ha : a ∈ d.entries)
    (hb : b ∈ d.entries) (hab : a.1 = b.1) : a = b := by
  unfold NamedDatabase.Sorted at hd
  have hpw : d.entries.Pairwise (fun x y => QByteArray.lt x.1 y.1) := by
    refine hd.imp ?_
    intro x y hxy
    rcases hxy with hxy | ⟨hf, _⟩
    · exact hxy
    · rw [hdup] at hf
      exact absurd hf (by decide)
  generalize d.entries = l at ha hb hpw
  induction l with
  | nil => cases ha
  | cons x xs ih =>
    rw [List.pairwise_cons] at hpw
    rcases List.mem_cons.mp ha with ha | ha <;> rcases List.mem_cons.mp hb with hb | hb
    · rw [ha, hb]
    · have := hpw.1 b hb
      rw [← ha, hab] at this
      exact absurd this (QByteArray.lt_irrefl _)
    · have := hpw.1 a ha
      rw [← hb, ← hab] at this
      exact absurd this (QByteArray.lt_irrefl _)
    · exact ih ha hb hpw.2

theorem mem_mdb_put (entries : List Entry) (key data : QByteArray) :
    (key, data) ∈ mdb_put entries false key data := by
  unfold mdb_put
  simp only [Bool.false_eq_true, if_false]
  split
  · simp
  · split <;> simp

theorem DataStore.Transaction.openDatabase_marker_cases (p : DataStore.Transaction.Private)
    (name : QByteArray) (hasErrorHandler : Bool) (dbi : MDB_dbi) (skip : Bool)
    (hvalid : p.transaction = true) (hopen : dbi.openRc = 0) (hcursor : dbi.cursorOpenRc = 0) :
    (∃ e rest, (seek dbi.entries internalDbNameKey).2 = e :: rest ∧ e.1 = internalDbNameKey ∧
      (⟨some p⟩ : DataStore.Transaction).openDatabase name hasErrorHandler false dbi skip
        = some ⟨if e.2 = name then some ⟨true, dbi.entries, false, 0⟩ else none,
            ⟨some { p with implicitCommit := true }⟩, [], [],
            if e.2 = name then []
            else [.openedTheWrongDatabase e.2 name, .failedToOpenTheDatabase name]⟩) ∨
    (((seek dbi.entries internalDbNameKey).2 = [] ∨
        ∃ e rest, (seek dbi.entries internalDbNameKey).2 = e :: rest ∧
          e.1 ≠ internalDbNameKey) ∧
      (⟨some p⟩ : DataStore.Transaction).openDatabase name hasErrorHandler false dbi skip
        = some ⟨some (if p.requestedRead = true then ⟨true, dbi.entries, false, 0⟩
              else ((⟨true, dbi.entries, false, 0⟩ : NamedDatabase).write internalDbNameKey
                name false dbi.putRc).database),
            ⟨some { p with implicitCommit := true }⟩,
            if p.requestedRead = true then [] else [.mdb_put internalDbNameKey name],
            if p.requestedRead = true then []
            else ((⟨true, dbi.entries, false, 0⟩ : NamedDatabase).write internalDbNameKey
              name false dbi.putRc).errors, []⟩) := by
  have hk : internalDbNameKey.isEmpty = false := by decide
  rcases scan_marker_cases dbi.entries (ensureCorrectDbHandler name) (false, []) true skip with
    ⟨e, rest, hs, he, hscan⟩ | ⟨hs, hscan⟩
  · left
    refine ⟨e, rest, hs, he, ?_⟩
    by_cases hv : e.2 = name
    · simp [DataStore.Transaction.openDatabase, hvalid, NamedDatabase.Private.openDatabase,
        hopen, hcursor, ensureCorrectDb, hscan, ensureCorrectDbHandler, hv]
    · simp [DataStore.Transaction.openDatabase, hvalid, NamedDatabase.Private.openDatabase,
        hopen, hcursor, ensureCorrectDb, hscan, ensureCorrectDbHandler, hv]
  · right
    refine ⟨hs, ?_⟩
    by_cases hr : p.requestedRead = true
    · simp [DataStore.Transaction.openDatabase, hvalid, NamedDatabase.Private.openDatabase,
        hopen, hcursor, ensureCorrectDb, hscan, hr]
    · have hr' : p.requestedRead = false := by simpa using hr
      by_cases hput : dbi.putRc = 0
      · simp [DataStore.Transaction.openDatabase, hvalid, NamedDatabase.Private.openDatabase,
          hopen, hcursor, ensureCorrectDb, hscan, hr', NamedDatabase.write, hk, hput]
      · simp [DataStore.Transaction.openDatabase, hvalid, NamedDatabase.Private.openDatabase,
          hopen, hcursor, ensureCorrectDb, hscan, hr', NamedDatabase.write, hk, hput]

theorem no_marker_of_miss (entries : List Entry)
    (hsorted : (⟨true, entries, false, 0⟩ : NamedDatabase).Sorted)
    (hmiss : (seek entries internalDbNameKey).2 = [] ∨
      ∃ e rest, (seek entries internalDbNameKey).2 = e :: rest ∧ e.1 ≠ internalDbNameKey) :
    ∀ e ∈ entries, e.1 ≠ internalDbNameKey := by
  have hnil := filter_key_nil_of_miss ⟨true, entries, false, 0⟩ hsorted internalDbNameKey
    (fun e => decide (e.1 = internalDbNameKey)) (fun e he => by simpa using he) hmiss
  intro e he hkey
  have : e ∈ entries.filter (fun e => decide (e.1 = internalDbNameKey)) := by
    rw [List.mem_filter]
    exact ⟨he, by simpa using hkey⟩
  have hnil' : entries.filter (fun e => decide (e.1 = internalDbNameKey)) = [] := hnil
  rw [hnil'] at this
  cases this

/-- The marker check on a database without duplicates. -/
theorem DataStore.Transaction.openDatabase_marker_without_duplicates
    (p : DataStore.Transaction.Private)
    (name : QByteArray) (hasErrorHandler : Bool) (dbi : MDB_dbi) (skipInternalKeys : Bool)
    (hvalid : p.transaction = true) (hopen : dbi.openRc = 0) (hcursor : dbi.cursorOpenRc = 0)
    (hsorted : (⟨true, dbi.entries, false, 0⟩ : NamedDatabase).Sorted) :
    ∃ r, (⟨some p⟩ : DataStore.Transaction).openDatabase name hasErrorHandler false dbi
        skipInternalKeys = some r ∧
      (r.database.isSome = true ↔
        ∀ e ∈ dbi.entries, e.1 = internalDbNameKey → e.2 = name) ∧
      ((∀ e ∈ dbi.entries, e.1 ≠ internalDbNameKey) →
        r.calls = (if p.requestedRead = true then []
          else [MDB_call.mdb_put internalDbNameKey name]) ∧
        (p.requestedRead = false → dbi.putRc = 0 →
          ∃ d, r.database = some d ∧ (internalDbNameKey, name) ∈ d.entries)) ∧
      ((∃ e ∈ dbi.entries, e.1 = internalDbNameKey) → r.calls = []) := by
  rcases DataStore.Transaction.openDatabase_marker_cases p name hasErrorHandler dbi
      skipInternalKeys hvalid hopen hcursor with ⟨e, rest, hs, he, ho⟩ | ⟨hs, ho⟩
  · have hmem := mem_of_seek_hit dbi.entries internalDbNameKey e rest hs
    refine ⟨_, ho, ?_, ?_, fun _ => rfl⟩
    · by_cases hv : e.2 = name
      · simp only [hv, if_true, Option.isSome_some, true_iff]
        intro x hx hkey
        have hxe : x = e := NamedDatabase.Sorted.key_unique ⟨true, dbi.entries, false, 0⟩
          hsorted rfl x e hx hmem (hkey.trans he.symm)
        rw [hxe]
        exact hv
      · simp only [hv, if_false, Option.isSome_none, Bool.false_eq_true, false_iff]
        intro hall
        exact hv (hall e hmem he)
    · intro hnone
      exact absurd he (hnone e hmem)
  · have hnone := no_marker_of_miss dbi.entries hsorted hs
    refine ⟨_, ho, ?_, ?_, ?_⟩
    · simp only [Option.isSome_some, true_iff]
      intro x hx hkey
      exact absurd hkey (hnone x hx)
    · intro _
      refine ⟨rfl, ?_⟩
      intro hr hput
      have hk : internalDbNameKey.isEmpty = false := by decide
      refine ⟨_, rfl, ?_⟩
      simp only [hr, Bool.false_eq_true, if_false, NamedDatabase.write, Bool.not_true, hk, hput,
        ne_eq, not_true_eq_false]
      exact mem_mdb_put dbi.entries internalDbNameKey name
    · rintro ⟨x, hx, hkey⟩
      exact absurd hkey (hnone x hx)

/-- C20 (as amended): whenever `openDatabase(name)`, on a valid transaction and a database
without duplicates that LMDB opens, finds a stored `__internal_dbname` value different from
`name`, it returns the invalid `NamedDatabase`, writes nothing and logs two warnings; it
invokes neither the explicit error handler nor the default one. -/
theorem DataStore.Transaction.openDatabase_wrong_database_only_warns
    (p : DataStore.Transaction.Private) (name : QByteArray) (hasErrorHandler : Bool)
    (dbi : MDB_dbi) (skipInternalKeys : Bool) (e : Entry)
    (hvalid : p.transaction = true) (hopen : dbi.openRc = 0) (hcursor : dbi.cursorOpenRc = 0)
    (hsorted : (⟨true, dbi.entries, false, 0⟩ : NamedDatabase).Sorted)
    (hmem : e ∈ dbi.entries) (hkey : e.1 = internalDbNameKey) (hvalue : e.2 ≠ name) :
    (⟨some p⟩ : DataStore.Transaction).openDatabase name hasErrorHandler false dbi
        skipInternalKeys
      = some ⟨none, ⟨some { p with implicitCommit := true }⟩, [], [],
          [.openedTheWrongDatabase e.2 name, .failedToOpenTheDatabase name]⟩ := by
  rcases DataStore.Transaction.openDatabase_marker_cases p name hasErrorHandler dbi
      skipInternalKeys hvalid hopen hcursor with ⟨x, rest, hs, hx, ho⟩ | ⟨hs, _⟩
  · have hxmem := mem_of_seek_hit dbi.entries internalDbNameKey x rest hs
    have hxe : x = e := NamedDatabase.Sorted.key_unique ⟨true, dbi.entries, false, 0⟩
      hsorted rfl x e hxmem hmem (hx.trans hkey.symm)
    rw [hxe] at ho
    rw [ho]
    simp only [hvalue, if_false]
  · exact absurd hkey (no_marker_of_miss dbi.entries hsorted hs e hmem)

theorem DataStore.Transaction.openDatabase_wrong_database_only_warns_witness :
    (⟨some ⟨true, false, false, false⟩⟩ : DataStore.Transaction).openDatabase
        [109, 97, 105] true false mailDbi true
      = some ⟨none, ⟨some ⟨true, false, true, false⟩⟩, [], [],
          [.openedTheWrongDatabase [109, 97, 105, 108] [109, 97, 105],
           .failedToOpenTheDatabase [109, 97, 105]]⟩ :=
  DataStore.Transaction.openDatabase_wrong_database_only_warns ⟨true, false, false, false⟩
    [109, 97, 105] true mailDbi true (internalDbNameKey, [109, 97, 105, 108]) rfl rfl rfl
    (by unfold NamedDatabase.Sorted; decide) (by decide) rfl (by decide)

/-- C20 (as stated) fails: the database that records the name `mail` is opened as `mai`
with an explicit error handler; the open fails and no error handler is invoked. -/
theorem DataStore.Transaction.openDatabase_wrong_database_reports_no_error :
    ((sampleStore.createTransaction .ReadWrite true 0).1.openDatabase [109, 97, 105] true
        false mailDbi true).map (fun r => (r.database, r.errors)) = some (none, []) := by
  decide

end Sink

namespace Sink

/-! ## Finished transactions -/

/-- C30: after `commit()` (whether `mdb_txn_commit` succeeded or failed) and after `abort()`
a transaction is invalid; on an invalid transaction `commit()` returns false, makes no
LMDB call and reports no error, `abort()` does nothing, and the destructor neither
commits nor aborts. -/
theorem DataStore.Transaction.finished_stays_finished (t : DataStore.Transaction)
    (hasErrorHandler : Bool) (rc : Int) :
    (t.commit hasErrorHandler rc).transaction.operator_bool = false ∧
    t.abort.1.operator_bool = false ∧
    (t.operator_bool = false →
      t.commit hasErrorHandler rc = ⟨false, t, [], []⟩ ∧
      t.abort = (t, []) ∧
      t.destructor rc = ([], [])) := by
  obtain ⟨d⟩ := t
  cases d with
  | none =>
    simp [DataStore.Transaction.commit, DataStore.Transaction.abort,
      DataStore.Transaction.destructor, DataStore.Transaction.operator_bool]
  | some p =>
    obtain ⟨tr, r, i, e⟩ := p
    cases tr <;> by_cases hrc : rc = 0 <;>
      simp [DataStore.Transaction.commit, DataStore.Transaction.abort,
        DataStore.Transaction.destructor, DataStore.Transaction.operator_bool, hrc]

theorem DataStore.Transaction.finished_stays_finished_witness :
    ((⟨some ⟨true, false, true, false⟩⟩ : DataStore.Transaction).commit true 0).transaction.destructor
      0 = ([], []) :=
  ((DataStore.Transaction.finished_stays_finished
    ((⟨some ⟨true, false, true, false⟩⟩ : DataStore.Transaction).commit true 0).transaction
    true 0).2.2
    (DataStore.Transaction.finished_stays_finished ⟨some ⟨true, false, true, false⟩⟩ true
      0).1).2.2

/-! ## The base set of the initial query -/

/-- C27: `loadInitialResultSet` leaves as remaining filters exactly the keys of
`propertyFilter` that the index lookup did not report as applied, and its result set is
the full scan of `<type>.main` when the index lookup applied no filter and the result of
the index lookup otherwise. -/
theorem GenericFacade.loadInitialResultSet_residual_and_fallback (f : GenericFacade)
    (query : Query) (transaction : Transaction) :
    (∀ key, key ∈ (f.loadInitialResultSet query transaction).2 ↔
      key ∈ query.propertyFilter.keys ∧ key ∉ (f.queryIndexes query transaction).2) ∧
    ((f.queryIndexes query transaction).2 = [] →
      (f.loadInitialResultSet query transaction).1
        = fullScan transaction.main f.uidFromKey f.skipInternalKeys) ∧
    ((f.queryIndexes query transaction).2 ≠ [] →
      (f.loadInitialResultSet query transaction).1 = (f.queryIndexes query transaction).1) := by
  refine ⟨?_, ?_, ?_⟩
  · intro key
    by_cases h : (f.queryIndexes query transaction).2.isEmpty = true <;>
      simp [GenericFacade.loadInitialResultSet, h, List.mem_filter]
  · intro h
    simp [GenericFacade.loadInitialResultSet, h]
  · intro h
    have h' : (f.queryIndexes query transaction).2.isEmpty = false := by
      cases hq : (f.queryIndexes query transaction).2 with
      | nil => exact absurd hq h
      | cons _ _ => rfl
    simp [GenericFacade.loadInitialResultSet, h']

theorem GenericFacade.loadInitialResultSet_residual_and_fallback_witness :
    (storeFacade.loadInitialResultSet ⟨[], [(uidPropertyName, some test1)], false, []⟩ twoMails).1
      = fullScan twoMails.main storeFacade.uidFromKey storeFacade.skipInternalKeys :=
  (GenericFacade.loadInitialResultSet_residual_and_fallback storeFacade
    ⟨[], [(uidPropertyName, some test1)], false, []⟩ twoMails).2.1 rfl

end Sink

namespace Sink

/-! ## The incremental producer -/

/-- On the sample store, a provider at revision 2 gets the keys of the revisions 3 and 4
and then the end marker. -/
theorem GenericFacade.generatorYields_sample :
    sampleFacade.generatorYields sampleTransaction 4 3
      = [QUuid.toRfc4122 ⟨2⟩ ++ padNumber 3, QUuid.toRfc4122 ⟨2⟩ ++ padNumber 4, [], []] := by
  decide

end Sink

namespace Sink

/-! ## The state a scan leaves and the calls it made -/

/-- The state of the result handler after the given calls. -/
theorem scanLoop_state_calls {σ : Type} (entries : List Entry) (k : QByteArray)
    (h : σ → QByteArray → QByteArray → Bool × σ) (s0 : σ) (skip : Bool)
    (nextOp : MDB_cursor_op) :
    ∀ (fuel : Nat) (cursor : Option MDB_cursor) (key data : QByteArray) (st : ScanState σ),
      st.state = st.calls.foldl (fun s c => (h s c.1.1 c.1.2).2) s0 →
      (scanLoop entries k h skip nextOp fuel cursor key data st).state
        = (scanLoop entries k h skip nextOp fuel cursor key data st).calls.foldl
            (fun s c => (h s c.1.1 c.1.2).2) s0 := by
  intro fuel
  induction fuel with
  | zero => intro cursor key data st hst; exact hst
  | succ f ih =>
    intro cursor key data st hst
    simp only [scanLoop]
    split
    · split
      · split
        · split
          · simp only [List.foldl_append, List.foldl_cons, List.foldl_nil, ← hst]
          · exact ih _ _ _ _ (by
              simp only [List.foldl_append, List.foldl_cons, List.foldl_nil, ← hst])
        · exact ih _ _ _ _ hst
      · exact ih _ _ _ _ hst
    · exact hst

theorem scan_state_calls {σ : Type} (d : NamedDatabase) (k : QByteArray)
    (h : σ → QByteArray → QByteArray → Bool × σ) (s0 : σ) (he findSub skip : Bool) :
    (d.scan k h s0 he findSub skip).state
      = (d.scan k h s0 he findSub skip).calls.foldl (fun s c => (h s c.1.1 c.1.2).2) s0 := by
  have hfirst : ∀ g : CursorGet, (scanFirst d k h s0 findSub skip g).state
      = (scanFirst d k h s0 findSub skip g).calls.foldl (fun s c => (h s c.1.1 c.1.2).2) s0 := by
    intro g
    obtain ⟨rc, cursor, key, data⟩ := g
    unfold scanFirst
    by_cases hrc : rc = 0
    · by_cases hs : key.startsWith k = true
      · by_cases hcall : (skip && isInternalKey key) = true
        · simp only [hrc, hs, hcall, if_true, Bool.not_true, Bool.false_eq_true, if_false,
            Bool.not_false, Bool.true_or]
          exact scanLoop_state_calls _ _ _ _ _ _ _ _ _ _ _ rfl
        · have hcall' : (skip && isInternalKey key) = false := by simpa using hcall
          by_cases hr : (h s0 key data).1 = true
          · simp only [hrc, hs, hcall', if_true, Bool.not_false, Bool.not_true, Bool.false_or, hr]
            exact scanLoop_state_calls _ _ _ _ _ _ _ _ _ _ _ rfl
          · simp [hrc, hs, hcall', hr]
      · simp [hrc, hs]
    · simp [hrc]
  have hbody : (scanBody d k h s0 findSub skip).state
      = (scanBody d k h s0 findSub skip).calls.foldl (fun s c => (h s c.1.1 c.1.2).2) s0 := by
    unfold scanBody
    split
    · unfold notFoundIsOk
      split
      · exact hfirst _
      · exact hfirst _
    · unfold scanExact
      simp only
      split
      · rfl
      · rfl
  unfold NamedDatabase.scan
  split
  · rfl
  · split
    · rfl
    · exact hbody

theorem foldl_collect_uids (uidFromKey : QByteArray → QByteArray) :
    ∀ (calls : List (Entry × Bool)) (keys : List QByteArray),
      calls.foldl (fun (s : List QByteArray) c =>
          (if isInternalKey c.1.1 then (true, s) else (true, s ++ [uidFromKey c.1.1])).2) keys
        = keys ++ ((calls.map (fun c => c.1)).filter (fun e => !isInternalKey e.1)).map
            (fun e => uidFromKey e.1) := by
  intro calls
  induction calls with
  | nil => intro keys; simp
  | cons c cs ih =>
    intro keys
    by_cases hi : isInternalKey c.1.1 = true
    · simp [List.foldl_cons, hi, ih]
    · simp [List.foldl_cons, hi, ih]

/-- C25 (code): `fullScan` never removes a repeated identifier. On an open database without
duplicates its base set holds `uidFromKey(key)` once for every stored key that is not
internal, in key order, so an identifier stored under several revisions is listed once
per stored revision and not once. -/
theorem fullScan_lists_every_stored_key (main : NamedDatabase) (hok : main.Ok)
    (hdup : main.allowDuplicates = false) (uidFromKey : QByteArray → QByteArray)
    (skipInternalKeys : Bool) :
    (fullScan main uidFromKey skipInternalKeys).keys
      = (main.entries.filter (fun e => !isInternalKey e.1)).map (fun e => uidFromKey e.1) := by
  unfold fullScan
  simp only
  rw [scan_state_calls, foldl_collect_uids, scan_calls_eq_body main hok,
    scanBody_all main hdup _ (by intro s a b; split <;> rfl), List.filter_filter]
  simp only [List.nil_append]
  congr 1
  apply List.filter_congr
  intro e _
  cases isInternalKey e.1 <;> simp

theorem fullScan_lists_every_stored_key_witness :
    (fullScan sampleTransaction.main sampleFacade.uidFromKey true).keys
      = (sampleTransaction.main.entries.filter (fun e => !isInternalKey e.1)).map
          (fun e => sampleFacade.uidFromKey e.1) :=
  fullScan_lists_every_stored_key sampleTransaction.main
    (by unfold NamedDatabase.Ok NamedDatabase.Sorted; decide) rfl sampleFacade.uidFromKey true

/-- The full scan of the sample store, which holds two revisions of each of two entities:
the base set holds each identifier twice and the unfiltered initial query makes two calls
for each entity (and `setRevision`), where `readEntity` resolves either identifier to
its one latest version. -/
theorem fullScan_lists_identifier_twice :
    (fullScan sampleTransaction.main sampleFacade.uidFromKey true).keys
      = [QUuid.toRfc4122 ⟨1⟩, QUuid.toRfc4122 ⟨1⟩, QUuid.toRfc4122 ⟨2⟩, QUuid.toRfc4122 ⟨2⟩] ∧
    (sampleFacade.executeInitialQuery ⟨[], [], false, []⟩ [] sampleTransaction).1.length = 5 := by
  decide

end Sink

namespace Sink

/-! ## Explicit and default error handlers -/

theorem NamedDatabase.scan_errors_cases {σ : Type} (d : NamedDatabase) (k : QByteArray)
    (h : σ → QByteArray → QByteArray → Bool × σ) (s0 : σ) (he findSub skip : Bool) :
    (d.scan k h s0 he findSub skip).errors = [] ∨
    ∃ code, (d.scan k h s0 he findSub skip).errors = [⟨he, code⟩] := by
  unfold NamedDatabase.scan
  split
  · exact Or.inl rfl
  · split
    · exact Or.inr ⟨_, rfl⟩
    · simp only
      split
      · exact Or.inr ⟨_, rfl⟩
      · exact Or.inl rfl

theorem findLatest_errors_shape (he : Bool) (rc : Int) (found : Bool) :
    (if rc ≠ 0 then [(⟨he, getErrorCode rc⟩ : ErrorCall)]
      else if (!found) = true then [⟨he, 1⟩] else []) = [] ∨
    ∃ code, (if rc ≠ 0 then [(⟨he, getErrorCode rc⟩ : ErrorCall)]
      else if (!found) = true then [⟨he, 1⟩] else []) = [⟨he, code⟩] := by
  by_cases hrc : rc ≠ 0
  · exact Or.inr ⟨_, by rw [if_pos hrc]⟩
  · cases found
    · exact Or.inr ⟨1, by rw [if_neg hrc]; rfl⟩
    · exact Or.inl (by rw [if_neg hrc]; rfl)

theorem NamedDatabase.findLatest_errors_cases (d : NamedDatabase) (k : QByteArray)
    (he : Bool) :
    (d.findLatest k he).errors = [] ∨ ∃ code, (d.findLatest k he).errors = [⟨he, code⟩] := by
  unfold NamedDatabase.findLatest
  split
  · exact Or.inl rfl
  · split
    · exact Or.inr ⟨_, rfl⟩
    · exact findLatest_errors_shape he _ _

theorem NamedDatabase.write_errors_cases (d : NamedDatabase) (k v : QByteArray) (he : Bool)
    (rc : Int) :
    ((d.write k v he rc).errors = [] ∧ (d.write k v he rc).result = true) ∨
    ∃ code message, (d.write k v he rc).errors = [⟨he, code, message⟩] ∧
      (d.write k v he rc).result = false := by
  unfold NamedDatabase.write
  split
  · exact Or.inr ⟨_, _, rfl, rfl⟩
  · split
    · exact Or.inr ⟨_, _, rfl, rfl⟩
    · split
      · exact Or.inr ⟨_, _, rfl, rfl⟩
      · exact Or.inl ⟨rfl, rfl⟩

theorem NamedDatabase.remove_errors_cases (d : NamedDatabase) (k v : QByteArray) (he : Bool)
    (rc : Int) :
    (d.remove k v he rc).errors = [] ∨
    ∃ code message, (d.remove k v he rc).errors = [⟨he, code, message⟩] := by
  unfold NamedDatabase.remove
  split
  · exact Or.inr ⟨_, _, rfl⟩
  · simp only
    split
    · exact Or.inr ⟨_, _, rfl⟩
    · exact Or.inl rfl

/-- C21: on an open database each of `write`, `remove`, `scan` and `findLatest` reports at
most one error per call, and every error it reports goes to the explicit handler when
one was passed and to the default handler otherwise, never to both; `write` returns
false exactly when it reported an error. -/
theorem NamedDatabase.explicit_handler_shadows_default (d : NamedDatabase)
    (hopen : d.isOpen = true) (hasErrorHandler : Bool) :
    (∀ (k v : QByteArray) (rc : Int),
      (d.write k v hasErrorHandler rc).errors.length ≤ 1 ∧
      (∀ e ∈ (d.write k v hasErrorHandler rc).errors, e.explicit = hasErrorHandler) ∧
      ((d.write k v hasErrorHandler rc).result = false ↔
        (d.write k v hasErrorHandler rc).errors ≠ [])) ∧
    (∀ (k v : QByteArray) (rc : Int),
      (d.remove k v hasErrorHandler rc).errors.length ≤ 1 ∧
      (∀ e ∈ (d.remove k v hasErrorHandler rc).errors, e.explicit = hasErrorHandler) ∧
      ((d.remove k v hasErrorHandler rc).errors ≠ [] ↔ rc ≠ 0)) ∧
    (∀ (σ : Type) (k : QByteArray) (h : σ → QByteArray → QByteArray → Bool × σ) (s0 : σ)
        (findSubstringKeys skipInternalKeys : Bool),
      (d.scan k h s0 hasErrorHandler findSubstringKeys skipInternalKeys).errors.length ≤ 1 ∧
      ∀ e ∈ (d.scan k h s0 hasErrorHandler findSubstringKeys skipInternalKeys).errors,
        e.explicit = hasErrorHandler) ∧
    (∀ k : QByteArray,
      (d.findLatest k hasErrorHandler).errors.length ≤ 1 ∧
      ∀ e ∈ (d.findLatest k hasErrorHandler).errors, e.explicit = hasErrorHandler) := by
  refine ⟨?_, ?_, ?_, ?_⟩
  · intro k v rc
    rcases d.write_errors_cases k v hasErrorHandler rc with ⟨h1, h2⟩ | ⟨c, m, h1, h2⟩
    · simp [h1, h2]
    · simp [h1, h2]
  · intro k v rc
    have hrc : (d.remove k v hasErrorHandler rc).errors ≠ [] ↔ rc ≠ 0 := by
      by_cases h0 : rc = 0 <;> simp [NamedDatabase.remove, hopen, h0]
    rcases d.remove_errors_cases k v hasErrorHandler rc with h1 | ⟨c, m, h1⟩
    · refine ⟨?_, ?_, hrc⟩ <;> simp [h1]
    · refine ⟨?_, ?_, hrc⟩ <;> simp [h1]
  · intro σ k h s0 findSub skip
    rcases d.scan_errors_cases k h s0 hasErrorHandler findSub skip with h1 | ⟨c, h1⟩
    · simp [h1]
    · simp [h1]
  · intro k
    rcases d.findLatest_errors_cases k hasErrorHandler with h1 | ⟨c, h1⟩
    · simp [h1]
    · simp [h1]

theorem NamedDatabase.explicit_handler_shadows_default_witness :
    (sampleDb.write [] [49] true 0).errors
        = [⟨true, ErrorCodes.GenericError, .triedToWriteEmptyKey⟩] ∧
    ∀ e ∈ (sampleDb.write [] [49] true 0).errors, e.explicit = true :=
  ⟨by decide,
   ((NamedDatabase.explicit_handler_shadows_default sampleDb rfl true).1 [] [49] 0).2.1⟩

/-! ## Removing a store from disk -/

/-- C24 (code): `removeFromDisk` takes the entry of the store's path out of the registry,
leaving the entries of all other paths unchanged, but the environment registered for
the path is never closed: the handle comes from a second `take` of the same path, so
`mdb_env_close` is called once, with the null pointer. -/
theorem DataStore.removeFromDisk_closes_null (sEnvironments : Environments)
    (storageRoot name : QString) (removeRecursively : Bool) :
    (DataStore.removeFromDisk sEnvironments storageRoot name removeRecursively).mdb_env_close
      = [none] ∧
    (DataStore.removeFromDisk sEnvironments storageRoot name removeRecursively).sEnvironments
      (storageRoot ++ [47] ++ name) = none ∧
    (∀ path, path ≠ storageRoot ++ [47] ++ name →
      (DataStore.removeFromDisk sEnvironments storageRoot name removeRecursively).sEnvironments
        path = sEnvironments path) ∧
    (DataStore.removeFromDisk sampleEnvironments dataRoot [109, 97, 105, 108]
      true).mdb_env_close = [none] ∧
    sampleEnvironments (dataRoot ++ [47] ++ [109, 97, 105, 108]) = some 1 := by
  refine ⟨?_, ?_, ?_, by decide, by decide⟩
  · simp [DataStore.removeFromDisk, Environments.take]
  · simp [DataStore.removeFromDisk, Environments.take]
  · intro path hpath
    simp only [DataStore.removeFromDisk, Environments.take, if_neg hpath]

theorem DataStore.removeFromDisk_closes_null_witness :
    (DataStore.removeFromDisk sampleEnvironments dataRoot [109, 97, 105, 108] true).sEnvironments
        (dataRoot ++ [47, 99, 97, 108, 101, 110, 100, 97, 114])
      = sampleEnvironments (dataRoot ++ [47, 99, 97, 108, 101, 110, 100, 97, 114]) :=
  (DataStore.removeFromDisk_closes_null sampleEnvironments dataRoot [109, 97, 105, 108]
    true).2.2.1 _ (by decide)

end Sink

namespace Sink

/-! ## The command line matcher and the tokenizer -/

/-- The inner loop of `match` always leaves the iterator exhausted. -/
theorem Module.matchWord_exhausts (word : QString) :
    ∀ (syntaxIt : Module.SyntaxList) (lastFullSyntax : Option Module.Syntax),
      (Module.matchWord word syntaxIt lastFullSyntax).1 = Module.SyntaxList.nil := by
  intro syntaxIt
  refine @Module.SyntaxList.rec
    (fun s => ∀ last, (Module.matchWord word s.children last).1 = Module.SyntaxList.nil)
    (fun l => ∀ last, (Module.matchWord word l last).1 = Module.SyntaxList.nil)
    ?_ ?_ ?_ syntaxIt
  · intro keyword help interactivity lambda children ih last
    exact ih last
  · intro last
    rfl
  · intro head tail ihhead ihtail last
    obtain ⟨keyword, help, interactivity, lambda, children⟩ := head
    unfold Module.matchWord
    split
    · exact ihhead _
    · exact ihtail _

/-- C28 (code): `match` consumes one word only. For a command line `word :: rest` it returns
the node the inner loop ends on for `word` (if that node has a handler) with all of
`rest` as arguments, whatever `rest` names in the tree. In the sample tree `list` has
the child `resources`, both with handlers: the command line `list resources x` gives
the node `list` with the arguments `resources x`, not the node `resources` with the
argument `x`. -/
theorem Module.match_consumes_one_word (m : Module) (word : QString) (rest : List QString) :
    m.match_ (word :: rest) =
      (match (Module.matchWord word m.m_syntax none).2 with
       | some lastFullSyntax =>
         if lastFullSyntax.lambda.isSome then (some lastFullSyntax, rest) else (none, [])
       | none => (none, [])) ∧
    m.match_ [] = (none, []) ∧
    (sampleSyntax.match_ [[108, 105, 115, 116], [114, 101, 115, 111, 117, 114, 99, 101, 115],
        [120]]).1.map Module.Syntax.keyword = some [108, 105, 115, 116] ∧
    (sampleSyntax.match_ [[108, 105, 115, 116], [114, 101, 115, 111, 117, 114, 99, 101, 115],
        [120]]).2 = [[114, 101, 115, 111, 117, 114, 99, 101, 115], [120]] := by
  refine ⟨?_, rfl, by decide, by decide⟩
  have hex := Module.matchWord_exhausts word m.m_syntax none
  cases hs : m.m_syntax with
  | nil =>
    simp [Module.match_, Module.matchWords, hs, Module.SyntaxList.hasNext, Module.matchWord]
  | cons head tail =>
    rw [hs] at hex
    simp only [Module.match_, Module.matchWords, hs, Module.SyntaxList.hasNext, hex,
      List.isEmpty_cons, Bool.false_eq_true, if_false, if_true, Bool.not_false]

theorem QString.split_ne_nil : ∀ (text : QString) (sep : Nat), text.split sep ≠ [] := by
  intro text
  induction text with
  | nil => intro sep; simp [QString.split]
  | cons c cs ih =>
    intro sep
    unfold QString.split
    split
    · simp
    · split <;> simp

theorem QStringList.join_cons_head (c : Nat) (piece : QString) (pieces : List QString)
    (sep : Nat) :
    QStringList.join ((c :: piece) :: pieces) sep = c :: QStringList.join (piece :: pieces) sep := by
  cases pieces with
  | nil => rfl
  | cons next rest => rfl

theorem QStringList.join_split : ∀ (text : QString) (sep : Nat),
    QStringList.join (text.split sep) sep = text := by
  intro text
  induction text with
  | nil => intro sep; rfl
  | cons c cs ih =>
    intro sep
    have hih := ih sep
    unfold QString.split
    cases hsp : QString.split cs sep with
    | nil => exact absurd hsp (QString.split_ne_nil cs sep)
    | cons piece pieces =>
      rw [hsp] at hih
      by_cases hc : c = sep
      · simp only [hc, if_true, QStringList.join, List.nil_append, hih]
      · simp only [hc, if_false, QStringList.join_cons_head, hih]

theorem QString.not_mem_split : ∀ (text : QString) (sep : Nat),
    ∀ piece ∈ text.split sep, sep ∉ piece := by
  intro text
  induction text with
  | nil =>
    intro sep piece hp
    simp only [QString.split, List.mem_singleton] at hp
    rw [hp]
    simp
  | cons c cs ih =>
    intro sep piece hp
    have hih := ih sep
    unfold QString.split at hp
    cases hsp : QString.split cs sep with
    | nil => exact absurd hsp (QString.split_ne_nil cs sep)
    | cons p ps =>
      rw [hsp] at hih hp
      by_cases hc : c = sep
      · simp only [hc, if_true, List.mem_cons] at hp
        rcases hp with hp | hp
        · rw [hp]; simp
        · exact hih piece (List.mem_cons.2 hp)
      · simp only [hc, if_false, List.mem_cons] at hp
        rcases hp with hp | hp
        · rw [hp]
          intro hmem
          rcases List.mem_cons.1 hmem with h | h
          · exact hc h.symm
          · exact hih p (List.mem_cons_self _ _) h
        · exact hih piece (List.mem_cons_of_mem _ hp)

theorem QString.length_split : ∀ (text : QString) (sep : Nat),
    (text.split sep).length = text.count sep + 1 := by
  intro text
  induction text with
  | nil => intro sep; rfl
  | cons c cs ih =>
    intro sep
    have hih := ih sep
    unfold QString.split
    cases hsp : QString.split cs sep with
    | nil => exact absurd hsp (QString.split_ne_nil cs sep)
    | cons p ps =>
      rw [hsp] at hih
      by_cases hc : c = sep
      · simp only [hc, if_true, List.length_cons, List.count_cons_self]
        simp only [List.length_cons] at hih
        omega
      · simp only [hc, if_false, List.length_cons]
        simp only [List.length_cons] at hih
        rw [List.count_cons_of_ne (Ne.symm hc)]
        omega

/-- C29: `tokenize` returns the pieces between consecutive spaces: there is one token more
than the text has spaces, no token contains a space, and joining the tokens with single
spaces gives back the text; quotes are ordinary characters, so the text `"foo bar"`
yields the two tokens `"foo` and `bar"`. -/
theorem Module.tokenize_splits_on_every_space (text : QString) :
    (Module.tokenize text).length = text.count 32 + 1 ∧
    (∀ token ∈ Module.tokenize text, 32 ∉ token) ∧
    QStringList.join (Module.tokenize text) 32 = text ∧
    Module.tokenize [34, 102, 111, 111, 32, 98, 97, 114, 34]
      = [[34, 102, 111, 111], [98, 97, 114, 34]] :=
  ⟨QString.length_split text 32, QString.not_mem_split text 32, QStringList.join_split text 32,
    by decide⟩

end Sink

namespace Sink

/-! ## Display forms -/

theorem QUuid.fixedHex_length (w n : Nat) : (QUuid.fixedHex w n).length = w := by
  induction w with
  | zero => rfl
  | succ w ih => simp [QUuid.fixedHex, ih]

theorem QUuid.fromHexDigit_toHexDigit (x : Nat) (h : x < 16) :
    QUuid.fromHexDigit (QUuid.toHexDigit x) = some x := by
  unfold QUuid.toHexDigit QUuid.fromHexDigit
  by_cases hx : x < 10
  · have h1 : 48 ≤ 48 + x ∧ 48 + x ≤ 57 := by omega
    simp only [hx, if_true, h1, and_self, Nat.add_sub_cancel_left]
  · have h1 : ¬ (48 ≤ 87 + x ∧ 87 + x ≤ 57) := by omega
    have h2 : 97 ≤ 87 + x ∧ 87 + x ≤ 102 := by omega
    simp only [hx, if_false, h1, h2, and_self, if_true, Nat.add_sub_cancel_left]

theorem QUuid.readHex_fixedHex : ∀ (w acc n : Nat) (rest : QByteArray),
    QUuid.readHex w acc (QUuid.fixedHex w n ++ rest) = some (acc * 16 ^ w + n % 16 ^ w, rest) := by
  intro w
  induction w with
  | zero =>
    intro acc n rest
    simp [QUuid.readHex, QUuid.fixedHex, Nat.mod_one]
  | succ w ih =>
    intro acc n rest
    have hx : n / 16 ^ w % 16 < 16 := Nat.mod_lt _ (by decide)
    have hcons : QUuid.fixedHex (w + 1) n ++ rest
        = QUuid.toHexDigit (n / 16 ^ w % 16) :: (QUuid.fixedHex w n ++ rest) := rfl
    have hread : ∀ s, QUuid.readHex (w + 1) acc (QUuid.toHexDigit (n / 16 ^ w % 16) :: s)
        = QUuid.readHex w (acc * 16 + n / 16 ^ w % 16) s := by
      intro s
      simp only [QUuid.readHex, QUuid.fromHexDigit_toHexDigit _ hx]
    have hmod : n % 16 ^ (w + 1) = n % 16 ^ w + 16 ^ w * (n / 16 ^ w % 16) :=
      Nat.mod_pow_succ
    have harith : (acc * 16 + n / 16 ^ w % 16) * 16 ^ w + n % 16 ^ w
        = acc * 16 ^ (w + 1) + (n % 16 ^ w + 16 ^ w * (n / 16 ^ w % 16)) := by
      ring
    rw [hcons, hread, ih, hmod, harith]

theorem QUuid.toByteArray_length (u : QUuid) : u.toByteArray.length = 38 := by
  simp [QUuid.toByteArray, QUuid.fixedHex_length]

theorem QUuid.fromByteArray_toByteArray (u : QUuid) (h : u.value < 2 ^ 128) :
    QUuid.fromByteArray u.toByteArray = u := by
  have hlen := QUuid.toByteArray_length u
  have h36 : ¬ u.toByteArray.length < 36 := by omega
  have h37 : ¬ u.toByteArray.length < 37 := by omega
  have hhead : u.toByteArray.head? = some 123 := rfl
  have hdrop : u.toByteArray.drop 1
      = QUuid.fixedHex 8 (u.value / 2 ^ 96) ++ 45 :: (QUuid.fixedHex 4 (u.value / 2 ^ 80) ++
        45 :: (QUuid.fixedHex 4 (u.value / 2 ^ 64) ++ 45 :: (QUuid.fixedHex 4 (u.value / 2 ^ 48) ++
        45 :: (QUuid.fixedHex 12 u.value ++ [125])))) := rfl
  have hvalue : (u.value / 2 ^ 96 % 16 ^ 8) * 2 ^ 96 + (u.value / 2 ^ 80 % 16 ^ 4) * 2 ^ 80
      + (u.value / 2 ^ 64 % 16 ^ 4) * 2 ^ 64 + (u.value / 2 ^ 48 % 16 ^ 4) * 2 ^ 48
      + u.value % 16 ^ 12 = u.value := by
    norm_num at h ⊢
    omega
  unfold QUuid.fromByteArray
  simp only [h36, if_false, hhead, h37, and_false, if_true, hdrop, QUuid.readHex_fixedHex,
    Option.bind_some, Option.some_bind, QUuid.readDash, Nat.zero_mul, Nat.zero_add, hvalue]

end Sink

namespace Sink

theorem QUuid.fixedHex_succ_snoc : ∀ (w n : Nat),
    QUuid.fixedHex (w + 1) n = QUuid.fixedHex w (n / 16) ++ [QUuid.toHexDigit (n % 16)] := by
  intro w
  induction w with
  | zero =>
    intro n
    simp [QUuid.fixedHex]
  | succ w ih =>
    intro n
    have hdiv : n / 16 ^ (w + 1) = n / 16 / 16 ^ w := by
      rw [Nat.div_div_eq_div_mul, pow_succ, Nat.mul_comm]
    have hunfold : QUuid.fixedHex (w + 1 + 1) n
        = QUuid.toHexDigit (n / 16 ^ (w + 1) % 16) :: QUuid.fixedHex (w + 1) n := rfl
    have hunfold2 : QUuid.fixedHex (w + 1) (n / 16)
        = QUuid.toHexDigit (n / 16 / 16 ^ w % 16) :: QUuid.fixedHex w (n / 16) := rfl
    rw [hunfold, ih n, hunfold2, hdiv, List.cons_append]

theorem QByteArray.toHex_beBytes : ∀ (w n : Nat),
    QByteArray.toHex (QUuid.beBytes w n) = QUuid.fixedHex (2 * w) n := by
  intro w
  induction w with
  | zero => intro n; rfl
  | succ w ih =>
    intro n
    have h2 : 2 * (w + 1) = 2 * w + 1 + 1 := by omega
    have ha : n % 256 / 16 = n / 16 % 16 := by omega
    have hb : n % 256 % 16 = n % 16 := by omega
    have hc : n / 16 / 16 = n / 256 := by omega
    rw [h2, QUuid.fixedHex_succ_snoc, QUuid.fixedHex_succ_snoc, hc, ← ih (n / 256)]
    simp only [QUuid.beBytes, QByteArray.toHex, List.flatMap_append, List.flatMap_cons,
      List.flatMap_nil, List.append_nil, ha, hb, List.append_assoc, List.cons_append,
      List.nil_append]

theorem QUuid.beBytes_add (a : Nat) : ∀ (b v : Nat),
    QUuid.beBytes (a + b) v = QUuid.beBytes a (v / 256 ^ b) ++ QUuid.beBytes b v := by
  intro b
  induction b with
  | zero => intro v; simp [QUuid.beBytes]
  | succ b ih =>
    intro v
    have hdiv : v / 256 / 256 ^ b = v / 256 ^ (b + 1) := by
      rw [Nat.div_div_eq_div_mul, pow_succ, Nat.mul_comm]
    have hunfold : QUuid.beBytes (a + (b + 1)) v
        = QUuid.beBytes (a + b) (v / 256) ++ [v % 256] := rfl
    have hunfold2 : QUuid.beBytes (b + 1) v = QUuid.beBytes b (v / 256) ++ [v % 256] := rfl
    rw [hunfold, ih, hunfold2, hdiv, List.append_assoc]

theorem QByteArray.midLen_append_left (a b : QByteArray) (n : Nat) (h : a.length = n) :
    (a ++ b).midLen 0 n = a := by
  unfold QByteArray.midLen
  rw [List.drop_zero, List.take_append_of_le_length (by omega), List.take_of_length_le (by omega)]

theorem QByteArray.midLen_append_right (a b : QByteArray) (n pos len : Nat)
    (h : a.length = n) :
    (a ++ b).midLen (n + pos) len = b.midLen pos len := by
  unfold QByteArray.midLen
  rw [← h, List.drop_append]

/-- The text `toByteArray` puts between the braces is the canonical text of the 16 bytes. -/
theorem QUuid.toByteArray_eq_canonical (u : QUuid) :
    u.toByteArray = 123 :: (canonicalUuidText u.toRfc4122 ++ [125]) := by
  have hsplit : QUuid.beBytes 16 u.value
      = QUuid.beBytes 4 (u.value / 2 ^ 96) ++ (QUuid.beBytes 2 (u.value / 2 ^ 80) ++
        (QUuid.beBytes 2 (u.value / 2 ^ 64) ++ (QUuid.beBytes 2 (u.value / 2 ^ 48) ++
        QUuid.beBytes 6 u.value))) := by
    have h1 := QUuid.beBytes_add 4 12 u.value
    have h2 := QUuid.beBytes_add 2 10 u.value
    have h3 := QUuid.beBytes_add 2 8 u.value
    have h4 := QUuid.beBytes_add 2 6 u.value
    norm_num at h1 h2 h3 h4 ⊢
    rw [h1, h2, h3, h4]
  have l4 := QUuid.beBytes_length 4 (u.value / 2 ^ 96)
  have l2a := QUuid.beBytes_length 2 (u.value / 2 ^ 80)
  have l2b := QUuid.beBytes_length 2 (u.value / 2 ^ 64)
  have l2c := QUuid.beBytes_length 2 (u.value / 2 ^ 48)
  have l6 := QUuid.beBytes_length 6 u.value
  have m1 := QByteArray.midLen_append_left _ (QUuid.beBytes 2 (u.value / 2 ^ 80) ++
        (QUuid.beBytes 2 (u.value / 2 ^ 64) ++ (QUuid.beBytes 2 (u.value / 2 ^ 48) ++
        QUuid.beBytes 6 u.value))) 4 l4
  have r1 := fun pos len => QByteArray.midLen_append_right _
    (QUuid.beBytes 2 (u.value / 2 ^ 80) ++
        (QUuid.beBytes 2 (u.value / 2 ^ 64) ++ (QUuid.beBytes 2 (u.value / 2 ^ 48) ++
        QUuid.beBytes 6 u.value))) 4 pos len l4
  have m2 := QByteArray.midLen_append_left _ (QUuid.beBytes 2 (u.value / 2 ^ 64) ++
    (QUuid.beBytes 2 (u.value / 2 ^ 48) ++ QUuid.beBytes 6 u.value)) 2 l2a
  have r2 := fun pos len => QByteArray.midLen_append_right _
    (QUuid.beBytes 2 (u.value / 2 ^ 64) ++
      (QUuid.beBytes 2 (u.value / 2 ^ 48) ++ QUuid.beBytes 6 u.value)) 2 pos len l2a
  have m3 := QByteArray.midLen_append_left _
    (QUuid.beBytes 2 (u.value / 2 ^ 48) ++ QUuid.beBytes 6 u.value) 2 l2b
  have r3 := fun pos len => QByteArray.midLen_append_right _
    (QUuid.beBytes 2 (u.value / 2 ^ 48) ++ QUuid.beBytes 6 u.value) 2 pos len l2b
  have m4 := QByteArray.midLen_append_left _ (QUuid.beBytes 6 u.value) 2 l2c
  have r4 := fun pos len => QByteArray.midLen_append_right _ (QUuid.beBytes 6 u.value) 2 pos len
    l2c
  have m5 : (QUuid.beBytes 6 u.value).midLen 0 6 = QUuid.beBytes 6 u.value := by
    unfold QByteArray.midLen
    rw [List.drop_zero, List.take_of_length_le (by omega)]
  have q2 : (QUuid.beBytes 4 (u.value / 2 ^ 96) ++ (QUuid.beBytes 2 (u.value / 2 ^ 80) ++
        (QUuid.beBytes 2 (u.value / 2 ^ 64) ++ (QUuid.beBytes 2 (u.value / 2 ^ 48) ++
        QUuid.beBytes 6 u.value)))).midLen 4 2 = QUuid.beBytes 2 (u.value / 2 ^ 80) :=
    (r1 0 2).trans m2
  have q3 : (QUuid.beBytes 4 (u.value / 2 ^ 96) ++ (QUuid.beBytes 2 (u.value / 2 ^ 80) ++
        (QUuid.beBytes 2 (u.value / 2 ^ 64) ++ (QUuid.beBytes 2 (u.value / 2 ^ 48) ++
        QUuid.beBytes 6 u.value)))).midLen 6 2 = QUuid.beBytes 2 (u.value / 2 ^ 64) :=
    (r1 2 2).trans ((r2 0 2).trans m3)
  have q4 : (QUuid.beBytes 4 (u.value / 2 ^ 96) ++ (QUuid.beBytes 2 (u.value / 2 ^ 80) ++
        (QUuid.beBytes 2 (u.value / 2 ^ 64) ++ (QUuid.beBytes 2 (u.value / 2 ^ 48) ++
        QUuid.beBytes 6 u.value)))).midLen 8 2 = QUuid.beBytes 2 (u.value / 2 ^ 48) :=
    (r1 4 2).trans ((r2 2 2).trans ((r3 0 2).trans m4))
  have q5 : (QUuid.beBytes 4 (u.value / 2 ^ 96) ++ (QUuid.beBytes 2 (u.value / 2 ^ 80) ++
        (QUuid.beBytes 2 (u.value / 2 ^ 64) ++ (QUuid.beBytes 2 (u.value / 2 ^ 48) ++
        QUuid.beBytes 6 u.value)))).midLen 10 6 = QUuid.beBytes 6 u.value :=
    (r1 6 6).trans ((r2 4 6).trans ((r3 2 6).trans ((r4 0 6).trans m5)))
  unfold canonicalUuidText QUuid.toRfc4122
  rw [hsplit, m1, q2, q3, q4, q5]
  simp only [QByteArray.toHex_beBytes, QUuid.toByteArray, List.append_assoc, List.cons_append]

theorem canonicalUuidText_length (u : QUuid) : (canonicalUuidText u.toRfc4122).length = 36 := by
  have h := congrArg List.length (QUuid.toByteArray_eq_canonical u)
  rw [QUuid.toByteArray_length] at h
  simp only [List.length_cons, List.length_append, List.length_nil] at h
  omega

end Sink

namespace Sink

theorem Key.fromDisplayByteArray_append (a b : QByteArray) (ha : a.length = 38)
    (hb : b.length = 19) :
    Key.fromDisplayByteArray (a ++ b) = some ⟨⟨QUuid.fromByteArray a⟩, ⟨b.toLongLong⟩⟩ := by
  have hmid : (a ++ b).midLen 0 38 = a := QByteArray.midLen_append_left a b 38 ha
  have hmid2 : (a ++ b).mid 38 = b := by
    unfold QByteArray.mid
    rw [List.drop_append_of_le_length (by omega), List.drop_of_length_le (by omega),
      List.nil_append]
  simp only [Key.fromDisplayByteArray, List.length_append, ha, hb, Key.DISPLAY_REPR_SIZE,
    Identifier.DISPLAY_REPR_SIZE, Revision.DISPLAY_REPR_SIZE, if_true, hmid, hmid2,
    Identifier.fromDisplayByteArray, Revision.fromDisplayByteArray,
    Revision.fromInternalByteArray, Revision.INTERNAL_REPR_SIZE]

/-- C22: for every valid key (128-bit identifier, non-negative 64-bit revision)
`Key::fromDisplayByteArray(k.toDisplayByteArray())` passes its size assertions and gives
a key with the identifier and the revision of `k`; the display byte array is the display
form of the identifier followed by the display form of the revision. -/
theorem Key.display_round_trip (k : Key) (h : k.Valid) :
    Key.fromDisplayByteArray k.toDisplayByteArray = some k ∧
    k.toDisplayByteArray = k.id.toDisplayByteArray ++ k.rev.toDisplayByteArray := by
  refine ⟨?_, rfl⟩
  obtain ⟨hid, h0, h1⟩ := h
  have hrev := Revision.toInternalByteArray_eq k.rev h0 h1
  obtain ⟨hlt, h63⟩ := Revision.toNat_lt k.rev.rev h0 h1
  have hidlen : k.id.toDisplayByteArray.length = 38 := QUuid.toByteArray_length k.id.uid
  have hrevlen : k.rev.toDisplayByteArray.length = 19 := by
    unfold Revision.toDisplayByteArray
    rw [hrev, fixedDec_length]; rfl
  have hparse : k.rev.toDisplayByteArray.toLongLong = k.rev.rev := by
    unfold Revision.toDisplayByteArray
    rw [hrev, toLongLong_fixedDec _ _ (by decide) hlt h63]
    exact Int.toNat_of_nonneg h0
  have huuid : QUuid.fromByteArray k.id.toDisplayByteArray = k.id.uid :=
    QUuid.fromByteArray_toByteArray k.id.uid hid
  have h := Key.fromDisplayByteArray_append _ _ hidlen hrevlen
  rw [hparse, huuid] at h
  exact h

theorem Key.display_round_trip_witness :
    Key.fromDisplayByteArray (Key.toDisplayByteArray ⟨⟨⟨77⟩⟩, ⟨5⟩⟩) = some ⟨⟨⟨77⟩⟩, ⟨5⟩⟩ :=
  (Key.display_round_trip ⟨⟨⟨77⟩⟩, ⟨5⟩⟩ ⟨by decide, by decide, by decide⟩).1

/-- C23 (as amended): for every identifier (a 128-bit UUID) the internal form is exactly 16
bytes and round-trips through `fromInternalByteArray`; the display form
(`toDisplayByteArray`, and with the same characters `toDisplayString`) is the canonical
36-character hyphenated text of those 16 bytes enclosed in braces, 38 characters in all,
and round-trips through `fromDisplayByteArray`. -/
theorem Identifier.internal_and_display_forms (i : Identifier) (h : i.uid.value < 2 ^ 128) :
    i.toInternalByteArray.length = 16 ∧
    Identifier.fromInternalByteArray i.toInternalByteArray = some i ∧
    i.toDisplayByteArray = 123 :: (canonicalUuidText i.toInternalByteArray ++ [125]) ∧
    (canonicalUuidText i.toInternalByteArray).length = 36 ∧
    i.toDisplayString = i.toDisplayByteArray ∧
    i.toDisplayByteArray.length = 38 ∧
    Identifier.fromDisplayByteArray i.toDisplayByteArray = some i := by
  have hlen := Identifier.toInternalByteArray_length i
  refine ⟨hlen, ?_, QUuid.toByteArray_eq_canonical i.uid, canonicalUuidText_length i.uid, rfl,
    QUuid.toByteArray_length i.uid, ?_⟩
  · simp only [Identifier.fromInternalByteArray, hlen, Identifier.INTERNAL_REPR_SIZE, if_true]
    have := QUuid.fromRfc4122_toRfc4122 i.uid h
    unfold Identifier.toInternalByteArray
    rw [this]
  · simp only [Identifier.fromDisplayByteArray, Identifier.toDisplayByteArray,
      QUuid.toByteArray_length, Identifier.DISPLAY_REPR_SIZE, if_true,
      QUuid.fromByteArray_toByteArray i.uid h]

theorem Identifier.internal_and_display_forms_witness :
    Identifier.fromDisplayByteArray (Identifier.toDisplayByteArray ⟨⟨77⟩⟩) = some ⟨⟨77⟩⟩ :=
  (Identifier.internal_and_display_forms ⟨⟨77⟩⟩ (by decide)).2.2.2.2.2.2

/-- C23 (as stated) fails: the display form of the null identifier has 38 characters, the
first and the last being braces. -/
theorem Identifier.display_form_has_braces :
    (Identifier.toDisplayByteArray ⟨⟨0⟩⟩).length = 38 ∧
    (Identifier.toDisplayByteArray ⟨⟨0⟩⟩).head? = some 123 ∧
    (Identifier.toDisplayByteArray ⟨⟨0⟩⟩).getLast? = some 125 := by
  decide

end Sink


namespace Sink

/-! ## A miss of `findLatest` -/

end Sink


namespace Sink

/-! ## The marker check on a database with duplicates -/

theorem isInternalKey_of_startsWith (k current : QByteArray) (hk : isInternalKey k = true)
    (hs : current.startsWith k = true) : isInternalKey current = true := by
  unfold isInternalKey QByteArray.startsWith at *
  rw [List.isPrefixOf_iff_prefix] at *
  exact hk.trans hs

theorem scanLoop_internal_key {σ : Type} (entries : List Entry) (k : QByteArray)
    (h : σ → QByteArray → QByteArray → Bool × σ) (nextOp : MDB_cursor_op)
    (hk : isInternalKey k = true) :
    ∀ (fuel : Nat) (cursor : Option MDB_cursor) (key data : QByteArray) (st : ScanState σ),
      (scanLoop entries k h true nextOp fuel cursor key data st).numberOfRetrievedValues
          = st.numberOfRetrievedValues ∧
        (scanLoop entries k h true nextOp fuel cursor key data st).state = st.state ∧
        (scanLoop entries k h true nextOp fuel cursor key data st).calls = st.calls := by
  intro fuel
  induction fuel with
  | zero => intro cursor key data st; exact ⟨rfl, rfl, rfl⟩
  | succ f ih =>
    intro cursor key data st
    simp only [scanLoop]
    by_cases hrc : (mdb_cursor_get entries cursor key data nextOp).rc = 0
    · by_cases hs : (mdb_cursor_get entries cursor key data nextOp).key.startsWith k = true
      · have hint := isInternalKey_of_startsWith k _ hk hs
        simp only [hrc, hs, hint, if_true, Bool.and_self, Bool.not_true, Bool.false_eq_true,
          if_false]
        exact ih _ _ _ _
      · simp only [hrc, hs, if_true, if_false]
        exact ih _ _ _ _
    · simp [hrc]

theorem scanFirst_internal_key {σ : Type} (d : NamedDatabase) (k : QByteArray)
    (h : σ → QByteArray → QByteArray → Bool × σ) (s0 : σ) (findSub : Bool) (g : CursorGet)
    (hk : isInternalKey k = true) :
    (scanFirst d k h s0 findSub true g).numberOfRetrievedValues = 0 ∧
      (scanFirst d k h s0 findSub true g).state = s0 ∧
      (scanFirst d k h s0 findSub true g).calls = [] := by
  obtain ⟨rc, cursor, key, data⟩ := g
  unfold scanFirst
  by_cases hrc : rc = 0
  · by_cases hs : key.startsWith k = true
    · have hint := isInternalKey_of_startsWith k _ hk hs
      simp only [hrc, hs, hint, if_true, Bool.and_self, Bool.not_true, Bool.false_eq_true,
        if_false, Bool.not_false, Bool.true_or]
      exact scanLoop_internal_key _ _ _ _ hk _ _ _ _ _
    · simp [hrc, hs]
  · simp [hrc]

/-- With `skipInternalKeys = true` a scan for an internal key in a database with duplicates
never calls the result handler and counts nothing. -/
theorem NamedDatabase.scan_internal_key_with_duplicates {σ : Type} (d : NamedDatabase)
    (k : QByteArray) (h : σ → QByteArray → QByteArray → Bool × σ) (s0 : σ)
    (he findSub : Bool) (hdup : d.allowDuplicates = true) (hk : isInternalKey k = true) :
    (d.scan k h s0 he findSub true).numberOfRetrievedValues = 0 ∧
      (d.scan k h s0 he findSub true).state = s0 := by
  have hbody : (scanBody d k h s0 findSub true).numberOfRetrievedValues = 0 ∧
      (scanBody d k h s0 findSub true).state = s0 := by
    unfold scanBody
    simp only [hdup, Bool.or_true, Bool.true_or, if_true]
    have hf := scanFirst_internal_key d k h s0 findSub
      (mdb_cursor_get d.entries none k [] (scanOp d findSub)) hk
    unfold notFoundIsOk
    split
    · exact ⟨hf.1, hf.2.1⟩
    · exact ⟨hf.1, hf.2.1⟩
  unfold NamedDatabase.scan
  split
  · exact ⟨rfl, rfl⟩
  · split
    · exact ⟨rfl, rfl⟩
    · exact hbody

end Sink

namespace Sink

/-- C19 (code): the marker decides only for a database opened without duplicates. On a valid
transaction, when LMDB opens the database and grants the cursor:
without duplicates (and with the content in key order) `openDatabase(name)` returns a
valid database if and only if every stored `__internal_dbname` value equals `name`, and
when there is no such entry a write transaction stores `name` under it and a read-only
transaction writes nothing;
with duplicates, and `skipInternalKeys` left at true, the scan of `ensureCorrectDb` skips
the marker as it skips every internal key, so `openDatabase(name)` returns a valid
database whatever the marker says, logs nothing, and a write transaction writes `name`
under `__internal_dbname` once more. -/
theorem DataStore.Transaction.openDatabase_checks_marker (p : DataStore.Transaction.Private)
    (name : QByteArray) (hasErrorHandler : Bool) (dbi : MDB_dbi)
    (hvalid : p.transaction = true) (hopen : dbi.openRc = 0) (hcursor : dbi.cursorOpenRc = 0) :
    ((⟨true, dbi.entries, false, 0⟩ : NamedDatabase).Sorted → ∀ skipInternalKeys,
      ∃ r, (⟨some p⟩ : DataStore.Transaction).openDatabase name hasErrorHandler false dbi
          skipInternalKeys = some r ∧
        (r.database.isSome = true ↔
          ∀ e ∈ dbi.entries, e.1 = internalDbNameKey → e.2 = name) ∧
        ((∀ e ∈ dbi.entries, e.1 ≠ internalDbNameKey) →
          r.calls = (if p.requestedRead = true then []
            else [MDB_call.mdb_put internalDbNameKey name]) ∧
          (p.requestedRead = false → dbi.putRc = 0 →
            ∃ d, r.database = some d ∧ (internalDbNameKey, name) ∈ d.entries)) ∧
        ((∃ e ∈ dbi.entries, e.1 = internalDbNameKey) → r.calls = [])) ∧
    (∃ r, (⟨some p⟩ : DataStore.Transaction).openDatabase name hasErrorHandler true dbi true
        = some r ∧
      r.database.isSome = true ∧ r.log = [] ∧
      r.calls = (if p.requestedRead = true then []
        else [MDB_call.mdb_put internalDbNameKey name])) := by
  constructor
  · intro hsorted skipInternalKeys
    exact DataStore.Transaction.openDatabase_marker_without_duplicates p name hasErrorHandler
      dbi skipInternalKeys hvalid hopen hcursor hsorted
  · have hscan := NamedDatabase.scan_internal_key_with_duplicates
      ⟨true, dbi.entries, true, dbi.cursorOpenRc⟩ internalDbNameKey
      (ensureCorrectDbHandler name) (false, []) true false rfl (by decide)
    have hk : internalDbNameKey.isEmpty = false := by decide
    by_cases hr : p.requestedRead = true
    · simp [DataStore.Transaction.openDatabase, hvalid, NamedDatabase.Private.openDatabase,
        hopen, ensureCorrectDb, hscan.1, hscan.2, hr]
    · have hr' : p.requestedRead = false := by simpa using hr
      by_cases hput : dbi.putRc = 0
      · simp [DataStore.Transaction.openDatabase, hvalid, NamedDatabase.Private.openDatabase,
          hopen, ensureCorrectDb, hscan.1, hscan.2, hr', NamedDatabase.write, hk, hput]
      · simp [DataStore.Transaction.openDatabase, hvalid, NamedDatabase.Private.openDatabase,
          hopen, ensureCorrectDb, hscan.1, hscan.2, hr', NamedDatabase.write, hk, hput]

/-- The database that records the name `mail`, opened with duplicates as `mai` in a write
transaction: the result is a valid database, nothing is logged, and `mai` is written under
`__internal_dbname`. -/
theorem DataStore.Transaction.openDatabase_checks_marker_witness :
    ∃ r, (⟨some ⟨true, false, false, false⟩⟩ : DataStore.Transaction).openDatabase
        [109, 97, 105] false true mailDbi true = some r ∧
      r.database.isSome = true ∧ r.log = [] ∧
      r.calls = [MDB_call.mdb_put internalDbNameKey [109, 97, 105]] ∧
      (internalDbNameKey, [109, 97, 105, 108]) ∈ mailDbi.entries :=
  (DataStore.Transaction.openDatabase_checks_marker ⟨true, false, false, false⟩
    [109, 97, 105] false mailDbi rfl rfl rfl).2.imp
    (fun _ h => ⟨h.1, h.2.1, h.2.2.1, h.2.2.2, by decide⟩)

end Sink


namespace Sink

/-- The same open with `skipInternalKeys = false`: the marker is compared, the mismatch is
logged and the result is the invalid database. -/
theorem DataStore.Transaction.openDatabase_with_duplicates_not_skipping :
    (⟨some ⟨true, false, false, false⟩⟩ : DataStore.Transaction).openDatabase
        [109, 97, 105] false true mailDbi false
      = some ⟨none, ⟨some ⟨true, false, true, false⟩⟩, [], [],
          [.openedTheWrongDatabase [109, 97, 105, 108] [109, 97, 105],
           .failedToOpenTheDatabase [109, 97, 105]]⟩ := by
  decide

end Sink


namespace Sink

/-! ## Tree queries -/

/-- The filter that `executeInitialQuery` adds is on the property named `parent`, whatever
`query.parentProperty` is: unless an index already applied it, every entity handed to the
provider's `add` or `modify` in the run for the parent id `X` has `parent` equal to `X`
or no valid `parent`. -/
theorem GenericFacade.executeInitialQuery_restricts_parent (f : GenericFacade) (query : Query)
    (parent : QByteArray) (t : Transaction) (value : ApplicationDomainType)
    (hindex : parentPropertyName ∉ (f.queryIndexes
      { query with propertyFilter := query.propertyFilter.insert parentPropertyName (some parent) }
      t).2)
    (hcall : ProviderCall.add value ∈ (f.executeInitialQuery query parent t).1 ∨
      ProviderCall.modify value ∈ (f.executeInitialQuery query parent t).1) :
    value.getProperty parentPropertyName = some parent ∨
      value.getProperty parentPropertyName = none := by
  have hremaining : ∀ rs : ResultSet × List QByteArray,
      rs = f.loadInitialResultSet
        { query with propertyFilter := query.propertyFilter.insert parentPropertyName (some parent) }
        t → parentPropertyName ∈ rs.2 := by
    intro rs hrs
    subst hrs
    have hmem : parentPropertyName ∈ List.filter
        (fun k => !(f.queryIndexes
          { query with
            propertyFilter := query.propertyFilter.insert parentPropertyName (some parent) }
          t).2.contains k)
        (QVariantHash.keys (query.propertyFilter.insert parentPropertyName (some parent))) := by
      rw [List.mem_filter]
      refine ⟨?_, ?_⟩
      · unfold QVariantHash.keys QVariantHash.insert
        exact List.mem_cons_self _ _
      · simpa using hindex
    unfold GenericFacade.loadInitialResultSet
    simp only
    split
    · exact hmem
    · exact hmem
  have hdelivered : ∀ op, op ≠ Operation.Operation_Removal →
      (value, op) ∈ f.filterSet
        (f.loadInitialResultSet
          { query with
            propertyFilter := query.propertyFilter.insert parentPropertyName (some parent) }
          t).1
        (getFilter
          (f.loadInitialResultSet
            { query with
              propertyFilter := query.propertyFilter.insert parentPropertyName (some parent) }
            t).2
          { query with
            propertyFilter := query.propertyFilter.insert parentPropertyName (some parent) })
        t false →
      (value.getProperty parentPropertyName = some parent ∨
        value.getProperty parentPropertyName = none) := by
    intro op hop hmem
    rw [GenericFacade.mem_filterSet_iff] at hmem
    obtain ⟨key, _, _, hf | hf⟩ := hmem
    · rw [getFilter_eq_true_iff] at hf
      cases hp : value.getProperty parentPropertyName with
      | none => exact Or.inr rfl
      | some w =>
        have := hf parentPropertyName (hremaining _ rfl) w hp
        simp only [QVariantHash.value_insert] at this
        exact Or.inl this.symm
    · exact absurd hf hop
  unfold GenericFacade.executeInitialQuery GenericFacade.load at hcall
  simp only [List.mem_append, List.mem_singleton, mem_replaySet_add, mem_replaySet_modify,
    reduceCtorEq, or_false] at hcall
  rcases hcall with h | h
  · exact hdelivered _ (by decide) h
  · exact hdelivered _ (by decide) h

/-- C14 (code): `executeInitialQuery` never reads `query.parentProperty`; the filter it adds
is on the property named `parent`. The store holds entity 1 with `parent` = `x` and
`uid` = `y` and entity 2 with `parent` = `y` and `uid` = `x`; for a query with
`parentProperty` = `uid`, the run for the expansion of the parent id `x` hands entity 1 to
the provider, whose `uid` is not `x`, and not entity 2, whose `uid` is `x`; the run with
`parentProperty` = `parent` makes the same calls. -/
theorem GenericFacade.executeInitialQuery_ignores_parentProperty :
    (treeFacade.executeInitialQuery ⟨[], [], false, uidPropertyName⟩ [120] treeStore).1
      = [ProviderCall.add parentXUidY, ProviderCall.setRevision 2] ∧
    parentXUidY.getProperty uidPropertyName = some [121] ∧
    parentYUidX.getProperty uidPropertyName = some [120] ∧
    (treeFacade.executeInitialQuery ⟨[], [], false, parentPropertyName⟩ [120] treeStore).1
      = (treeFacade.executeInitialQuery ⟨[], [], false, uidPropertyName⟩ [120] treeStore).1 := by
  decide

end Sink


namespace Sink

/-! ## One incremental run -/

/-- The run of the sample facade for a provider at revision 2 on the sample store: the
entity is read at revision 3, its creation, and at revision 4, its removal, and handed to
`add` and to `remove`; then the revision is set to 4. -/
theorem GenericFacade.executeIncrementalQuery_sample :
    (sampleFacade.executeIncrementalQuery ⟨[], [], true, []⟩ 2 sampleTransaction).1
      = [ProviderCall.add ⟨[114, 49], QUuid.toRfc4122 ⟨2⟩, 3, []⟩,
         ProviderCall.remove sampleRemoved, ProviderCall.setRevision 4] := by
  decide

end Sink


namespace Sink

/-! ## Consecutive incremental runs -/

end Sink

namespace Sink

end Sink

namespace Sink

/-- The two runs of the sample facade over the sample store, first as it was after revision
2 and then after revision 4, for a provider that starts at revision 0: the first run
replays the revisions 1 and 2, the second one the revisions 3 and 4. -/
theorem GenericFacade.incrementalRuns_sample :
    sampleFacade.incrementalRuns ⟨[], [], true, []⟩ 0 [sampleTransactionAt2, sampleTransaction]
      = [[ProviderCall.add ⟨[114, 49], QUuid.toRfc4122 ⟨1⟩, 1, []⟩,
          ProviderCall.modify sampleModified, ProviderCall.setRevision 2],
         [ProviderCall.add ⟨[114, 49], QUuid.toRfc4122 ⟨2⟩, 3, []⟩,
          ProviderCall.remove sampleRemoved, ProviderCall.setRevision 4]] := by
  decide

end Sink
